import Mathlib

/-! Level-synchronous weighted BFS over a rooted tree: a shallow embedding of
`src/bfs_tree/bfs_tree.cpp` and the properties of its strategies.

Modelling conventions
* `std::vector<T>` is a `List T`; `push_back x` is `· ++ [x]`, `v[i] = x` is a bounds-checked
  `List.set`, `resize`, `swap` and `clear` are spelled out.
* Vertex ids, sizes, offsets and `depth` (C++ `int` / `size_t`) are natural numbers.  On the
  inputs considered they are bounded by the vertex count, which itself is an `int`.
* Vertex weights (C++ `int`) are integers; `static_cast<uint64_t>` is reduction modulo `2^64`
  and all `uint64_t` arithmetic is performed modulo `2^64`.
* An access outside the bounds of a vector is undefined behaviour in the source; the embedding
  reports it as `Outcome.outOfRange`.
* `while` loops take a fuel argument bounding the number of times the loop body may run;
  running out of fuel is reported as `Outcome.outOfFuel`.
* The counter `depth` leaves the bound of the vertex count in one run only, the pooled loop on a
  tree with a part cut off from the root; that run is modelled by `ComputeSumPoolSimple.intLoop`,
  which keeps `depth` in the type `int`.
-/

namespace BfsTree

/-! ## Outcomes -/

/-- Result of running a fragment of the program. -/
inductive Outcome (α : Type) where
  | ok (value : α)
  | outOfRange
  | outOfFuel
  deriving DecidableEq, Repr

/-- Sequencing: run `k` on the value of `x`, or propagate the failure of `x`. -/
def Outcome.bind {α β : Type} (x : Outcome α) (k : α → Outcome β) : Outcome β :=
  match x with
  | .ok value => k value
  | .outOfRange => .outOfRange
  | .outOfFuel => .outOfFuel

/-- Failure of an optional read is an out-of-range access. -/
def Outcome.ofOption {α : Type} : Option α → Outcome α
  | some value => .ok value
  | none => .outOfRange

/-! ## 64-bit unsigned arithmetic -/

/-- Number of values of `uint64_t`. -/
def UINT64_SIZE : Nat := 2 ^ 64

/-- The conversion `static_cast<uint64_t>(x)` of a signed value. -/
def static_cast_uint64 (x : Int) : Nat := (x % (2 ^ 64 : Int)).toNat

/-- The term `static_cast<uint64_t>(weight) * depth` added to `sum` for one vertex:
`depth` is converted to `uint64_t` and the product wraps. -/
def weightedTerm (weight : Int) (depth : Nat) : Nat :=
  (static_cast_uint64 weight * (depth % UINT64_SIZE)) % UINT64_SIZE

/-- The statement `sum += term` on `uint64_t`. -/
def addU64 (sum term : Nat) : Nat := (sum + term) % UINT64_SIZE

/-! ## The tree store: `class Graph` -/

/-- The private members of `class Graph`. -/
structure Graph where
  adjacency_lists_ : List (List Nat)
  vertex_weights_ : List Int
  deriving DecidableEq, Repr

/-- The constructor `Graph(int vertex_count)`: empty adjacency lists, zero weights. -/
def Graph.construct (vertex_count : Nat) : Graph :=
  { adjacency_lists_ := List.replicate vertex_count [],
    vertex_weights_ := List.replicate vertex_count 0 }

/-- The method `AddEdge`: `adjacency_lists_[vertex_from].push_back(vertex_to)`. -/
def Graph.AddEdge (graph : Graph) (vertex_from vertex_to : Nat) : Outcome Graph :=
  match graph.adjacency_lists_[vertex_from]? with
  | some children =>
    .ok { graph with
          adjacency_lists_ := graph.adjacency_lists_.set vertex_from (children ++ [vertex_to]) }
  | none => .outOfRange

/-- The method `GetVertexCount`. -/
def Graph.GetVertexCount (graph : Graph) : Nat := graph.adjacency_lists_.length

/-- The method `GetAdjacentVertices`: `adjacency_lists_[vertex]`. -/
def Graph.GetAdjacentVertices (graph : Graph) (vertex : Nat) : Option (List Nat) :=
  graph.adjacency_lists_[vertex]?

/-- The reading `operator[]`: `vertex_weights_[vertex]`. -/
def Graph.weightAt (graph : Graph) (vertex : Nat) : Option Int :=
  graph.vertex_weights_[vertex]?

/-- The writing `operator[]`, as in `graph[vertex] = weight`. -/
def Graph.setWeight (graph : Graph) (vertex : Nat) (weight : Int) : Outcome Graph :=
  if vertex < graph.vertex_weights_.length then
    .ok { graph with vertex_weights_ := graph.vertex_weights_.set vertex weight }
  else .outOfRange

/-! ## Vector operations and the level loop shared by all strategies -/

/-- The variables of the level loop that live across iterations
(`states` is only used by the offset-precomputed strategies). -/
structure LoopState where
  sum : Nat
  depth : Nat
  vertices_to_process : List Nat
  next_vertices : List Nat
  states : List Nat
  deriving DecidableEq, Repr

/-- A loop `while (cond) body`, run for at most `fuel` executions of the body.
Returns the states in which the body was entered, and the state in which the loop was left. -/
def whileTrace {σ : Type} (cond : σ → Bool) (body : σ → Outcome σ) :
    Nat → σ → Outcome (List σ × σ)
  | 0, st => if cond st then .outOfFuel else .ok ([], st)
  | fuel + 1, st =>
    if cond st then
      (body st).bind fun st' =>
        (whileTrace cond body fuel st').bind fun r => .ok (st :: r.1, r.2)
    else .ok ([], st)

/-- A loop `while (cond) body`, run for at most `fuel` executions of the body.
Returns the state in which the loop was left. -/
def whileLoop {σ : Type} (cond : σ → Bool) (body : σ → Outcome σ) : Nat → σ → Outcome σ
  | 0, st => if cond st then .outOfFuel else .ok st
  | fuel + 1, st =>
    if cond st then (body st).bind fun st' => whileLoop cond body fuel st'
    else .ok st

/-- The loop guard `!vertices_to_process.empty()`. -/
def frontierNonEmpty (st : LoopState) : Bool := !st.vertices_to_process.isEmpty

/-- The method `vector::resize(count)` on a vector of `int`: truncate, or pad with zeros. -/
def resize (v : List Nat) (count : Nat) : List Nat :=
  v.take count ++ List.replicate (count - v.length) 0

/-- The algorithm `std::copy(first, last, d_first)` into a vector `dest`, starting at index
`d_first` of `dest`. -/
def copy : List Nat → List Nat → Nat → Outcome (List Nat)
  | [], dest, _ => .ok dest
  | x :: rest, dest, d_first =>
    if d_first < dest.length then copy rest (dest.set d_first x) (d_first + 1)
    else .outOfRange

/-- The algorithm `std::transform_exclusive_scan(first, last, d_first, init, plus<>{}, unary_op)`
with the sequential policy: element `i` of the output receives `init` plus the images of the
input elements before position `i`.  `out` is the vector written to, from index `d_first` on. -/
def transform_exclusive_scan (unary_op : Nat → Outcome Nat) :
    List Nat → List Nat → Nat → Nat → Outcome (List Nat)
  | [], out, _, _ => .ok out
  | x :: rest, out, d_first, init =>
    (unary_op x).bind fun value =>
      if d_first < out.length then
        transform_exclusive_scan unary_op rest (out.set d_first init) (d_first + 1) (init + value)
      else .outOfRange

/-! ## `ComputeSumSimple` -/

/-- The state in which `ComputeSumSimple` enters its level loop:
`sum = 0`, `depth = 0`, `vertices_to_process = { 0 }`, `next_vertices` empty
(the function has no `states`). -/
def ComputeSumSimple.initial : LoopState :=
  { sum := 0, depth := 0, vertices_to_process := [0], next_vertices := [], states := [] }

/-- The inner loop `for (vertex_to : children) next_vertices.push_back(vertex_to)`. -/
def pushBackAll (next_vertices : List Nat) : List Nat → List Nat
  | [] => next_vertices
  | vertex_to :: rest => pushBackAll (next_vertices ++ [vertex_to]) rest

/-- The loop `for (vertex_from : vertices_to_process)` of `ComputeSumSimple` (lines 66-71),
threading `sum` and `next_vertices`. -/
def ComputeSumSimple.forEach (graph : Graph) (depth : Nat) :
    List Nat → Nat → List Nat → Outcome (Nat × List Nat)
  | [], sum, next_vertices => .ok (sum, next_vertices)
  | vertex_from :: rest, sum, next_vertices =>
    (Outcome.ofOption (graph.weightAt vertex_from)).bind fun weight =>
    (Outcome.ofOption (graph.GetAdjacentVertices vertex_from)).bind fun children =>
      ComputeSumSimple.forEach graph depth rest
        (addU64 sum (weightedTerm weight depth)) (pushBackAll next_vertices children)

/-- One execution of the body of the `while` loop of `ComputeSumSimple` (lines 65-73). -/
def ComputeSumSimple.body (graph : Graph) (st : LoopState) : Outcome LoopState :=
  let depth := st.depth + 1
  (ComputeSumSimple.forEach graph depth st.vertices_to_process st.sum st.next_vertices).bind
    fun r =>
      -- `vertices_to_process.swap(next_vertices); next_vertices.clear();`
      .ok { st with sum := r.1, depth := depth, vertices_to_process := r.2, next_vertices := [] }

/-- The level loop of `ComputeSumSimple` (lines 64-74). -/
def ComputeSumSimple.loop (graph : Graph) (fuel : Nat) (st : LoopState) : Outcome LoopState :=
  whileLoop frontierNonEmpty (ComputeSumSimple.body graph) fuel st

/-- The function `ComputeSumSimple`: the `sum` with which the level loop ends. -/
def ComputeSumSimple (fuel : Nat) (graph : Graph) : Outcome Nat :=
  (ComputeSumSimple.loop graph fuel ComputeSumSimple.initial).bind fun st => .ok st.sum

/-- The frontiers on which the level loop of `ComputeSumSimple` runs its body, in order. -/
def ComputeSumSimple.frontiers (fuel : Nat) (graph : Graph) : Outcome (List (List Nat)) :=
  (whileTrace frontierNonEmpty (ComputeSumSimple.body graph) fuel ComputeSumSimple.initial).bind
    fun r => .ok (r.1.map LoopState.vertices_to_process)

/-- The value of `sum` after the loop `for (vertex_from : vertices_to_process)` of
`ComputeSumSimple` (lines 66-67): the level reduction of the sequential strategy. -/
def ComputeSumSimple.reduce (graph : Graph) (depth sum : Nat) (frontier : List Nat) :
    Outcome Nat :=
  (ComputeSumSimple.forEach graph depth frontier sum []).bind fun r => .ok r.1

/-! ## `ComputeSumSeq` -/

/-- The state in which `ComputeSumSeq` enters its level loop; `states` has `vertex_count`
value-initialised elements. -/
def ComputeSumSeq.initial (graph : Graph) : LoopState :=
  { sum := 0, depth := 0, vertices_to_process := [0], next_vertices := [],
    states := List.replicate graph.GetVertexCount 0 }

/-- The unary operation of the scan: `graph.GetAdjacentVertices(vertex).size()`. -/
def childCount (graph : Graph) (vertex : Nat) : Outcome Nat :=
  (Outcome.ofOption (graph.GetAdjacentVertices vertex)).bind fun children => .ok children.length

/-- The call of `transform_exclusive_scan` in `ComputeSumSeq` (lines 217-226): the Placement
Plan of the frontier is written to the front of `states`. -/
def ComputeSumSeq.placementPlan (graph : Graph) (vertices_to_process states : List Nat) :
    Outcome (List Nat) :=
  transform_exclusive_scan (childCount graph) vertices_to_process states 0 0

/-- The argument of `next_vertices.resize` (lines 229-230):
`states[vertices_to_process.size() - 1] + children(vertices_to_process.back()).size()`. -/
def ComputeSumSeq.nextSize (graph : Graph) (vertices_to_process states : List Nat) :
    Outcome Nat :=
  (Outcome.ofOption vertices_to_process.getLast?).bind fun back =>
  (Outcome.ofOption states[vertices_to_process.length - 1]?).bind fun last_offset =>
  (childCount graph back).bind fun back_count => .ok (last_offset + back_count)

/-- The binary `transform_reduce` of `ComputeSumSeq` (lines 233-247) with the sequential policy:
the frontier is walked together with `states`; each vertex copies its children to
`next_vertices.begin() + local_to` and contributes its weighted term to the sum. -/
def ComputeSumSeq.transformReduce (graph : Graph) (depth : Nat) :
    List Nat → List Nat → Nat → List Nat → Outcome (Nat × List Nat)
  | [], _, sum, next_vertices => .ok (sum, next_vertices)
  | _ :: _, [], _, _ => .outOfRange
  | vertex :: rest, local_to :: states_rest, sum, next_vertices =>
    (Outcome.ofOption (graph.GetAdjacentVertices vertex)).bind fun children =>
    (copy children next_vertices local_to).bind fun next_vertices' =>
    (Outcome.ofOption (graph.weightAt vertex)).bind fun weight =>
      ComputeSumSeq.transformReduce graph depth rest states_rest
        (addU64 sum (weightedTerm weight depth)) next_vertices'

/-- One execution of the body of the `while` loop of `ComputeSumSeq` (lines 213-250). -/
def ComputeSumSeq.body (graph : Graph) (st : LoopState) : Outcome LoopState :=
  let depth := st.depth + 1
  (ComputeSumSeq.placementPlan graph st.vertices_to_process st.states).bind fun states =>
  (ComputeSumSeq.nextSize graph st.vertices_to_process states).bind fun size =>
  let next_vertices := resize st.next_vertices size
  (ComputeSumSeq.transformReduce graph depth st.vertices_to_process states st.sum
      next_vertices).bind fun r =>
    -- `vertices_to_process.swap(next_vertices); next_vertices.clear();`
    .ok { sum := r.1, depth := depth, vertices_to_process := r.2, next_vertices := [],
          states := states }

/-- The level loop of `ComputeSumSeq` (lines 212-251). -/
def ComputeSumSeq.loop (graph : Graph) (fuel : Nat) (st : LoopState) : Outcome LoopState :=
  whileLoop frontierNonEmpty (ComputeSumSeq.body graph) fuel st

/-- The function `ComputeSumSeq`. -/
def ComputeSumSeq (fuel : Nat) (graph : Graph) : Outcome Nat :=
  (ComputeSumSeq.loop graph fuel (ComputeSumSeq.initial graph)).bind fun st => .ok st.sum

/-! ## Strategies that run the lambdas of a level under `execution::par`

Under the parallel policy the calls of the lambda for the vertices of a frontier run concurrently.
The embedding resolves the concurrency by an explicit `schedule`: a function that, at each
depth, rearranges the list of the elementary operations on the shared buffer that the lambda
calls of the level perform, and so fixes the order in which they take effect.  The statements
about these strategies quantify over all schedules that return a permutation of their input;
this covers every interleaving of the lambda calls (and orders that no interleaving produces).
The value of the reduction does not depend on the order of the summands; it is computed by
`weightedReduce`. -/

/-- The value of `transform_reduce(policy, first, last, sum, plus<>{}, lambda)` for a lambda
that returns `static_cast<uint64_t>(graph[vertex]) * depth`. -/
def weightedReduce (graph : Graph) (depth : Nat) : List Nat → Nat → Outcome Nat
  | [], sum => .ok sum
  | vertex :: rest, sum =>
    (Outcome.ofOption (graph.weightAt vertex)).bind fun weight =>
      weightedReduce graph depth rest (addU64 sum (weightedTerm weight depth))

/-- A schedule only rearranges the operations it is given. -/
def IsRearrangement {α : Type} (schedule : Nat → List α → List α) : Prop :=
  ∀ depth operations, (schedule depth operations).Perm operations

/-- The schedule that runs the operations in the order in which a sequential execution issues
them. -/
def inOrder {α : Type} : Nat → List α → List α := fun _ operations => operations

/-- A schedule that runs the operations in the opposite order. -/
def inReverse {α : Type} : Nat → List α → List α := fun _ operations => operations.reverse

/-! ### `ComputeSumPar` -/

/-- The element writes `next_vertices[d_first + i] = children[i]` of one call
`copy(children.begin(), children.end(), next_vertices.begin() + d_first)`, as pairs of an index
and a value. -/
def copyWrites : List Nat → Nat → List (Nat × Nat)
  | [], _ => []
  | child :: rest, d_first => (d_first, child) :: copyWrites rest (d_first + 1)

/-- The element writes of all lambda calls of one level of `ComputeSumPar` (lines 288-293): the
frontier is walked together with `states`, vertex by vertex. -/
def ComputeSumPar.levelWrites (graph : Graph) : List Nat → List Nat → Outcome (List (Nat × Nat))
  | [], _ => .ok []
  | _ :: _, [] => .outOfRange
  | vertex :: rest, local_to :: states_rest =>
    (Outcome.ofOption (graph.GetAdjacentVertices vertex)).bind fun children =>
    (ComputeSumPar.levelWrites graph rest states_rest).bind fun writes =>
      .ok (copyWrites children local_to ++ writes)

/-- Element writes `v[index] = value` taking effect one after the other. -/
def store : List (Nat × Nat) → List Nat → Outcome (List Nat)
  | [], v => .ok v
  | write :: rest, v =>
    if write.1 < v.length then store rest (v.set write.1 write.2) else .outOfRange

/-- One execution of the body of the `while` loop of `ComputeSumPar` (lines 265-299).  The text
is that of `ComputeSumSeq` with the policy `execution::par`: the scan yields the same plan, the
element writes of the lambda calls take effect in the order chosen by `schedule`. -/
def ComputeSumPar.body (graph : Graph) (schedule : Nat → List (Nat × Nat) → List (Nat × Nat))
    (st : LoopState) : Outcome LoopState :=
  let depth := st.depth + 1
  (ComputeSumSeq.placementPlan graph st.vertices_to_process st.states).bind fun states =>
  (ComputeSumSeq.nextSize graph st.vertices_to_process states).bind fun size =>
  let next_vertices := resize st.next_vertices size
  (ComputeSumPar.levelWrites graph st.vertices_to_process states).bind fun writes =>
  (store (schedule depth writes) next_vertices).bind fun next_vertices' =>
  (weightedReduce graph depth st.vertices_to_process st.sum).bind fun sum =>
    -- `vertices_to_process.swap(next_vertices); next_vertices.clear();`
    .ok { sum := sum, depth := depth, vertices_to_process := next_vertices',
          next_vertices := [], states := states }

/-- The level loop of `ComputeSumPar` (lines 264-300). -/
def ComputeSumPar.loop (graph : Graph) (schedule : Nat → List (Nat × Nat) → List (Nat × Nat))
    (fuel : Nat) (st : LoopState) : Outcome LoopState :=
  whileLoop frontierNonEmpty (ComputeSumPar.body graph schedule) fuel st

/-- The function `ComputeSumPar`; its initial state is that of `ComputeSumSeq`. -/
def ComputeSumPar (schedule : Nat → List (Nat × Nat) → List (Nat × Nat)) (fuel : Nat)
    (graph : Graph) : Outcome Nat :=
  (ComputeSumPar.loop graph schedule fuel (ComputeSumSeq.initial graph)).bind fun st =>
    .ok st.sum

/-! ### `ComputeSumSafeVectorAtomic` -/

/-- The children for which the lambda calls of one level execute
`next_vertices[place++] = child` (lines 393-395), vertex by vertex. -/
def ComputeSumSafeVectorAtomic.levelChildren (graph : Graph) : List Nat → Outcome (List Nat)
  | [] => .ok []
  | vertex :: rest =>
    (Outcome.ofOption (graph.GetAdjacentVertices vertex)).bind fun children =>
    (ComputeSumSafeVectorAtomic.levelChildren graph rest).bind fun others =>
      .ok (children ++ others)

/-- The statements `next_vertices[place++] = child` taking effect one after the other, the
increment of the atomic counter `place` and the write forming one step.  Returns the final
value of `place` and the buffer. -/
def ComputeSumSafeVectorAtomic.claimSlots :
    List Nat → Nat → List Nat → Outcome (Nat × List Nat)
  | [], place, next_vertices => .ok (place, next_vertices)
  | child :: rest, place, next_vertices =>
    if place < next_vertices.length then
      ComputeSumSafeVectorAtomic.claimSlots rest (place + 1) (next_vertices.set place child)
    else .outOfRange

/-- One execution of the body of the `while` loop of `ComputeSumSafeVectorAtomic`
(lines 382-403): `next_vertices` is resized to `vertex_count`, `place` starts at `0`, the slots
are claimed in the order chosen by `schedule`, and `next_vertices` is truncated to `place`. -/
def ComputeSumSafeVectorAtomic.body (graph : Graph) (schedule : Nat → List Nat → List Nat)
    (st : LoopState) : Outcome LoopState :=
  let depth := st.depth + 1
  let next_vertices := resize st.next_vertices graph.GetVertexCount
  (ComputeSumSafeVectorAtomic.levelChildren graph st.vertices_to_process).bind fun children =>
  (ComputeSumSafeVectorAtomic.claimSlots (schedule depth children) 0 next_vertices).bind
    fun claimed =>
  (weightedReduce graph depth st.vertices_to_process st.sum).bind fun sum =>
    let next_vertices' := resize claimed.2 claimed.1
    -- `vertices_to_process.swap(next_vertices); next_vertices.clear();`
    .ok { st with sum := sum, depth := depth, vertices_to_process := next_vertices',
                  next_vertices := [] }

/-- The level loop of `ComputeSumSafeVectorAtomic` (lines 381-404). -/
def ComputeSumSafeVectorAtomic.loop (graph : Graph) (schedule : Nat → List Nat → List Nat)
    (fuel : Nat) (st : LoopState) : Outcome LoopState :=
  whileLoop frontierNonEmpty (ComputeSumSafeVectorAtomic.body graph schedule) fuel st

/-- The function `ComputeSumSafeVectorAtomic`; its initial state is that of
`ComputeSumSimple`. -/
def ComputeSumSafeVectorAtomic (schedule : Nat → List Nat → List Nat) (fuel : Nat)
    (graph : Graph) : Outcome Nat :=
  (ComputeSumSafeVectorAtomic.loop graph schedule fuel ComputeSumSimple.initial).bind fun st =>
    .ok st.sum

/-! ## Specification vocabulary: well-formed trees, levels, depth -/

/-- The children list of a vertex, empty for an id that is not a vertex. -/
def Graph.children (graph : Graph) (vertex : Nat) : List Nat :=
  (graph.GetAdjacentVertices vertex).getD []

/-- The weight of a vertex, zero for an id that is not a vertex. -/
def Graph.weight (graph : Graph) (vertex : Nat) : Int :=
  (graph.weightAt vertex).getD 0

/-- Vertices reachable from the root `0` along the children relation. -/
inductive Reachable (graph : Graph) : Nat → Prop where
  | root : Reachable graph 0
  | child {parent vertex : Nat} :
      Reachable graph parent → vertex ∈ graph.children parent → Reachable graph vertex

/-- A well-formed tree: the two vectors of the store have `vertex_count` elements (established by
the constructor of `Graph`), there is a root `0`, every id stored in a children list is a
vertex, the root is nobody's child, every other vertex occurs exactly once over all children
lists, and every vertex is reachable from the root. -/
structure WellFormedTree (graph : Graph) : Prop where
  weights_size : graph.vertex_weights_.length = graph.GetVertexCount
  has_root : 0 < graph.GetVertexCount
  ids_in_range : ∀ v ∈ graph.adjacency_lists_.flatten, v < graph.GetVertexCount
  root_no_parent : 0 ∉ graph.adjacency_lists_.flatten
  one_parent : ∀ v, 1 ≤ v → v < graph.GetVertexCount →
    graph.adjacency_lists_.flatten.count v = 1
  all_reachable : ∀ v, v < graph.GetVertexCount → Reachable graph v

/-- The concatenation, in frontier order, of the children lists of the frontier's vertices. -/
def expand (graph : Graph) (frontier : List Nat) : List Nat :=
  frontier.flatMap graph.children

/-- The frontier of level `k` (counted from `0`): the root alone, then repeated expansion. -/
def frontier (graph : Graph) : Nat → List Nat
  | 0 => [0]
  | k + 1 => expand graph (frontier graph k)

/-- The vertices of the first `k` levels, in the order of the traversal. -/
def visited (graph : Graph) : Nat → List Nat
  | 0 => []
  | k + 1 => visited graph k ++ frontier graph k

/-- The sum over a frontier of the 64-bit terms `weight(v) * depth`. -/
def levelSum (graph : Graph) (depth : Nat) (frontier : List Nat) : Nat :=
  (frontier.map fun v => weightedTerm (graph.weight v) depth).sum

/-- The exact sum over all vertices of `weight(v) * depth(v)`, for a given depth assignment. -/
def weightedDepthSum (graph : Graph) (depth : Nat → Nat) : Int :=
  ((List.range graph.GetVertexCount).map fun v => graph.weight v * (depth v : Int)).sum

/-- The Placement Plan as a pure function: exclusive prefix sums of `counts` starting at
`init`. -/
def prefixSums : Nat → List Nat → List Nat
  | _, [] => []
  | init, count :: rest => init :: prefixSums (init + count) rest

/-- The depth of a vertex, read off the levels: one more than the index of the first level
whose frontier holds the vertex (`0` for an id that none of the first `vertex_count` frontiers
holds). -/
def depthOf (graph : Graph) (v : Nat) : Nat :=
  match (List.range graph.GetVertexCount).find? fun k => decide (v ∈ frontier graph k) with
  | some k => k + 1
  | none => 0

/-- The exact total of the level sums of the first `k` levels, level `j` being summed with
depth `j + 1`. -/
def levelsTotal (graph : Graph) : Nat → Nat
  | 0 => 0
  | k + 1 => levelsTotal graph k + levelSum graph (k + 1) (frontier graph k)

/-- The state of `ComputeSumSimple` at the head of its loop after `k` levels. -/
def ComputeSumSimple.stateAt (graph : Graph) (k : Nat) : LoopState :=
  { sum := levelsTotal graph k % UINT64_SIZE, depth := k, vertices_to_process := frontier graph k,
    next_vertices := [], states := [] }

/-- The numbers of children of the vertices of a frontier, in frontier order. -/
def childCounts (graph : Graph) (frontier : List Nat) : List Nat :=
  frontier.map fun v => (graph.children v).length

/-- The content of `states` in `ComputeSumSeq` at the head of its loop after `k` levels: the
plan of the last level processed, over what older plans left behind. -/
def ComputeSumSeq.statesAt (graph : Graph) : Nat → List Nat
  | 0 => List.replicate graph.GetVertexCount 0
  | k + 1 =>
    prefixSums 0 (childCounts graph (frontier graph k)) ++
      (ComputeSumSeq.statesAt graph k).drop (frontier graph k).length

/-- The state of `ComputeSumSeq` at the head of its loop after `k` levels. -/
def ComputeSumSeq.stateAt (graph : Graph) (k : Nat) : LoopState :=
  { sum := levelsTotal graph k % UINT64_SIZE, depth := k, vertices_to_process := frontier graph k,
    next_vertices := [], states := ComputeSumSeq.statesAt graph k }

/-! ## Concrete trees -/

/-- A hand-built tree of depth 3: weights 1, 2, 3, 4; vertices 1 and 2 are children of the root
and vertex 3 is a child of vertex 1. -/
def exampleTree : Graph :=
  { adjacency_lists_ := [[1, 2], [3], [], []], vertex_weights_ := [1, 2, 3, 4] }

/-- The depths of the vertices of `exampleTree`. -/
def exampleDepth (v : Nat) : Nat := [1, 2, 2, 3].getD v 0

/-- The trees of depth 3 on four vertices with weights 1, 2, 3, 4 in which vertices 1 and 2 are
the children of the root and vertex 3 is a child of one of them. -/
def depthThreeTrees : List Graph :=
  [ { adjacency_lists_ := [[1, 2], [3], [], []], vertex_weights_ := [1, 2, 3, 4] },
    { adjacency_lists_ := [[1, 2], [], [3], []], vertex_weights_ := [1, 2, 3, 4] },
    { adjacency_lists_ := [[2, 1], [3], [], []], vertex_weights_ := [1, 2, 3, 4] },
    { adjacency_lists_ := [[2, 1], [], [3], []], vertex_weights_ := [1, 2, 3, 4] } ]

/-- The tree that consists of its root only, with weight `weight`. -/
def rootOnly (weight : Int) : Graph :=
  { adjacency_lists_ := [[]], vertex_weights_ := [weight] }

/-- The frontier of level `k` in a run of `ComputeSumSafeVectorAtomic` under `schedule`: the
children of the previous frontier in the order in which they claimed their slots. -/
def ComputeSumSafeVectorAtomic.frontierAt (graph : Graph)
    (schedule : Nat → List Nat → List Nat) : Nat → List Nat
  | 0 => [0]
  | k + 1 => schedule (k + 1) (expand graph (ComputeSumSafeVectorAtomic.frontierAt graph schedule k))

/-- The state of `ComputeSumSafeVectorAtomic` at the head of its loop after `k` levels. -/
def ComputeSumSafeVectorAtomic.stateAt (graph : Graph) (schedule : Nat → List Nat → List Nat)
    (k : Nat) : LoopState :=
  { sum := levelsTotal graph k % UINT64_SIZE, depth := k,
    vertices_to_process := ComputeSumSafeVectorAtomic.frontierAt graph schedule k,
    next_vertices := [], states := [] }

/-! ### `ComputeSumMutex` -/

/-- One execution of the body of the `while` loop of `ComputeSumMutex` (lines 314-331).  Every
`next_vertices.push_back(child)` runs under the lock `m`, so the calls take effect one after the
other, in the order chosen by `schedule`; the children pushed are those of the frontier's
vertices (`ComputeSumSafeVectorAtomic.levelChildren` lists them vertex by vertex). -/
def ComputeSumMutex.body (graph : Graph) (schedule : Nat → List Nat → List Nat)
    (st : LoopState) : Outcome LoopState :=
  let depth := st.depth + 1
  (ComputeSumSafeVectorAtomic.levelChildren graph st.vertices_to_process).bind fun children =>
  let next_vertices := pushBackAll st.next_vertices (schedule depth children)
  (weightedReduce graph depth st.vertices_to_process st.sum).bind fun sum =>
    -- `vertices_to_process.swap(next_vertices); next_vertices.clear();`
    .ok { st with sum := sum, depth := depth, vertices_to_process := next_vertices,
                  next_vertices := [] }

/-- The level loop of `ComputeSumMutex` (lines 313-332). -/
def ComputeSumMutex.loop (graph : Graph) (schedule : Nat → List Nat → List Nat)
    (fuel : Nat) (st : LoopState) : Outcome LoopState :=
  whileLoop frontierNonEmpty (ComputeSumMutex.body graph schedule) fuel st

/-- The function `ComputeSumMutex`; its initial state is that of `ComputeSumSimple`
(`next_vertices.reserve` does not change the content of the vector). -/
def ComputeSumMutex (schedule : Nat → List Nat → List Nat) (fuel : Nat) (graph : Graph) :
    Outcome Nat :=
  (ComputeSumMutex.loop graph schedule fuel ComputeSumSimple.initial).bind fun st => .ok st.sum

/-- The store `graph'` holds the weights of `graph` and, for every vertex, a rearrangement of
its children list. -/
def ChildrenPermuted (graph graph' : Graph) : Prop :=
  graph'.vertex_weights_ = graph.vertex_weights_ ∧
    List.Forall₂ List.Perm graph.adjacency_lists_ graph'.adjacency_lists_

/-- The tree `exampleTree` with the children of the root in the other order. -/
def exampleTreeSwapped : Graph :=
  { adjacency_lists_ := [[2, 1], [3], [], []], vertex_weights_ := [1, 2, 3, 4] }

/-! ## The pooled variants `ComputeSumPoolSimple` and `ComputeSumPoolSeq` -/

/-- The variables of the `for` loop of the pooled variants: the level being processed is the
window `[from, to)` of `pool` (`from` and `to` are spelled `from_` and `to_`; `states` is only
used by `ComputeSumPoolSeq`). -/
structure PoolState where
  sum : Nat
  depth : Nat
  from_ : Nat
  to_ : Nat
  next_to : Nat
  pool : List Nat
  states : List Nat
  deriving DecidableEq, Repr

/-- The loop guard `from < vertex_count`. -/
def poolGuard (vertex_count : Nat) (st : PoolState) : Bool := decide (st.from_ < vertex_count)

/-- The inner loop `for (const int child : children) pool[next_to++] = child` of
`ComputeSumPoolSimple` (lines 117-119).  Returns the new `next_to` and the pool. -/
def ComputeSumPoolSimple.storeChildren : List Nat → Nat → List Nat → Outcome (Nat × List Nat)
  | [], next_to, pool => .ok (next_to, pool)
  | child :: rest, next_to, pool =>
    if next_to < pool.length then
      ComputeSumPoolSimple.storeChildren rest (next_to + 1) (pool.set next_to child)
    else .outOfRange

/-- The loop `for (int i = from; i < to; ++i)` of `ComputeSumPoolSimple` (lines 114-120) with
`remaining` iterations to go, the next one at index `i`.  Returns `sum`, `next_to` and the
pool. -/
def ComputeSumPoolSimple.forRange (graph : Graph) (depth : Nat) :
    Nat → Nat → Nat → Nat → List Nat → Outcome (Nat × Nat × List Nat)
  | 0, _, sum, next_to, pool => .ok (sum, next_to, pool)
  | remaining + 1, i, sum, next_to, pool =>
    (Outcome.ofOption pool[i]?).bind fun vertex =>
    (Outcome.ofOption (graph.weightAt vertex)).bind fun weight =>
    (Outcome.ofOption (graph.GetAdjacentVertices vertex)).bind fun children =>
    (ComputeSumPoolSimple.storeChildren children next_to pool).bind fun stored =>
      ComputeSumPoolSimple.forRange graph depth remaining (i + 1)
        (addU64 sum (weightedTerm weight depth)) stored.1 stored.2

/-- One iteration of the outer `for` loop of `ComputeSumPoolSimple` (lines 112-121): the body,
then the step `from = to, to = next_to`. -/
def ComputeSumPoolSimple.body (graph : Graph) (st : PoolState) : Outcome PoolState :=
  let depth := st.depth + 1
  (ComputeSumPoolSimple.forRange graph depth (st.to_ - st.from_) st.from_ st.sum st.next_to
      st.pool).bind fun r =>
    .ok { st with sum := r.1, depth := depth, from_ := st.to_, to_ := r.2.1, next_to := r.2.1,
                  pool := r.2.2 }

/-- The state in which `ComputeSumPoolSimple` enters its loop: `from = 0`, `to = 1`,
`next_to = 1`, a pool of `vertex_count` zeros (the function has no `states`). -/
def ComputeSumPoolSimple.initial (graph : Graph) : PoolState :=
  { sum := 0, depth := 0, from_ := 0, to_ := 1, next_to := 1,
    pool := List.replicate graph.GetVertexCount 0, states := [] }

/-- The outer loop of `ComputeSumPoolSimple`. -/
def ComputeSumPoolSimple.loop (graph : Graph) (fuel : Nat) (st : PoolState) :
    Outcome PoolState :=
  whileLoop (poolGuard graph.GetVertexCount) (ComputeSumPoolSimple.body graph) fuel st

/-- The function `ComputeSumPoolSimple`. -/
def ComputeSumPoolSimple (fuel : Nat) (graph : Graph) : Outcome Nat :=
  (ComputeSumPoolSimple.loop graph fuel (ComputeSumPoolSimple.initial graph)).bind fun st =>
    .ok st.sum

/-- The elements `[first, last)` of a vector, as read through the iterator pair
`(v.begin() + first, v.begin() + last)`. -/
def window (v : List Nat) (first last : Nat) : Outcome (List Nat) :=
  if first ≤ last ∧ last ≤ v.length then .ok ((v.drop first).take (last - first))
  else .outOfRange

/-- The binary `transform_reduce` of `ComputeSumPoolSeq` (lines 144-158) with the sequential
policy, `remaining` elements to go, the next one at index `i` of `pool` and of `states`: the
vertex `pool[i]` copies its children to `pool.begin() + states[i]` and contributes its weighted
term. -/
def ComputeSumPoolSeq.transformReduce (graph : Graph) (depth : Nat) :
    Nat → Nat → List Nat → Nat → List Nat → Outcome (Nat × List Nat)
  | 0, _, _, sum, pool => .ok (sum, pool)
  | remaining + 1, i, states, sum, pool =>
    (Outcome.ofOption pool[i]?).bind fun vertex =>
    (Outcome.ofOption states[i]?).bind fun local_to =>
    (Outcome.ofOption (graph.GetAdjacentVertices vertex)).bind fun children =>
    (copy children pool local_to).bind fun pool' =>
    (Outcome.ofOption (graph.weightAt vertex)).bind fun weight =>
      ComputeSumPoolSeq.transformReduce graph depth remaining (i + 1) states
        (addU64 sum (weightedTerm weight depth)) pool'

/-- One iteration of the outer `for` loop of `ComputeSumPoolSeq` (lines 131-160): the scan over
the window of the pool into the same window of `states` starting from `next_to`, the reduction,
the new `next_to = states[to - 1] + children(pool[to - 1]).size()`, then the step
`from = to, to = next_to`. -/
def ComputeSumPoolSeq.body (graph : Graph) (st : PoolState) : Outcome PoolState :=
  let depth := st.depth + 1
  (window st.pool st.from_ st.to_).bind fun level =>
  (transform_exclusive_scan (childCount graph) level st.states st.from_ st.next_to).bind
    fun states =>
  (ComputeSumPoolSeq.transformReduce graph depth (st.to_ - st.from_) st.from_ states st.sum
      st.pool).bind fun r =>
  (Outcome.ofOption states[st.to_ - 1]?).bind fun last_offset =>
  (Outcome.ofOption r.2[st.to_ - 1]?).bind fun last_vertex =>
  (childCount graph last_vertex).bind fun last_count =>
    let next_to := last_offset + last_count
    .ok { sum := r.1, depth := depth, from_ := st.to_, to_ := next_to, next_to := next_to,
          pool := r.2, states := states }

/-- The state in which `ComputeSumPoolSeq` enters its loop; `pool` and `states` have
`vertex_count` zeros. -/
def ComputeSumPoolSeq.initial (graph : Graph) : PoolState :=
  { sum := 0, depth := 0, from_ := 0, to_ := 1, next_to := 1,
    pool := List.replicate graph.GetVertexCount 0,
    states := List.replicate graph.GetVertexCount 0 }

/-- The outer loop of `ComputeSumPoolSeq`. -/
def ComputeSumPoolSeq.loop (graph : Graph) (fuel : Nat) (st : PoolState) : Outcome PoolState :=
  whileLoop (poolGuard graph.GetVertexCount) (ComputeSumPoolSeq.body graph) fuel st

/-- The function `ComputeSumPoolSeq`. -/
def ComputeSumPoolSeq (fuel : Nat) (graph : Graph) : Outcome Nat :=
  (ComputeSumPoolSeq.loop graph fuel (ComputeSumPoolSeq.initial graph)).bind fun st =>
    .ok st.sum

/-- The state of `ComputeSumPoolSimple` at the head of its loop after `k` levels of a
well-formed tree: the pool holds the vertices of the first `k + 1` levels, followed by zeros,
and the window `[from, to)` is the frontier of level `k`. -/
def ComputeSumPoolSimple.stateAt (graph : Graph) (k : Nat) : PoolState :=
  { sum := levelsTotal graph k % UINT64_SIZE, depth := k,
    from_ := (visited graph k).length, to_ := (visited graph (k + 1)).length,
    next_to := (visited graph (k + 1)).length,
    pool := visited graph (k + 1) ++
      List.replicate (graph.GetVertexCount - (visited graph (k + 1)).length) 0,
    states := [] }

/-- The content of `states` in `ComputeSumPoolSeq` at the head of its loop after `k` levels. -/
def ComputeSumPoolSeq.statesAt (graph : Graph) : Nat → List Nat
  | 0 => List.replicate graph.GetVertexCount 0
  | k + 1 =>
    (ComputeSumPoolSeq.statesAt graph k).take (visited graph k).length ++
      prefixSums (visited graph (k + 1)).length (childCounts graph (frontier graph k)) ++
      (ComputeSumPoolSeq.statesAt graph k).drop (visited graph (k + 1)).length

/-- The state of `ComputeSumPoolSeq` at the head of its loop after `k` levels of a well-formed
tree. -/
def ComputeSumPoolSeq.stateAt (graph : Graph) (k : Nat) : PoolState :=
  { ComputeSumPoolSimple.stateAt graph k with states := ComputeSumPoolSeq.statesAt graph k }

/-- A path on `n` vertices: the only child of vertex `v` is `v + 1`, every vertex has weight
`weight`. -/
def chain (n : Nat) (weight : Int) : Graph :=
  { adjacency_lists_ := (List.range n).map fun v => if v + 1 < n then [v + 1] else [],
    vertex_weights_ := List.replicate n weight }

/-- The depth of vertex `v` of a path: `v + 1`. -/
def chainDepth (v : Nat) : Nat := v + 1

/-- The exact sum over all vertices of `weight(v) * distance(v)`, for a given assignment of
distances from the root. -/
def weightedDistanceSum (graph : Graph) (distance : Nat → Nat) : Int :=
  ((List.range graph.GetVertexCount).map fun v => graph.weight v * (distance v : Int)).sum

/-- The distances from the root of the vertices of `exampleTree` (numbers of edges). -/
def exampleDistance (v : Nat) : Nat := [0, 1, 1, 2].getD v 0

/-! ## `GenerateTree`

The generator `mt19937` is replaced by the values it delivers: `weightDraw vertex` is what
`uniform_int_distribution(0, max_weight)(generator)` returns for `vertex`, and
`parentDraw vertex` is what `uniform_int_distribution(0, vertex - 1)(generator)` returns. -/

/-- The loop `for (int vertex = 0; vertex < vertex_count; ++vertex)` of `GenerateTree`
(lines 49-55) with `remaining` iterations to go, the next one for `vertex`. -/
def GenerateTree.loop (weightDraw : Nat → Int) (parentDraw : Nat → Nat) :
    Nat → Nat → Graph → Outcome Graph
  | 0, _, graph => .ok graph
  | remaining + 1, vertex, graph =>
    (graph.setWeight vertex (weightDraw vertex)).bind fun weighted =>
      if 0 < vertex then
        (weighted.AddEdge (parentDraw vertex) vertex).bind fun linked =>
          GenerateTree.loop weightDraw parentDraw remaining (vertex + 1) linked
      else GenerateTree.loop weightDraw parentDraw remaining (vertex + 1) weighted

/-- The function `GenerateTree`. -/
def GenerateTree (weightDraw : Nat → Int) (parentDraw : Nat → Nat) (vertex_count : Nat) :
    Outcome Graph :=
  GenerateTree.loop weightDraw parentDraw vertex_count 0 (Graph.construct vertex_count)

/-- The draws respect the ranges of the two distributions: every weight is in
`[0, max_weight]` and the parent of every vertex `v ≥ 1` is in `[0, v - 1]`. -/
def DrawsInRange (weightDraw : Nat → Int) (parentDraw : Nat → Nat) (vertex_count : Nat)
    (max_weight : Int) : Prop :=
  ∀ v, v < vertex_count →
    (0 ≤ weightDraw v ∧ weightDraw v ≤ max_weight) ∧ (0 < v → parentDraw v < v)

/-- The store of `GenerateTree` after the iterations for the vertices below `k`: the children
of `p` are the vertices `v` with `0 < v < k` whose parent draw is `p`, in increasing order. -/
def GenerateTree.graphAt (weightDraw : Nat → Int) (parentDraw : Nat → Nat)
    (vertex_count k : Nat) : Graph :=
  { adjacency_lists_ := (List.range vertex_count).map fun p =>
      (List.range k).filter fun v => decide (0 < v ∧ parentDraw v = p),
    vertex_weights_ := (List.range vertex_count).map fun v =>
      if v < k then weightDraw v else 0 }

/-- The store of `GenerateTree` in the middle of the iteration for vertex `k`: the weight of
`k` is set, its edge is not added yet. -/
def GenerateTree.weightedAt (weightDraw : Nat → Int) (parentDraw : Nat → Nat)
    (vertex_count k : Nat) : Graph :=
  { adjacency_lists_ := (List.range vertex_count).map fun p =>
      (List.range k).filter fun v => decide (0 < v ∧ parentDraw v = p),
    vertex_weights_ := (List.range vertex_count).map fun v =>
      if v < k + 1 then weightDraw v else 0 }

end BfsTree

/-! # Splitting a query into words: `SplitIntoWords` of `src/sem1/sem1.cpp`

A `std::string_view` is the list of its characters, a `std::vector<std::string>` a list of
words.  `back()` of an empty vector is undefined behaviour in the source; the embedding
reports it as `none`. -/

namespace Sem1

/-- The statement `words.back().push_back(c)`: the last word of `words` gets `c` appended.
`back()` of an empty vector has no defined result: `none`. -/
def pushBackChar (words : List (List Char)) (c : Char) : Option (List (List Char)) :=
  match words.getLast? with
  | none => none
  | some word => some (words.dropLast ++ [word ++ [c]])

/-- One pass of the body of the loop of `SplitIntoWords` for the character `c`: a space opens
a new empty word (`words.emplace_back()`), any other character is appended to the last word. -/
def SplitIntoWords.step (words : List (List Char)) (c : Char) : Option (List (List Char)) :=
  if c = ' ' then some (words ++ [[]]) else pushBackChar words c

/-- The loop `for (const char c : text)` of `SplitIntoWords`. -/
def SplitIntoWords.loop : List Char → List (List Char) → Option (List (List Char))
  | [], words => some words
  | c :: rest, words => (SplitIntoWords.step words c).bind (SplitIntoWords.loop rest)

/-- `SplitIntoWords` of `sem1.cpp`: `words` starts as the one empty word `{""}`. -/
def SplitIntoWords (text : List Char) : Option (List (List Char)) :=
  SplitIntoWords.loop text [[]]

/-- `std::count(query.begin(), query.end(), ' ')` of `AddQueriesToCheck`. -/
def space_count (query : List Char) : Nat :=
  query.count ' '

/-- The words joined in order, a single space between consecutive words. -/
def joinWords : List (List Char) → List Char
  | [] => []
  | [word] => word
  | word :: next :: rest => word ++ ' ' :: joinWords (next :: rest)

end Sem1

/-! # Searching a sorted vector: `src/binsearch/binsearch.cpp`

Modelling conventions
* A `vector<int>` is a list of integers and an `int` is an integer: an arithmetic result that
  does not fit the 32 bits of an `int` is undefined behaviour in the source and is reported as
  `Run.intOverflow`; so is a size that does not fit the `int` it is assigned to.
* A read or write outside the bounds of a vector or of an array is reported as
  `Run.outOfRange`.
* `CheckNumber` is its comparison; the `sleep_for` that precedes it has no effect on a value.
* `async(CheckNumber, x)` evaluates its argument `x` in the caller; the future it returns
  delivers `CheckNumber x` whenever `get` is called.
* The `while` loop takes a fuel argument bounding the number of executions of its body.
-/

namespace Binsearch

/-- Result of running a fragment of the program. -/
inductive Run (α : Type) where
  | ok (value : α)
  | outOfRange
  | intOverflow
  | outOfFuel
  deriving DecidableEq, Repr

/-- Sequencing: run `k` on the value of `x`, or propagate the failure of `x`. -/
def Run.bind {α β : Type} (x : Run α) (k : α → Run β) : Run β :=
  match x with
  | .ok value => k value
  | .outOfRange => .outOfRange
  | .intOverflow => .intOverflow
  | .outOfFuel => .outOfFuel

/-- The largest `int`. -/
def INT_MAX : Int := 2147483647

/-- The smallest `int`. -/
def INT_MIN : Int := -2147483648

/-- A value computed in the type `int`. -/
def toInt (x : Int) : Run Int :=
  if INT_MIN ≤ x ∧ x ≤ INT_MAX then .ok x else .intOverflow

/-- The quotient `x / y` of two `int`s: rounded toward zero, undefined for `y == 0`. -/
def divInt (x y : Int) : Run Int :=
  if y = 0 then .intOverflow else toInt (x.tdiv y)

/-- The read `v[index]` of a vector or array. -/
def readAt {α : Type} (v : List α) (index : Int) : Run α :=
  if 0 ≤ index then
    match v[index.toNat]? with
    | some x => .ok x
    | none => .outOfRange
  else .outOfRange

/-- The write `v[index] = x` to a vector or array. -/
def writeAt {α : Type} (v : List α) (index : Int) (x : α) : Run (List α) :=
  if 0 ≤ index ∧ index.toNat < v.length then .ok (v.set index.toNat x) else .outOfRange

/-- The function `CheckNumber`. -/
def CheckNumber (x : Int) : Bool := decide (x > 100000000)

/-- The variables `left` and `right` of the search functions. -/
structure Bounds where
  left : Int
  right : Int
  deriving DecidableEq, Repr

/-- The first two statements of every search function:
`int left = -1; int right = numbers.size();`. -/
def initial (numbers : List Int) : Run Bounds :=
  (toInt numbers.length).bind fun right => .ok { left := -1, right := right }

/-- The loop `while (left + 1 < right) body` of every search function, run for at most `fuel`
executions of the body, followed by `return right`. -/
def searchLoop (body : Bounds → Run Bounds) : Nat → Bounds → Run Int
  | 0, st =>
    (toInt (st.left + 1)).bind fun next =>
      if next < st.right then .outOfFuel else .ok st.right
  | fuel + 1, st =>
    (toInt (st.left + 1)).bind fun next =>
      if next < st.right then (body st).bind (searchLoop body fuel) else .ok st.right

/-- The body of the loop of `FindSimple` (lines 33-38). -/
def FindSimple.body (numbers : List Int) (st : Bounds) : Run Bounds :=
  (toInt (st.left + st.right)).bind fun sum =>
  (divInt sum 2).bind fun med =>
  (readAt numbers med).bind fun x =>
    if CheckNumber x then .ok { st with right := med } else .ok { st with left := med }

/-- The function `FindSimple`. -/
def FindSimple (fuel : Nat) (numbers : List Int) : Run Int :=
  (initial numbers).bind (searchLoop (FindSimple.body numbers) fuel)

/-- The probes `med1`, `med2` of the three-way searches:
`dist = max(1, (right - left) / 3)`, `med1 = left + dist`, `med2 = right - dist`. -/
def Find3PartsSeq.probes (st : Bounds) : Run (Int × Int) :=
  (toInt (st.right - st.left)).bind fun width =>
  (divInt width 3).bind fun part =>
    let dist := max 1 part
    (toInt (st.left + dist)).bind fun med1 =>
    (toInt (st.right - dist)).bind fun med2 => .ok (med1, med2)

/-- The narrowing of `[left, right]` common to `Find3PartsSeq` and `Find3PartsPar`
(lines 52-59 and 76-83). -/
def Find3PartsSeq.narrow (st : Bounds) (med1 med2 : Int) (res1 res2 : Bool) : Bounds :=
  if res1 then { st with right := med1 }
  else if !res2 then { st with left := med2 }
  else { left := med1, right := med2 }

/-- The body of the loop of `Find3PartsSeq` (lines 47-59). -/
def Find3PartsSeq.body (numbers : List Int) (st : Bounds) : Run Bounds :=
  (Find3PartsSeq.probes st).bind fun meds =>
  (readAt numbers meds.1).bind fun x1 =>
    let res1 := CheckNumber x1
    (readAt numbers meds.2).bind fun x2 =>
      let res2 := CheckNumber x2
      .ok (Find3PartsSeq.narrow st meds.1 meds.2 res1 res2)

/-- The function `Find3PartsSeq`. -/
def Find3PartsSeq (fuel : Nat) (numbers : List Int) : Run Int :=
  (initial numbers).bind (searchLoop (Find3PartsSeq.body numbers) fuel)

/-- A `future<bool>`: the value that `get` delivers. -/
structure Future where
  get : Bool
  deriving DecidableEq, Repr

/-- The call `async(f, x)` with `x` already evaluated. -/
def async (f : Int → Bool) (x : Int) : Future := { get := f x }

/-- The body of the loop of `Find3PartsPar` (lines 68-83): the first probe is handed to
`async`, the second is checked by the caller, then the future is waited for. -/
def Find3PartsPar.body (numbers : List Int) (st : Bounds) : Run Bounds :=
  (Find3PartsSeq.probes st).bind fun meds =>
  (readAt numbers meds.1).bind fun x1 =>
    let future1 := async CheckNumber x1
    (readAt numbers meds.2).bind fun x2 =>
      let res2 := CheckNumber x2
      let res1 := future1.get
      .ok (Find3PartsSeq.narrow st meds.1 meds.2 res1 res2)

/-- The function `Find3PartsPar`. -/
def Find3PartsPar (fuel : Nat) (numbers : List Int) : Run Int :=
  (initial numbers).bind (searchLoop (Find3PartsPar.body numbers) fuel)

/-- The probes of `Find4PartsPar` (lines 92-95): `dist = max(1, (right - left) / 4)`,
`med1 = left + dist`, `med2 = med1 + dist`, `med3 = right - dist`. -/
def Find4PartsPar.probes (st : Bounds) : Run (Int × Int × Int) :=
  (toInt (st.right - st.left)).bind fun width =>
  (divInt width 4).bind fun part =>
    let dist := max 1 part
    (toInt (st.left + dist)).bind fun med1 =>
    (toInt (med1 + dist)).bind fun med2 =>
    (toInt (st.right - dist)).bind fun med3 => .ok (med1, med2, med3)

/-- The body of the loop of `Find4PartsPar` (lines 92-113). -/
def Find4PartsPar.body (numbers : List Int) (st : Bounds) : Run Bounds :=
  (Find4PartsPar.probes st).bind fun meds =>
  (readAt numbers meds.1).bind fun x1 =>
    let future1 := async CheckNumber x1
    (readAt numbers meds.2.1).bind fun x2 =>
      let future2 := async CheckNumber x2
      (readAt numbers meds.2.2).bind fun x3 =>
        let res3 := CheckNumber x3
        let res1 := future1.get
        let res2 := future2.get
        if res1 then .ok { st with right := meds.1 }
        else if !res3 then .ok { st with left := meds.2.2 }
        else if res2 then .ok { left := meds.1, right := meds.2.1 }
        else .ok { left := meds.2.1, right := meds.2.2 }

/-- The function `Find4PartsPar`. -/
def Find4PartsPar (fuel : Nat) (numbers : List Int) : Run Int :=
  (initial numbers).bind (searchLoop (Find4PartsPar.body numbers) fuel)

/-- The loop `for (int i = 0; i < P - 1; ++i) bounds[i] = left + dist * i` of
`FindNBoundsPar` (lines 126-128), with `remaining` iterations to go, the next one for `i`. -/
def FindNBoundsPar.fillBounds (left dist : Int) : Nat → Int → List Int → Run (List Int)
  | 0, _, bounds => .ok bounds
  | remaining + 1, i, bounds =>
    (toInt (dist * i)).bind fun offset =>
    (toInt (left + offset)).bind fun bound =>
    (writeAt bounds i bound).bind fun written =>
      FindNBoundsPar.fillBounds left dist remaining (i + 1) written

/-- The loop `for (int i = 1; i < P; ++i) futures[i] = async(CheckNumber, numbers[bounds[i]])`
of `FindNBoundsPar` (lines 132-134).  An element of `futures` that no future was assigned to
is `none`. -/
def FindNBoundsPar.launch (numbers bounds : List Int) :
    Nat → Int → List (Option Future) → Run (List (Option Future))
  | 0, _, futures => .ok futures
  | remaining + 1, i, futures =>
    (readAt bounds i).bind fun index =>
    (readAt numbers index).bind fun x =>
    (writeAt futures i (some (async CheckNumber x))).bind fun written =>
      FindNBoundsPar.launch numbers bounds remaining (i + 1) written

/-- The call `futures[i].get()`; `get` on a future that was never assigned has no defined
result. -/
def FindNBoundsPar.futureGet (futures : List (Option Future)) (i : Int) : Run Bool :=
  (readAt futures i).bind fun slot =>
    match slot with
    | some future => .ok future.get
    | none => .outOfRange

/-- The loop `for (int i = 1; i <= P; ++i)` of `FindNBoundsPar` (lines 136-142), which stops at
the first `i` with `i == P || futures[i].get()` and narrows to `[bounds[i - 1], bounds[i]]`;
when it ends without `break`, `left` and `right` are as before. -/
def FindNBoundsPar.select (P : Int) (bounds : List Int) (futures : List (Option Future))
    (st : Bounds) : Nat → Int → Run Bounds
  | 0, _ => .ok st
  | remaining + 1, i =>
    (if i = P then Run.ok true else FindNBoundsPar.futureGet futures i).bind fun taken =>
      if taken then
        (readAt bounds (i - 1)).bind fun left =>
        (readAt bounds i).bind fun right => .ok { left := left, right := right }
      else FindNBoundsPar.select P bounds futures st remaining (i + 1)

/-- The body of the loop of `FindNBoundsPar<P>` (lines 123-142).  The arrays `bounds` and
`futures` have `P + 1` elements; what `bounds` holds before it is assigned is taken as `0`. -/
def FindNBoundsPar.body (P : Nat) (numbers : List Int) (st : Bounds) : Run Bounds :=
  (toInt (st.right - st.left)).bind fun width =>
  (divInt width P).bind fun part =>
    let dist := max 1 part
    (FindNBoundsPar.fillBounds st.left dist (P - 1) 0 (List.replicate (P + 1) 0)).bind
      fun bounds0 =>
    (writeAt bounds0 P st.right).bind fun bounds1 =>
    (toInt (st.right - dist)).bind fun last =>
    (writeAt bounds1 ((P : Int) - 1) last).bind fun bounds =>
    (FindNBoundsPar.launch numbers bounds (P - 1) 1 (List.replicate (P + 1) none)).bind
      fun futures =>
      FindNBoundsPar.select P bounds futures st P 1

/-- The function `FindNBoundsPar<P>`. -/
def FindNBoundsPar (P : Nat) (fuel : Nat) (numbers : List Int) : Run Int :=
  (initial numbers).bind (searchLoop (FindNBoundsPar.body P numbers) fuel)

/-- The vector is sorted in non-decreasing order, as `GenerateNumbers` leaves it. -/
def IsSorted (numbers : List Int) : Prop := List.Sorted (fun a b => a ≤ b) numbers

/-- The index `index` is the least one in `[0, size]` whose element passes `CheckNumber`
(`size` if no element does). -/
def IsLeastPassing (numbers : List Int) (index : Int) : Prop :=
  0 ≤ index ∧ index ≤ numbers.length ∧
    (∀ (i : Nat) (x : Int), (i : Int) < index → numbers[i]? = some x → ¬ x > 100000000) ∧
    ∀ x : Int, numbers[index.toNat]? = some x → x > 100000000

/-- The number of elements that do not pass `CheckNumber`. -/
def failing (numbers : List Int) : Nat := numbers.countP fun x => !CheckNumber x

/-- A sorted vector of `2^30 + 1 = 1073741825` elements, none of which passes `CheckNumber`:
all zero. -/
def longVector : List Int := List.replicate 1073741825 0

end Binsearch

namespace BfsTree

/-! ## Trees with vertices cut off from the root -/

/-- A tree of which a part may be cut off from the root: the conditions of `WellFormedTree`,
except that a vertex occurs at most once over all children lists (instead of every vertex other
than the root exactly once) and that nothing is asked about reachability. -/
structure PartialTree (graph : Graph) : Prop where
  weights_size : graph.vertex_weights_.length = graph.GetVertexCount
  has_root : 0 < graph.GetVertexCount
  ids_in_range : ∀ v ∈ graph.adjacency_lists_.flatten, v < graph.GetVertexCount
  root_no_parent : 0 ∉ graph.adjacency_lists_.flatten
  at_most_one_parent : graph.adjacency_lists_.flatten.Nodup

/-- Two vertices and no edge, as `Graph(2)` leaves them. -/
def twoIsolated : Graph := Graph.construct 2

/-- Five vertices of weight 1: vertex 3 is stored as a child of both vertex 1 and vertex 2
(children of the root), vertex 4 has no edge at all. -/
def sharedChild : Graph :=
  { adjacency_lists_ := [[1, 2], [3], [3], [], []], vertex_weights_ := [1, 1, 1, 1, 1] }

/-! ## The counter `depth` of the pooled loop as an `int` -/

/-- Result of a run in which the counter `depth` is kept in its type `int`: as `Outcome`, and
a signed overflow, undefined behaviour in the source, is reported as `intOverflow`. -/
inductive IntOutcome (α : Type) where
  | ok (value : α)
  | outOfRange
  | intOverflow
  | outOfFuel
  deriving DecidableEq, Repr

/-- The largest `int`. -/
def INT_MAX : Nat := 2147483647

/-- The outer loop of `ComputeSumPoolSimple` (lines 112-121) with the statement `++depth`
(line 113) carried out in the type `int`: an iteration is `ComputeSumPoolSimple.body` when
`depth + 1` fits an `int`, and a signed overflow otherwise. -/
def ComputeSumPoolSimple.intLoop (graph : Graph) : Nat → PoolState → IntOutcome PoolState
  | 0, st => if poolGuard graph.GetVertexCount st then .outOfFuel else .ok st
  | fuel + 1, st =>
    if poolGuard graph.GetVertexCount st then
      if st.depth < INT_MAX then
        match ComputeSumPoolSimple.body graph st with
        | .ok next => ComputeSumPoolSimple.intLoop graph fuel next
        | .outOfRange => .outOfRange
        | .outOfFuel => .outOfFuel
      else .intOverflow
    else .ok st

/-- The function `ComputeSumPoolSimple` with `depth` kept in the type `int`. -/
def ComputeSumPoolSimple.intRun (fuel : Nat) (graph : Graph) : IntOutcome Nat :=
  match ComputeSumPoolSimple.intLoop graph fuel (ComputeSumPoolSimple.initial graph) with
  | .ok st => .ok st.sum
  | .outOfRange => .outOfRange
  | .intOverflow => .intOverflow
  | .outOfFuel => .outOfFuel

/-! ## Basic facts about outcomes and loops -/

@[simp] theorem Outcome.bind_ok {α β : Type} (a : α) (k : α → Outcome β) :
    (Outcome.ok a).bind k = k a := rfl

@[simp] theorem Outcome.bind_outOfRange {α β : Type} (k : α → Outcome β) :
    (Outcome.outOfRange : Outcome α).bind k = .outOfRange := rfl

@[simp] theorem Outcome.bind_outOfFuel {α β : Type} (k : α → Outcome β) :
    (Outcome.outOfFuel : Outcome α).bind k = .outOfFuel := rfl

@[simp] theorem Outcome.ofOption_some {α : Type} (a : α) :
    Outcome.ofOption (some a) = .ok a := rfl

theorem Outcome.bind_assoc {α β γ : Type} (x : Outcome α) (f : α → Outcome β)
    (g : β → Outcome γ) : (x.bind f).bind g = x.bind fun a => (f a).bind g := by
  cases x <;> rfl

/-- The plain loop is the traced loop with the trace forgotten. -/
theorem whileLoop_eq_whileTrace {σ : Type} (cond : σ → Bool) (body : σ → Outcome σ) :
    ∀ (fuel : Nat) (st : σ),
      whileLoop cond body fuel st = (whileTrace cond body fuel st).bind fun r => .ok r.2 := by
  intro fuel
  induction fuel with
  | zero => intro st; simp only [whileLoop, whileTrace]; split <;> rfl
  | succ fuel ih =>
    intro st
    simp only [whileLoop, whileTrace]
    split
    · cases hb : body st with
      | ok st' =>
        simp only [Outcome.bind_ok, ih st']
        cases whileTrace cond body fuel st' <;> rfl
      | outOfRange => rfl
      | outOfFuel => rfl
    · rfl

/-! ## Levels of a well-formed tree -/

theorem Graph.children_of_lt (graph : Graph) {v : Nat} (hv : v < graph.GetVertexCount) :
    graph.GetAdjacentVertices v = some (graph.children v) := by
  unfold Graph.children Graph.GetAdjacentVertices
  unfold Graph.GetVertexCount at hv
  simp [List.getElem?_eq_getElem hv]

theorem Graph.weight_of_lt (graph : Graph) {v : Nat} (hv : v < graph.vertex_weights_.length) :
    graph.weightAt v = some (graph.weight v) := by
  unfold Graph.weight Graph.weightAt
  simp [List.getElem?_eq_getElem hv]

/-- Expanding all vertex ids in increasing order lists every stored child once. -/
theorem expand_range (graph : Graph) :
    expand graph (List.range graph.GetVertexCount) = graph.adjacency_lists_.flatten := by
  unfold expand Graph.children Graph.GetAdjacentVertices Graph.GetVertexCount
  generalize graph.adjacency_lists_ = adj
  induction adj using List.reverseRecOn with
  | nil => rfl
  | append_singleton adj l ih =>
    rw [List.length_append, List.length_singleton, List.range_succ, List.flatMap_append,
      List.flatten_append]
    congr 1
    · rw [← ih]
      apply List.flatMap_congr
      intro v hv
      rw [List.mem_range] at hv
      rw [List.getElem?_append_left hv]
    · simp

theorem expand_append (graph : Graph) (l₁ l₂ : List Nat) :
    expand graph (l₁ ++ l₂) = expand graph l₁ ++ expand graph l₂ := by
  simp [expand, List.flatMap_append]

theorem sublist_flatMap {α β : Type} (f : α → List β) {l₁ l₂ : List α}
    (h : l₁.Sublist l₂) : (l₁.flatMap f).Sublist (l₂.flatMap f) := by
  induction h with
  | slnil => simp
  | cons a _ ih =>
    rw [List.flatMap_cons]
    exact ih.trans (List.sublist_append_right _ _)
  | cons₂ a _ ih =>
    rw [List.flatMap_cons, List.flatMap_cons]
    exact List.Sublist.append (List.Sublist.refl _) ih

/-- Expansion is monotone for the multiset order. -/
theorem expand_subperm (graph : Graph) {l₁ l₂ : List Nat} (h : l₁.Subperm l₂) :
    (expand graph l₁).Subperm (expand graph l₂) := by
  obtain ⟨l, hperm, hsub⟩ := h
  exact ((hperm.flatMap_right graph.children).symm.subperm).trans
    (sublist_flatMap graph.children hsub).subperm

theorem expand_perm (graph : Graph) {l₁ l₂ : List Nat} (h : l₁.Perm l₂) :
    (expand graph l₁).Perm (expand graph l₂) :=
  h.flatMap_right graph.children

/-- In a well-formed tree the stored children are exactly the non-root vertices, once each. -/
theorem WellFormedTree.flatten_perm {graph : Graph} (wf : WellFormedTree graph) :
    graph.adjacency_lists_.flatten.Perm (List.range' 1 (graph.GetVertexCount - 1)) := by
  rw [List.perm_iff_count]
  intro v
  by_cases hv : 1 ≤ v ∧ v < graph.GetVertexCount
  · rw [wf.one_parent v hv.1 hv.2]
    symm
    apply List.count_eq_one_of_mem (List.nodup_range' _ _)
    rw [List.mem_range']
    exact ⟨v - 1, by omega, by omega⟩
  · have h1 : v ∉ graph.adjacency_lists_.flatten := by
      intro hmem
      have hlt := wf.ids_in_range v hmem
      have h0 : v = 0 := by omega
      subst h0
      exact wf.root_no_parent hmem
    have h2 : v ∉ List.range' 1 (graph.GetVertexCount - 1) := by
      rw [List.mem_range']
      rintro ⟨i, hi, rfl⟩
      omega
    rw [List.count_eq_zero.2 h1, List.count_eq_zero.2 h2]

/-- The root followed by all stored children is a rearrangement of all vertex ids. -/
theorem WellFormedTree.root_cons_perm {graph : Graph} (wf : WellFormedTree graph) :
    (0 :: expand graph (List.range graph.GetVertexCount)).Perm
      (List.range graph.GetVertexCount) := by
  rw [expand_range]
  have h := wf.flatten_perm
  have hn := wf.has_root
  have hr : List.range graph.GetVertexCount = 0 :: List.range' 1 (graph.GetVertexCount - 1) := by
    rw [List.range_eq_range']
    obtain ⟨m, hm⟩ : ∃ m, graph.GetVertexCount = m + 1 := ⟨graph.GetVertexCount - 1, by omega⟩
    rw [hm, List.range'_succ]
    simp
  rw [hr]
  exact List.Perm.cons 0 h

/-- The vertices of the first `k + 1` levels are the root followed by the children of the
vertices of the first `k` levels. -/
theorem visited_succ (graph : Graph) (k : Nat) :
    visited graph (k + 1) = 0 :: expand graph (visited graph k) := by
  induction k with
  | zero => rfl
  | succ k ih =>
    have h : visited graph (k + 1 + 1) = visited graph (k + 1) ++ frontier graph (k + 1) := rfl
    rw [h]
    conv_lhs => rw [ih]
    have h2 : visited graph (k + 1) = visited graph k ++ frontier graph k := rfl
    rw [h2, expand_append]
    rfl

/-- No vertex is visited twice and only vertices are visited: the visited list is a
sub-multiset of the list of all vertex ids. -/
theorem WellFormedTree.visited_subperm {graph : Graph} (wf : WellFormedTree graph) (k : Nat) :
    (visited graph k).Subperm (List.range graph.GetVertexCount) := by
  induction k with
  | zero => exact List.nil_subperm
  | succ k ih =>
    rw [visited_succ]
    exact ((List.subperm_cons 0).2 (expand_subperm graph ih)).trans wf.root_cons_perm.subperm

theorem WellFormedTree.visited_length_le {graph : Graph} (wf : WellFormedTree graph) (k : Nat) :
    (visited graph k).length ≤ graph.GetVertexCount := by
  have h := (wf.visited_subperm k).length_le
  rwa [List.length_range] at h

theorem WellFormedTree.visited_nodup {graph : Graph} (wf : WellFormedTree graph) (k : Nat) :
    (visited graph k).Nodup := by
  obtain ⟨l, hperm, hsub⟩ := wf.visited_subperm k
  exact hperm.nodup_iff.1 (hsub.nodup (List.nodup_range _))

theorem WellFormedTree.frontier_lt {graph : Graph} (wf : WellFormedTree graph) (k : Nat) :
    ∀ v ∈ frontier graph k, v < graph.GetVertexCount := by
  intro v hv
  have hmem : v ∈ visited graph (k + 1) := by
    show v ∈ visited graph k ++ frontier graph k
    exact List.mem_append_right _ hv
  exact List.mem_range.1 ((wf.visited_subperm (k + 1)).subset hmem)

theorem WellFormedTree.frontier_length_le {graph : Graph} (wf : WellFormedTree graph) (k : Nat) :
    (frontier graph k).length ≤ graph.GetVertexCount := by
  have h := wf.visited_length_le (k + 1)
  have h2 : visited graph (k + 1) = visited graph k ++ frontier graph k := rfl
  rw [h2, List.length_append] at h
  omega

/-- Once a frontier is empty, all later frontiers are empty. -/
theorem frontier_empty_of_le (graph : Graph) {j k : Nat} (hjk : j ≤ k)
    (hj : frontier graph j = []) : frontier graph k = [] := by
  induction hjk with
  | refl => exact hj
  | step _ ih =>
    show expand graph (frontier graph _) = []
    rw [ih]
    rfl

/-- While the first `k` frontiers are non-empty, at least `k` vertices have been visited. -/
theorem visited_length_ge (graph : Graph) (k : Nat)
    (h : ∀ j, j < k → frontier graph j ≠ []) : k ≤ (visited graph k).length := by
  induction k with
  | zero => exact Nat.zero_le _
  | succ k ih =>
    have h1 := ih fun j hj => h j (Nat.lt_succ_of_lt hj)
    have h2 : visited graph (k + 1) = visited graph k ++ frontier graph k := rfl
    have h3 : 0 < (frontier graph k).length := List.length_pos.2 (h k (Nat.lt_succ_self k))
    rw [h2, List.length_append]
    omega

/-- In a well-formed tree with `n` vertices the frontier of level `n` is empty. -/
theorem WellFormedTree.frontier_vertexCount {graph : Graph} (wf : WellFormedTree graph) :
    frontier graph graph.GetVertexCount = [] := by
  by_contra hne
  have hall : ∀ j, j < graph.GetVertexCount + 1 → frontier graph j ≠ [] := by
    intro j hj hempty
    exact hne (frontier_empty_of_le graph (Nat.le_of_lt_succ hj) hempty)
  have h1 := visited_length_ge graph (graph.GetVertexCount + 1) hall
  have h2 := wf.visited_length_le (graph.GetVertexCount + 1)
  omega

/-- A well-formed tree has a height: the first empty frontier is reached after at least one and
at most `n` levels. -/
theorem WellFormedTree.exists_height {graph : Graph} (wf : WellFormedTree graph) :
    ∃ h, 1 ≤ h ∧ h ≤ graph.GetVertexCount ∧ frontier graph h = [] ∧
      ∀ j, j < h → frontier graph j ≠ [] := by
  have hex : ∃ j, frontier graph j = [] := ⟨_, wf.frontier_vertexCount⟩
  refine ⟨Nat.find hex, ?_, Nat.find_min' hex wf.frontier_vertexCount, Nat.find_spec hex,
    fun j hj => Nat.find_min hex hj⟩
  rcases Nat.eq_zero_or_pos (Nat.find hex) with h0 | hpos
  · have h := Nat.find_spec hex
    rw [h0] at h
    exact absurd h (by simp [frontier])
  · exact hpos

/-- Full coverage: when the frontier of level `h` is empty, the first `h` levels together hold
every vertex exactly once. -/
theorem WellFormedTree.visited_perm {graph : Graph} (wf : WellFormedTree graph) {h : Nat}
    (h1 : 1 ≤ h) (hempty : frontier graph h = []) :
    (visited graph h).Perm (List.range graph.GetVertexCount) := by
  apply (wf.visited_subperm h).antisymm
  apply List.subperm_of_subset (List.nodup_range _)
  intro v hv
  have hreach := wf.all_reachable v (List.mem_range.1 hv)
  have hclosed : visited graph (h + 1) = visited graph h := by
    show visited graph h ++ frontier graph h = visited graph h
    rw [hempty, List.append_nil]
  clear hv
  induction hreach with
  | root =>
    obtain ⟨m, rfl⟩ : ∃ m, h = m + 1 := ⟨h - 1, by omega⟩
    rw [visited_succ]
    exact List.mem_cons_self _ _
  | child _ hchild ih =>
    rw [← hclosed, visited_succ]
    apply List.mem_cons_of_mem
    exact List.mem_flatMap.2 ⟨_, ih, hchild⟩

theorem mem_visited_iff (graph : Graph) (v k : Nat) :
    v ∈ visited graph k ↔ ∃ i, i < k ∧ v ∈ frontier graph i := by
  induction k with
  | zero => simp [visited]
  | succ k ih =>
    have h : visited graph (k + 1) = visited graph k ++ frontier graph k := rfl
    rw [h, List.mem_append, ih]
    constructor
    · rintro (⟨i, hi, hv⟩ | hv)
      · exact ⟨i, Nat.lt_succ_of_lt hi, hv⟩
      · exact ⟨k, Nat.lt_succ_self k, hv⟩
    · rintro ⟨i, hi, hv⟩
      rcases Nat.lt_succ_iff_lt_or_eq.1 hi with hlt | heq
      · exact Or.inl ⟨i, hlt, hv⟩
      · exact Or.inr (heq ▸ hv)

/-- A vertex belongs to the frontier of one level only. -/
theorem WellFormedTree.frontier_disjoint {graph : Graph} (wf : WellFormedTree graph)
    {v i j : Nat} (hi : v ∈ frontier graph i) (hj : v ∈ frontier graph j) : i = j := by
  have key : ∀ a b, a < b → v ∈ frontier graph a → v ∈ frontier graph b → False := by
    intro a b hab ha hb
    have hnd := wf.visited_nodup (b + 1)
    have h : visited graph (b + 1) = visited graph b ++ frontier graph b := rfl
    rw [h] at hnd
    exact (List.nodup_append.1 hnd).2.2 ((mem_visited_iff graph v b).2 ⟨a, hab, ha⟩) hb
  rcases Nat.lt_trichotomy i j with h | h | h
  · exact absurd (key i j h hi hj) id
  · exact h
  · exact absurd (key j i h hj hi) id

theorem WellFormedTree.depthOf_eq {graph : Graph} (wf : WellFormedTree graph) {v k : Nat}
    (hv : v ∈ frontier graph k) : depthOf graph v = k + 1 := by
  have hk : k < graph.GetVertexCount := by
    by_contra hge
    have hnil := frontier_empty_of_le graph (Nat.le_of_not_lt hge) wf.frontier_vertexCount
    rw [hnil] at hv
    cases hv
  unfold depthOf
  cases hfind : (List.range graph.GetVertexCount).find?
      fun k => decide (v ∈ frontier graph k) with
  | none =>
    rw [List.find?_eq_none] at hfind
    exact absurd (by simpa using hv) (hfind k (List.mem_range.2 hk))
  | some k' =>
    have hk' : v ∈ frontier graph k' := by simpa using List.find?_some hfind
    rw [wf.frontier_disjoint hk' hv]

/-- On a well-formed tree `depthOf` gives depth 1 to the root and to every child one more than
to its parent. -/
theorem WellFormedTree.depthOf_spec {graph : Graph} (wf : WellFormedTree graph) :
    depthOf graph 0 = 1 ∧
      ∀ parent, parent < graph.GetVertexCount →
        ∀ child ∈ graph.children parent, depthOf graph child = depthOf graph parent + 1 := by
  refine ⟨wf.depthOf_eq (k := 0) (List.mem_singleton.2 rfl), ?_⟩
  intro parent hp child hc
  obtain ⟨h, h1, _, hempty, _⟩ := wf.exists_height
  have hmem : parent ∈ visited graph h :=
    (wf.visited_perm h1 hempty).symm.subset (List.mem_range.2 hp)
  obtain ⟨i, _, hi⟩ := (mem_visited_iff graph parent h).1 hmem
  have hchild : child ∈ frontier graph (i + 1) := List.mem_flatMap.2 ⟨parent, hi, hc⟩
  rw [wf.depthOf_eq hchild, wf.depthOf_eq hi]

/-! ## The sequential reference `ComputeSumSimple` -/

theorem pushBackAll_eq (next_vertices children : List Nat) :
    pushBackAll next_vertices children = next_vertices ++ children := by
  induction children generalizing next_vertices with
  | nil => simp [pushBackAll]
  | cons c rest ih => simp [pushBackAll, ih]

theorem levelSum_nil (graph : Graph) (depth : Nat) : levelSum graph depth [] = 0 := rfl

theorem levelSum_cons (graph : Graph) (depth v : Nat) (rest : List Nat) :
    levelSum graph depth (v :: rest) =
      weightedTerm (graph.weight v) depth + levelSum graph depth rest := rfl

theorem levelSum_append (graph : Graph) (depth : Nat) (l₁ l₂ : List Nat) :
    levelSum graph depth (l₁ ++ l₂) = levelSum graph depth l₁ + levelSum graph depth l₂ := by
  simp [levelSum]

theorem levelSum_perm (graph : Graph) (depth : Nat) {l₁ l₂ : List Nat} (h : l₁.Perm l₂) :
    levelSum graph depth l₁ = levelSum graph depth l₂ :=
  (h.map _).sum_eq

theorem addU64_lt (sum term : Nat) : addU64 sum term < UINT64_SIZE :=
  Nat.mod_lt _ (by decide)

theorem addU64_add (sum term rest : Nat) :
    (addU64 sum term + rest) % UINT64_SIZE = (sum + (term + rest)) % UINT64_SIZE := by
  unfold addU64
  rw [Nat.add_mod, Nat.mod_mod, ← Nat.add_mod, Nat.add_assoc]

/-- Splitting the frontier splits the loop over it. -/
theorem ComputeSumSimple.forEach_append (graph : Graph) (depth : Nat) (l₁ l₂ : List Nat)
    (sum : Nat) (next_vertices : List Nat) :
    ComputeSumSimple.forEach graph depth (l₁ ++ l₂) sum next_vertices =
      (ComputeSumSimple.forEach graph depth l₁ sum next_vertices).bind fun r =>
        ComputeSumSimple.forEach graph depth l₂ r.1 r.2 := by
  induction l₁ generalizing sum next_vertices with
  | nil => rfl
  | cons v rest ih =>
    simp only [List.cons_append, ComputeSumSimple.forEach]
    cases Outcome.ofOption (graph.weightAt v) with
    | ok w =>
      cases Outcome.ofOption (graph.GetAdjacentVertices v) with
      | ok cs => exact ih _ _
      | outOfRange => rfl
      | outOfFuel => rfl
    | outOfRange => rfl
    | outOfFuel => rfl

/-- On a frontier of vertices the loop of `ComputeSumSimple` adds the level sum to `sum`
(modulo `2^64`) and appends the expansion of the frontier to `next_vertices`. -/
theorem ComputeSumSimple.forEach_eq (graph : Graph)
    (hw : graph.vertex_weights_.length = graph.GetVertexCount) (depth : Nat) (l : List Nat)
    (hl : ∀ v ∈ l, v < graph.GetVertexCount) (sum : Nat) (hsum : sum < UINT64_SIZE)
    (next_vertices : List Nat) :
    ComputeSumSimple.forEach graph depth l sum next_vertices =
      .ok ((sum + levelSum graph depth l) % UINT64_SIZE, next_vertices ++ expand graph l) := by
  induction l generalizing sum next_vertices with
  | nil => simp [ComputeSumSimple.forEach, levelSum_nil, expand, Nat.mod_eq_of_lt hsum]
  | cons v rest ih =>
    have hv : v < graph.GetVertexCount := hl v (List.mem_cons_self _ _)
    simp only [ComputeSumSimple.forEach, graph.weight_of_lt (hw ▸ hv), graph.children_of_lt hv,
      Outcome.ofOption_some, Outcome.bind_ok]
    rw [ih (fun u hu => hl u (List.mem_cons_of_mem _ hu)) _ (addU64_lt _ _), pushBackAll_eq,
      addU64_add, levelSum_cons]
    simp [expand, List.append_assoc]

/-! ## Running a loop along a known sequence of states -/

/-- If the body leads from `S j` to `S (j + 1)` for `j < m` and the guard first fails at `S m`,
the loop started in `S 0` runs its body exactly on `S 0, …, S (m - 1)` and ends in `S m`,
provided the fuel allows `m` executions of the body; otherwise it runs out of fuel. -/
theorem whileTrace_chain {σ : Type} (cond : σ → Bool) (body : σ → Outcome σ) (m : Nat) :
    ∀ (S : Nat → σ), (∀ j, j < m → cond (S j) = true) →
      (∀ j, j < m → body (S j) = .ok (S (j + 1))) → cond (S m) = false →
      ∀ fuel, whileTrace cond body fuel (S 0) =
        if m ≤ fuel then .ok ((List.range m).map S, S m) else .outOfFuel := by
  induction m with
  | zero =>
    intro S _ _ hstop fuel
    cases fuel <;> simp [whileTrace, hstop]
  | succ m ih =>
    intro S hcond hbody hstop fuel
    cases fuel with
    | zero => simp [whileTrace, hcond 0 (Nat.succ_pos m)]
    | succ fuel =>
      have hrec := ih (fun j => S (j + 1)) (fun j hj => hcond (j + 1) (Nat.succ_lt_succ hj))
        (fun j hj => hbody (j + 1) (Nat.succ_lt_succ hj)) hstop fuel
      simp only [whileTrace, hcond 0 (Nat.succ_pos m), hbody 0 (Nat.succ_pos m), if_true,
        Outcome.bind_ok, hrec]
      by_cases hle : m ≤ fuel
      · simp [hle, List.range_succ_eq_map, Function.comp_def]
      · simp [hle]

theorem whileLoop_chain {σ : Type} (cond : σ → Bool) (body : σ → Outcome σ) (m : Nat)
    (S : Nat → σ) (hcond : ∀ j, j < m → cond (S j) = true)
    (hbody : ∀ j, j < m → body (S j) = .ok (S (j + 1))) (hstop : cond (S m) = false)
    (fuel : Nat) :
    whileLoop cond body fuel (S 0) = if m ≤ fuel then .ok (S m) else .outOfFuel := by
  rw [whileLoop_eq_whileTrace, whileTrace_chain cond body m S hcond hbody hstop fuel]
  split <;> rfl

theorem frontierNonEmpty_eq_true {st : LoopState} (h : st.vertices_to_process ≠ []) :
    frontierNonEmpty st = true := by
  unfold frontierNonEmpty
  cases hv : st.vertices_to_process with
  | nil => exact absurd hv h
  | cons _ _ => rfl

theorem frontierNonEmpty_eq_false {st : LoopState} (h : st.vertices_to_process = []) :
    frontierNonEmpty st = false := by
  unfold frontierNonEmpty
  rw [h]
  rfl

/-- One level of `ComputeSumSimple` on a well-formed tree. -/
theorem ComputeSumSimple.simple_body_stateAt {graph : Graph} (wf : WellFormedTree graph) (k : Nat) :
    ComputeSumSimple.body graph (ComputeSumSimple.stateAt graph k) =
      .ok (ComputeSumSimple.stateAt graph (k + 1)) := by
  unfold ComputeSumSimple.body ComputeSumSimple.stateAt
  simp only
  rw [ComputeSumSimple.forEach_eq graph wf.weights_size _ _ (wf.frontier_lt k) _
    (Nat.mod_lt _ (by decide))]
  simp only [Outcome.bind_ok, List.nil_append]
  congr 2
  show _ = (levelsTotal graph k + levelSum graph (k + 1) (frontier graph k)) % UINT64_SIZE
  rw [Nat.add_mod, Nat.mod_mod, ← Nat.add_mod]

theorem ComputeSumSimple.simple_initial_eq (graph : Graph) :
    ComputeSumSimple.initial = ComputeSumSimple.stateAt graph 0 := rfl

/-- The run of the level loop of `ComputeSumSimple` on a well-formed tree of height `h`. -/
theorem ComputeSumSimple.simple_trace_eq {graph : Graph} (wf : WellFormedTree graph) {h : Nat}
    (hempty : frontier graph h = []) (hne : ∀ j, j < h → frontier graph j ≠ []) (fuel : Nat) :
    whileTrace frontierNonEmpty (ComputeSumSimple.body graph) fuel ComputeSumSimple.initial =
      if h ≤ fuel then
        .ok ((List.range h).map (ComputeSumSimple.stateAt graph), ComputeSumSimple.stateAt graph h)
      else .outOfFuel := by
  rw [ComputeSumSimple.simple_initial_eq graph]
  exact whileTrace_chain frontierNonEmpty (ComputeSumSimple.body graph) h
    (ComputeSumSimple.stateAt graph)
    (fun j hj => frontierNonEmpty_eq_true (hne j hj))
    (fun j _ => ComputeSumSimple.simple_body_stateAt wf j)
    (frontierNonEmpty_eq_false hempty) fuel

theorem ComputeSumSimple.simple_eq_of_height {graph : Graph} (wf : WellFormedTree graph) {h : Nat}
    (hempty : frontier graph h = []) (hne : ∀ j, j < h → frontier graph j ≠ []) (fuel : Nat) :
    ComputeSumSimple fuel graph =
      if h ≤ fuel then .ok (levelsTotal graph h % UINT64_SIZE) else .outOfFuel := by
  unfold ComputeSumSimple ComputeSumSimple.loop
  rw [whileLoop_eq_whileTrace, ComputeSumSimple.simple_trace_eq wf hempty hne fuel]
  split <;> rfl

/-- On a well-formed tree the level loop of `ComputeSumSimple` ends with an empty frontier after
at least one and at most `n` levels; `depth` and the sizes of all frontiers stay within the
vertex count. -/
theorem ComputeSumSimple.simple_loop_end {graph : Graph} (wf : WellFormedTree graph)
    (fuel : Nat) (hfuel : graph.GetVertexCount ≤ fuel) :
    ∃ st, ComputeSumSimple.loop graph fuel ComputeSumSimple.initial = .ok st ∧
      st.vertices_to_process = [] ∧ 1 ≤ st.depth ∧ st.depth ≤ graph.GetVertexCount := by
  obtain ⟨h, h1, hn, hempty, hne⟩ := wf.exists_height
  refine ⟨ComputeSumSimple.stateAt graph h, ?_, hempty, h1, hn⟩
  unfold ComputeSumSimple.loop
  rw [whileLoop_eq_whileTrace, ComputeSumSimple.simple_trace_eq wf hempty hne fuel,
    if_pos (le_trans hn hfuel)]
  rfl

/-! ## From 64-bit level sums to the exact weighted depth sum -/

theorem UINT64_SIZE_cast : ((UINT64_SIZE : Nat) : Int) = (2 ^ 64 : Int) := by
  unfold UINT64_SIZE
  norm_num

theorem weightedTerm_modEq (weight : Int) (depth : Nat) :
    ((weightedTerm weight depth : Nat) : Int) ≡ weight * (depth : Int) [ZMOD (2 ^ 64 : Int)] := by
  unfold weightedTerm static_cast_uint64
  rw [Int.natCast_mod, Int.natCast_mul, Int.natCast_mod, UINT64_SIZE_cast,
    Int.toNat_of_nonneg (Int.emod_nonneg _ (by norm_num))]
  exact (Int.mod_modEq _ _).trans ((Int.mod_modEq _ _).mul (Int.mod_modEq _ _))

theorem levelSum_modEq (graph : Graph) (depth : Nat) (l : List Nat) :
    ((levelSum graph depth l : Nat) : Int) ≡
      (l.map fun v => graph.weight v * (depth : Int)).sum [ZMOD (2 ^ 64 : Int)] := by
  induction l with
  | nil => exact Int.ModEq.refl _
  | cons v rest ih =>
    rw [levelSum_cons, Int.natCast_add, List.map_cons, List.sum_cons]
    exact (weightedTerm_modEq _ _).add ih

/-- A depth assignment that follows the children relation gives depth `k + 1` to the vertices of
the frontier of level `k`. -/
theorem depth_of_mem_frontier (graph : Graph) (depth : Nat → Nat) (hroot : depth 0 = 1)
    (hchild : ∀ parent child, child ∈ graph.children parent → depth child = depth parent + 1)
    (k : Nat) : ∀ v ∈ frontier graph k, depth v = k + 1 := by
  induction k with
  | zero =>
    intro v hv
    simp only [frontier, List.mem_singleton] at hv
    rw [hv, hroot]
  | succ k ih =>
    intro v hv
    obtain ⟨p, hp, hvp⟩ := List.mem_flatMap.1 hv
    rw [hchild p v hvp, ih p hp]

theorem levelsTotal_modEq (graph : Graph) (depth : Nat → Nat)
    (hdepth : ∀ k, ∀ v ∈ frontier graph k, depth v = k + 1) (k : Nat) :
    ((levelsTotal graph k : Nat) : Int) ≡
      ((visited graph k).map fun v => graph.weight v * (depth v : Int)).sum
        [ZMOD (2 ^ 64 : Int)] := by
  induction k with
  | zero => exact Int.ModEq.refl _
  | succ k ih =>
    have hv : visited graph (k + 1) = visited graph k ++ frontier graph k := rfl
    have ht : levelsTotal graph (k + 1) =
        levelsTotal graph k + levelSum graph (k + 1) (frontier graph k) := rfl
    rw [hv, ht, List.map_append, List.sum_append, Int.natCast_add]
    refine ih.add ?_
    have hcongr : ((frontier graph k).map fun v => graph.weight v * (depth v : Int)) =
        (frontier graph k).map fun v => graph.weight v * ((k + 1 : Nat) : Int) := by
      apply List.map_congr_left
      intro v hv
      rw [hdepth k v hv]
    rw [hcongr]
    exact levelSum_modEq graph (k + 1) (frontier graph k)

/-- The 64-bit total of all level sums of a well-formed tree is the exact weighted depth sum
reduced modulo `2^64`. -/
theorem WellFormedTree.levelsTotal_eq {graph : Graph} (wf : WellFormedTree graph)
    (depth : Nat → Nat) (hroot : depth 0 = 1)
    (hchild : ∀ parent child, child ∈ graph.children parent → depth child = depth parent + 1)
    {h : Nat} (h1 : 1 ≤ h) (hempty : frontier graph h = []) :
    levelsTotal graph h % UINT64_SIZE =
      (weightedDepthSum graph depth % (2 ^ 64 : Int)).toNat := by
  have hmod := levelsTotal_modEq graph depth (depth_of_mem_frontier graph depth hroot hchild) h
  have hperm := ((wf.visited_perm h1 hempty).map
    fun v => graph.weight v * (depth v : Int)).sum_eq
  rw [hperm] at hmod
  unfold weightedDepthSum
  rw [← hmod.eq, ← UINT64_SIZE_cast, ← Int.natCast_mod, Int.toNat_natCast]

/-! ## The offset-precomputed strategy `ComputeSumSeq` -/

theorem set_length_append {α : Type} (pre : List α) (old new : α) (post : List α) :
    (pre ++ old :: post).set pre.length new = pre ++ new :: post := by
  induction pre with
  | nil => rfl
  | cons a pre ih => simp [ih]

/-- Copying over a segment of the destination replaces exactly that segment. -/
theorem copy_eq (src : List Nat) :
    ∀ (pre mid post : List Nat), mid.length = src.length →
      copy src (pre ++ mid ++ post) pre.length = .ok (pre ++ src ++ post) := by
  induction src with
  | nil =>
    intro pre mid post hmid
    rw [List.length_eq_zero.1 hmid]
    rfl
  | cons x rest ih =>
    intro pre mid post hmid
    cases mid with
    | nil => simp at hmid
    | cons m mid =>
      have hlt : pre.length < (pre ++ (m :: mid) ++ post).length := by
        simp only [List.length_append, List.length_cons]
        omega
      have hset : (pre ++ (m :: mid) ++ post).set pre.length x = (pre ++ [x]) ++ mid ++ post := by
        rw [List.append_assoc, List.cons_append, set_length_append]
        simp
      have hlen : pre.length + 1 = (pre ++ [x]).length := by simp
      simp only [copy, hlt, if_true, hset]
      rw [hlen, ih (pre ++ [x]) mid post (by simpa using hmid)]
      simp

theorem childCount_of_lt (graph : Graph) {v : Nat} (hv : v < graph.GetVertexCount) :
    childCount graph v = .ok (graph.children v).length := by
  unfold childCount
  rw [graph.children_of_lt hv]
  rfl

theorem prefixSums_length (init : Nat) (counts : List Nat) :
    (prefixSums init counts).length = counts.length := by
  induction counts generalizing init with
  | nil => rfl
  | cons c rest ih => simp [prefixSums, ih]

/-- The scan overwrites a segment of its output with the exclusive prefix sums of the child
counts and leaves the rest of the output alone. -/
theorem transform_exclusive_scan_eq (graph : Graph) (l : List Nat) :
    (∀ v ∈ l, v < graph.GetVertexCount) → ∀ (pre mid post : List Nat) (init : Nat),
      mid.length = l.length →
      transform_exclusive_scan (childCount graph) l (pre ++ mid ++ post) pre.length init =
        .ok (pre ++ prefixSums init (childCounts graph l) ++ post) := by
  induction l with
  | nil =>
    intro _ pre mid post init hmid
    rw [List.length_eq_zero.1 hmid]
    rfl
  | cons v rest ih =>
    intro hl pre mid post init hmid
    cases mid with
    | nil => simp at hmid
    | cons m mid =>
      have hv : v < graph.GetVertexCount := hl v (List.mem_cons_self _ _)
      have hlt : pre.length < (pre ++ (m :: mid) ++ post).length := by
        simp only [List.length_append, List.length_cons]
        omega
      have hset : (pre ++ (m :: mid) ++ post).set pre.length init =
          (pre ++ [init]) ++ mid ++ post := by
        rw [List.append_assoc, List.cons_append, set_length_append]
        simp
      have hlen : pre.length + 1 = (pre ++ [init]).length := by simp
      simp only [transform_exclusive_scan, childCount_of_lt graph hv, Outcome.bind_ok, hlt,
        if_true, hset]
      rw [hlen, ih (fun u hu => hl u (List.mem_cons_of_mem _ hu)) (pre ++ [init]) mid post _
        (by simpa using hmid)]
      simp [childCounts, prefixSums]

/-- The Placement Plan of `ComputeSumSeq`: the front of `states` receives the exclusive prefix
sums of the child counts. -/
theorem ComputeSumSeq.placementPlan_eq (graph : Graph) (l states : List Nat)
    (hl : ∀ v ∈ l, v < graph.GetVertexCount) (hlen : l.length ≤ states.length) :
    ComputeSumSeq.placementPlan graph l states =
      .ok (prefixSums 0 (childCounts graph l) ++ states.drop l.length) := by
  have h := transform_exclusive_scan_eq graph l hl [] (states.take l.length)
    (states.drop l.length) 0 (by simp [hlen])
  simpa [ComputeSumSeq.placementPlan] using h

theorem prefixSums_getLast (counts : List Nat) :
    ∀ (init : Nat) (last : Nat) (post : List Nat),
      (prefixSums init (counts ++ [last]) ++ post)[counts.length]? =
        some (init + counts.sum) := by
  induction counts with
  | nil => intro init last post; simp [prefixSums]
  | cons c rest ih =>
    intro init last post
    simp only [List.cons_append, prefixSums, List.length_cons, List.getElem?_cons_succ,
      List.sum_cons]
    show (prefixSums (init + c) (rest ++ [last]) ++ post)[rest.length]? = _
    rw [ih, Nat.add_assoc]

theorem childCounts_sum (graph : Graph) (l : List Nat) :
    (childCounts graph l).sum = (expand graph l).length := by
  unfold childCounts expand
  rw [List.length_flatMap]
  rfl

/-- The size to which `next_vertices` is resized is the total number of children of the
frontier. -/
theorem ComputeSumSeq.nextSize_eq (graph : Graph) (l post : List Nat) (hne : l ≠ [])
    (hl : ∀ v ∈ l, v < graph.GetVertexCount) :
    ComputeSumSeq.nextSize graph l (prefixSums 0 (childCounts graph l) ++ post) =
      .ok (expand graph l).length := by
  obtain ⟨front, back, rfl⟩ : ∃ front back, l = front ++ [back] :=
    ⟨l.dropLast, l.getLast hne, (List.dropLast_append_getLast hne).symm⟩
  have hback : back < graph.GetVertexCount := hl back (by simp)
  have hcounts : childCounts graph (front ++ [back]) =
      childCounts graph front ++ [(graph.children back).length] := by
    simp [childCounts]
  have hidx : (front ++ [back]).length - 1 = (childCounts graph front).length := by
    simp [childCounts]
  unfold ComputeSumSeq.nextSize
  rw [hidx, hcounts, prefixSums_getLast]
  simp only [List.getLast?_append, List.getLast?_singleton, Option.or_some,
    Outcome.ofOption_some, Outcome.bind_ok, childCount_of_lt graph hback]
  rw [← childCounts_sum, hcounts]
  simp

/-- The reduction of `ComputeSumSeq` adds the level sum to `sum` and fills the segment of
`next_vertices` that starts at the first offset with the expansion of the frontier. -/
theorem ComputeSumSeq.transformReduce_eq (graph : Graph)
    (hw : graph.vertex_weights_.length = graph.GetVertexCount) (depth : Nat) (l : List Nat) :
    (∀ v ∈ l, v < graph.GetVertexCount) →
      ∀ (done mid post rest_states : List Nat) (sum : Nat), sum < UINT64_SIZE →
        mid.length = (expand graph l).length →
        ComputeSumSeq.transformReduce graph depth l
            (prefixSums done.length (childCounts graph l) ++ rest_states) sum
            (done ++ mid ++ post) =
          .ok ((sum + levelSum graph depth l) % UINT64_SIZE, done ++ expand graph l ++ post) := by
  induction l with
  | nil =>
    intro _ done mid post rest_states sum hsum hmid
    have hnil : mid = [] := List.length_eq_zero.1 (by simpa [expand] using hmid)
    simp [hnil, ComputeSumSeq.transformReduce, levelSum_nil, expand, Nat.mod_eq_of_lt hsum]
  | cons v rest ih =>
    intro hl done mid post rest_states sum _ hmid
    have hv : v < graph.GetVertexCount := hl v (List.mem_cons_self _ _)
    have hexp : expand graph (v :: rest) = graph.children v ++ expand graph rest := rfl
    rw [hexp, List.length_append] at hmid
    have hsplit : done ++ mid ++ post =
        done ++ mid.take (graph.children v).length ++
          (mid.drop (graph.children v).length ++ post) := by
      rw [List.append_assoc, List.append_assoc, ← List.append_assoc (List.take _ mid),
        List.take_append_drop]
    have hcopy := copy_eq (graph.children v) done (mid.take (graph.children v).length)
      (mid.drop (graph.children v).length ++ post) (by rw [List.length_take]; omega)
    have hdone : done.length + (graph.children v).length =
        (done ++ graph.children v).length := by simp
    simp only [childCounts, List.map_cons, prefixSums, List.cons_append,
      ComputeSumSeq.transformReduce, graph.children_of_lt hv, graph.weight_of_lt (hw ▸ hv),
      Outcome.ofOption_some, Outcome.bind_ok]
    rw [hsplit, hcopy]
    simp only [Outcome.bind_ok]
    rw [hdone, ← List.append_assoc (done ++ graph.children v)]
    have hrec := ih (fun u hu => hl u (List.mem_cons_of_mem _ hu)) (done ++ graph.children v)
      (mid.drop (graph.children v).length) post rest_states
      (addU64 sum (weightedTerm (graph.weight v) depth)) (addU64_lt _ _)
      (by rw [List.length_drop]; omega)
    unfold childCounts at hrec
    refine hrec.trans ?_
    rw [addU64_add, levelSum_cons, hexp]
    simp [List.append_assoc]

theorem resize_nil (count : Nat) : resize [] count = List.replicate count 0 := by
  simp [resize]

/-- One level of `ComputeSumSeq` on a frontier of vertices that fits into `states`: the level
sum is added to `sum` and the next frontier is the expansion of the frontier. -/
theorem ComputeSumSeq.seq_body_eq (graph : Graph)
    (hw : graph.vertex_weights_.length = graph.GetVertexCount) (st : LoopState)
    (hne : st.vertices_to_process ≠ [])
    (hl : ∀ v ∈ st.vertices_to_process, v < graph.GetVertexCount)
    (hlen : st.vertices_to_process.length ≤ st.states.length) (hnext : st.next_vertices = [])
    (hsum : st.sum < UINT64_SIZE) :
    ComputeSumSeq.body graph st =
      .ok { sum := (st.sum + levelSum graph (st.depth + 1) st.vertices_to_process) % UINT64_SIZE,
            depth := st.depth + 1,
            vertices_to_process := expand graph st.vertices_to_process,
            next_vertices := [],
            states := prefixSums 0 (childCounts graph st.vertices_to_process) ++
              st.states.drop st.vertices_to_process.length } := by
  unfold ComputeSumSeq.body
  simp only
  rw [ComputeSumSeq.placementPlan_eq graph _ _ hl hlen]
  simp only [Outcome.bind_ok]
  rw [ComputeSumSeq.nextSize_eq graph _ _ hne hl]
  simp only [Outcome.bind_ok, hnext, resize_nil]
  have h := ComputeSumSeq.transformReduce_eq graph hw (st.depth + 1) st.vertices_to_process hl []
    (List.replicate (expand graph st.vertices_to_process).length 0) []
    (st.states.drop st.vertices_to_process.length) st.sum hsum (by simp)
  simp only [List.length_nil, List.nil_append, List.append_nil] at h
  rw [h]
  rfl

theorem ComputeSumSeq.statesAt_length {graph : Graph} (wf : WellFormedTree graph) (k : Nat) :
    (ComputeSumSeq.statesAt graph k).length = graph.GetVertexCount := by
  induction k with
  | zero => simp [ComputeSumSeq.statesAt]
  | succ k ih =>
    have h := wf.frontier_length_le k
    simp only [ComputeSumSeq.statesAt, List.length_append, prefixSums_length, childCounts,
      List.length_map, List.length_drop, ih]
    omega

/-- One level of `ComputeSumSeq` on a well-formed tree. -/
theorem ComputeSumSeq.seq_body_stateAt {graph : Graph} (wf : WellFormedTree graph) (k : Nat)
    (hne : frontier graph k ≠ []) :
    ComputeSumSeq.body graph (ComputeSumSeq.stateAt graph k) =
      .ok (ComputeSumSeq.stateAt graph (k + 1)) := by
  rw [ComputeSumSeq.seq_body_eq graph wf.weights_size _ hne (wf.frontier_lt k)
    (by
      show (frontier graph k).length ≤ (ComputeSumSeq.statesAt graph k).length
      rw [ComputeSumSeq.statesAt_length wf]
      exact wf.frontier_length_le k)
    rfl (Nat.mod_lt _ (by decide))]
  unfold ComputeSumSeq.stateAt
  simp only
  congr 2
  show _ = (levelsTotal graph k + levelSum graph (k + 1) (frontier graph k)) % UINT64_SIZE
  rw [Nat.add_mod, Nat.mod_mod, ← Nat.add_mod]

theorem ComputeSumSeq.seq_trace_eq {graph : Graph} (wf : WellFormedTree graph) {h : Nat}
    (hempty : frontier graph h = []) (hne : ∀ j, j < h → frontier graph j ≠ []) (fuel : Nat) :
    whileTrace frontierNonEmpty (ComputeSumSeq.body graph) fuel (ComputeSumSeq.initial graph) =
      if h ≤ fuel then
        .ok ((List.range h).map (ComputeSumSeq.stateAt graph), ComputeSumSeq.stateAt graph h)
      else .outOfFuel :=
  whileTrace_chain frontierNonEmpty (ComputeSumSeq.body graph) h (ComputeSumSeq.stateAt graph)
    (fun j hj => frontierNonEmpty_eq_true (hne j hj))
    (fun j hj => ComputeSumSeq.seq_body_stateAt wf j (hne j hj))
    (frontierNonEmpty_eq_false hempty) fuel

theorem ComputeSumSeq.seq_eq_of_height {graph : Graph} (wf : WellFormedTree graph) {h : Nat}
    (hempty : frontier graph h = []) (hne : ∀ j, j < h → frontier graph j ≠ []) (fuel : Nat) :
    ComputeSumSeq fuel graph =
      if h ≤ fuel then .ok (levelsTotal graph h % UINT64_SIZE) else .outOfFuel := by
  unfold ComputeSumSeq ComputeSumSeq.loop
  rw [whileLoop_eq_whileTrace, ComputeSumSeq.seq_trace_eq wf hempty hne fuel]
  split <;> rfl

/-! ## Facts used by several statements -/

theorem Graph.children_of_ge (graph : Graph) {v : Nat} (hv : graph.GetVertexCount ≤ v) :
    graph.children v = [] := by
  unfold Graph.children Graph.GetAdjacentVertices
  unfold Graph.GetVertexCount at hv
  rw [List.getElem?_eq_none hv]
  rfl

/-- One level of `ComputeSumSimple` on a frontier of vertices: the level sum is added to `sum`
and the next frontier is the expansion of the frontier. -/
theorem ComputeSumSimple.simple_body_eq (graph : Graph)
    (hw : graph.vertex_weights_.length = graph.GetVertexCount) (st : LoopState)
    (hl : ∀ v ∈ st.vertices_to_process, v < graph.GetVertexCount)
    (hnext : st.next_vertices = []) (hsum : st.sum < UINT64_SIZE) :
    ComputeSumSimple.body graph st =
      .ok { st with
            sum := (st.sum + levelSum graph (st.depth + 1) st.vertices_to_process) % UINT64_SIZE,
            depth := st.depth + 1,
            vertices_to_process := expand graph st.vertices_to_process,
            next_vertices := [] } := by
  unfold ComputeSumSimple.body
  simp only
  rw [ComputeSumSimple.forEach_eq graph hw _ _ hl _ hsum, hnext]
  rfl

theorem flatten_map_frontier (graph : Graph) (k : Nat) :
    ((List.range k).map (frontier graph)).flatten = visited graph k := by
  induction k with
  | zero => rfl
  | succ k ih =>
    rw [List.range_succ, List.map_append, List.flatten_append, ih]
    simp [visited]

theorem exampleTree_wellFormed : WellFormedTree exampleTree where
  weights_size := by decide
  has_root := by decide
  ids_in_range := by decide
  root_no_parent := by decide
  one_parent := by
    intro v h1 h4
    have h4' : v < 4 := h4
    interval_cases v <;> decide
  all_reachable := by
    intro v h4
    have h4' : v < 4 := h4
    have r1 : Reachable exampleTree 1 := Reachable.child Reachable.root (by decide)
    have r2 : Reachable exampleTree 2 := Reachable.child Reachable.root (by decide)
    have r3 : Reachable exampleTree 3 := Reachable.child r1 (by decide)
    interval_cases v
    · exact Reachable.root
    · exact r1
    · exact r2
    · exact r3

/-- The tree `exampleTree` as the store builds it: constructor, weights, then one `AddEdge` per
non-root vertex. -/
theorem exampleTree_built :
    ((((((((Outcome.ok (Graph.construct 4)).bind fun g => g.setWeight 0 1).bind
      fun g => g.setWeight 1 2).bind fun g => g.AddEdge 0 1).bind
      fun g => g.setWeight 2 3).bind fun g => g.AddEdge 0 2).bind
      fun g => g.setWeight 3 4).bind fun g => g.AddEdge 1 3) = .ok exampleTree := by
  decide

theorem exampleDepth_child : ∀ parent, parent < exampleTree.GetVertexCount →
    ∀ child ∈ exampleTree.children parent, exampleDepth child = exampleDepth parent + 1 := by
  intro parent hp
  have hp' : parent < 4 := hp
  interval_cases parent <;> decide

/-- More fuel does not change the result of a loop that has ended. -/
theorem whileLoop_fuel_mono {σ : Type} (cond : σ → Bool) (body : σ → Outcome σ) :
    ∀ (fuel : Nat) (st r : σ), whileLoop cond body fuel st = .ok r →
      ∀ fuel', fuel ≤ fuel' → whileLoop cond body fuel' st = .ok r := by
  intro fuel
  induction fuel with
  | zero =>
    intro st r h fuel' _
    simp only [whileLoop] at h
    by_cases hc : cond st = true
    · simp [hc] at h
    · cases fuel' <;> simpa [whileLoop, hc] using h
  | succ fuel ih =>
    intro st r h fuel' hle
    obtain ⟨fuel'', rfl⟩ : ∃ f, fuel' = f + 1 := ⟨fuel' - 1, by omega⟩
    simp only [whileLoop] at h ⊢
    by_cases hc : cond st = true
    · simp only [hc, if_true] at h ⊢
      cases hb : body st with
      | ok st' =>
        rw [hb] at h
        exact ih st' r h fuel'' (by omega)
      | outOfRange => rw [hb] at h; cases h
      | outOfFuel => rw [hb] at h; cases h
    · simpa [hc] using h

theorem static_cast_uint64_lt (x : Int) : static_cast_uint64 x < UINT64_SIZE := by
  unfold static_cast_uint64 UINT64_SIZE
  have h1 : x % (2 ^ 64 : Int) < 2 ^ 64 := Int.emod_lt_of_pos _ (by norm_num)
  have h2 : 0 ≤ x % (2 ^ 64 : Int) := Int.emod_nonneg _ (by norm_num)
  omega

theorem ComputeSumSimple_fuel_mono (graph : Graph) (fuel fuel' total : Nat)
    (h : ComputeSumSimple fuel graph = .ok total) (hle : fuel ≤ fuel') :
    ComputeSumSimple fuel' graph = .ok total := by
  unfold ComputeSumSimple ComputeSumSimple.loop at h ⊢
  cases hl : whileLoop frontierNonEmpty (ComputeSumSimple.body graph) fuel
      ComputeSumSimple.initial with
  | ok st =>
    rw [whileLoop_fuel_mono _ _ fuel _ _ hl fuel' hle]
    rw [hl] at h
    exact h
  | outOfRange => rw [hl] at h; cases h
  | outOfFuel => rw [hl] at h; cases h

theorem ComputeSumSeq_fuel_mono (graph : Graph) (fuel fuel' total : Nat)
    (h : ComputeSumSeq fuel graph = .ok total) (hle : fuel ≤ fuel') :
    ComputeSumSeq fuel' graph = .ok total := by
  unfold ComputeSumSeq ComputeSumSeq.loop at h ⊢
  cases hl : whileLoop frontierNonEmpty (ComputeSumSeq.body graph) fuel
      (ComputeSumSeq.initial graph) with
  | ok st =>
    rw [whileLoop_fuel_mono _ _ fuel _ _ hl fuel' hle]
    rw [hl] at h
    exact h
  | outOfRange => rw [hl] at h; cases h
  | outOfFuel => rw [hl] at h; cases h

/-! ## Arithmetic of the Placement Plan -/

theorem sum_take_succ (l : List Nat) :
    ∀ i, (l.take (i + 1)).sum = (l.take i).sum + l.getD i 0 := by
  induction l with
  | nil => intro i; simp
  | cons a rest ih =>
    intro i
    cases i with
    | zero => simp
    | succ i =>
      simp only [List.take_succ_cons, List.sum_cons, List.getD_cons_succ, ih i]
      omega

theorem sum_take_le (l : List Nat) : ∀ i, (l.take i).sum ≤ l.sum := by
  induction l with
  | nil => intro i; simp
  | cons a rest ih =>
    intro i
    cases i with
    | zero => simp
    | succ i =>
      simp only [List.take_succ_cons, List.sum_cons]
      exact Nat.add_le_add_left (ih i) a

theorem sum_take_mono (l : List Nat) {i j : Nat} (hij : i ≤ j) :
    (l.take i).sum ≤ (l.take j).sum := by
  have h := sum_take_le (l.take j) i
  rwa [List.take_take, Nat.min_eq_left hij] at h

/-- Offset `i` of the plan is `init` plus the counts before position `i`. -/
theorem prefixSums_getD (counts : List Nat) :
    ∀ (init i : Nat), i < counts.length →
      (prefixSums init counts).getD i 0 = init + (counts.take i).sum := by
  induction counts with
  | nil => intro init i hi; simp at hi
  | cons c rest ih =>
    intro init i hi
    cases i with
    | zero => simp [prefixSums]
    | succ i =>
      simp only [prefixSums, List.getD_cons_succ, List.take_succ_cons, List.sum_cons]
      rw [ih (init + c) i (by simpa using hi)]
      omega

theorem childCounts_getD (graph : Graph) (l : List Nat) (i : Nat) (hi : i < l.length) :
    (childCounts graph l).getD i 0 = (graph.children (l.getD i 0)).length := by
  unfold childCounts
  rw [List.getD_eq_getElem _ _ (by simpa using hi), List.getD_eq_getElem _ _ hi,
    List.getElem_map]

theorem childCounts_length (graph : Graph) (l : List Nat) :
    (childCounts graph l).length = l.length := by
  simp [childCounts]

/-- The offsets stored at the front of `states`, in closed form. -/
theorem plan_getD (graph : Graph) (l post : List Nat) (i : Nat) (hi : i < l.length) :
    (prefixSums 0 (childCounts graph l) ++ post).getD i 0 =
      ((childCounts graph l).take i).sum := by
  rw [List.getD_append _ _ _ _ (by rw [prefixSums_length, childCounts_length]; exact hi),
    prefixSums_getD _ _ _ (by rw [childCounts_length]; exact hi), Nat.zero_add]

theorem resize_length (v : List Nat) (count : Nat) : (resize v count).length = count := by
  unfold resize
  rw [List.length_append, List.length_take, List.length_replicate]
  omega

/-- Whenever the reduction of `ComputeSumSeq` returns, its sum is the old sum plus the level
sum. -/
theorem ComputeSumSeq.transformReduce_sum (graph : Graph) (depth : Nat) (l : List Nat) :
    ∀ (states : List Nat) (sum : Nat) (buffer : List Nat) (r : Nat × List Nat),
      sum < UINT64_SIZE →
      ComputeSumSeq.transformReduce graph depth l states sum buffer = .ok r →
      r.1 = (sum + levelSum graph depth l) % UINT64_SIZE := by
  induction l with
  | nil =>
    intro states sum buffer r hsum h
    simp only [ComputeSumSeq.transformReduce, Outcome.ok.injEq] at h
    rw [← h, levelSum_nil, Nat.add_zero, Nat.mod_eq_of_lt hsum]
  | cons v rest ih =>
    intro states sum buffer r _ h
    cases states with
    | nil => simp [ComputeSumSeq.transformReduce] at h
    | cons local_to states_rest =>
      simp only [ComputeSumSeq.transformReduce] at h
      cases hc : graph.GetAdjacentVertices v with
      | none => rw [hc] at h; cases h
      | some children =>
        rw [hc] at h
        simp only [Outcome.ofOption_some, Outcome.bind_ok] at h
        cases hcopy : copy children buffer local_to with
        | outOfRange => rw [hcopy] at h; cases h
        | outOfFuel => rw [hcopy] at h; cases h
        | ok buffer' =>
          rw [hcopy] at h
          simp only [Outcome.bind_ok] at h
          cases hwt : graph.weightAt v with
          | none => rw [hwt] at h; cases h
          | some weight =>
            rw [hwt] at h
            simp only [Outcome.ofOption_some, Outcome.bind_ok] at h
            rw [ih states_rest _ buffer' r (addU64_lt _ _) h, addU64_add, levelSum_cons]
            have hweight : graph.weight v = weight := by
              unfold Graph.weight
              rw [hwt]
              rfl
            rw [hweight]

/-! ## The parallel offset-precomputed strategy `ComputeSumPar` -/

theorem store_copyWrites (src : List Nat) :
    ∀ (dest : List Nat) (d_first : Nat),
      store (copyWrites src d_first) dest = copy src dest d_first := by
  induction src with
  | nil => intro dest d_first; rfl
  | cons x rest ih =>
    intro dest d_first
    simp only [copyWrites, store, copy]
    split
    · exact ih _ _
    · rfl

theorem copyWrites_append (a b : List Nat) :
    ∀ d_first, copyWrites (a ++ b) d_first =
      copyWrites a d_first ++ copyWrites b (d_first + a.length) := by
  induction a with
  | nil => intro d_first; rfl
  | cons x rest ih =>
    intro d_first
    simp only [List.cons_append, copyWrites, List.length_cons, List.append_eq]
    rw [ih (d_first + 1)]
    congr 3
    omega

theorem copyWrites_indices (src : List Nat) :
    ∀ d_first, (copyWrites src d_first).map Prod.fst = List.range' d_first src.length := by
  induction src with
  | nil => intro d_first; rfl
  | cons x rest ih =>
    intro d_first
    simp only [copyWrites, List.map_cons, List.length_cons, List.range'_succ, ih (d_first + 1)]

/-- The element writes of a level are those of one copy of the expansion of the frontier to the
first offset. -/
theorem ComputeSumPar.levelWrites_eq (graph : Graph) (l : List Nat) :
    (∀ v ∈ l, v < graph.GetVertexCount) → ∀ (first : Nat) (rest_states : List Nat),
      ComputeSumPar.levelWrites graph l
          (prefixSums first (childCounts graph l) ++ rest_states) =
        .ok (copyWrites (expand graph l) first) := by
  induction l with
  | nil => intro _ first rest_states; rfl
  | cons v rest ih =>
    intro hl first rest_states
    have hv : v < graph.GetVertexCount := hl v (List.mem_cons_self _ _)
    have hrec := ih (fun u hu => hl u (List.mem_cons_of_mem _ hu))
      (first + (graph.children v).length) rest_states
    have hexp : expand graph (v :: rest) = graph.children v ++ expand graph rest := rfl
    simp only [childCounts, List.map_cons, prefixSums, List.cons_append,
      ComputeSumPar.levelWrites, graph.children_of_lt hv, Outcome.ofOption_some,
      Outcome.bind_ok, List.append_eq]
    unfold childCounts at hrec
    rw [show ComputeSumPar.levelWrites graph rest _ = _ from hrec, Outcome.bind_ok, hexp,
      copyWrites_append]

/-- Element writes to pairwise distinct indices may take effect in any order. -/
theorem store_perm {w₁ w₂ : List (Nat × Nat)} (h : w₁.Perm w₂) :
    (w₁.map Prod.fst).Nodup → ∀ v, store w₁ v = store w₂ v := by
  induction h with
  | nil => intro _ v; rfl
  | cons x _ ih =>
    intro hnd v
    simp only [store]
    split
    · exact ih (List.nodup_cons.1 hnd).2 _
    · rfl
  | swap x y l =>
    intro hnd v
    have hxy : y.1 ≠ x.1 := by
      intro heq
      simp only [List.map_cons, List.nodup_cons, List.mem_cons] at hnd
      exact hnd.1 (Or.inl heq)
    simp only [store, List.length_set]
    by_cases hx : x.1 < v.length <;> by_cases hy : y.1 < v.length <;> simp only [hx, hy, if_true,
      if_false]
    rw [List.set_comm _ _ _ hxy]
  | trans h₁ _ ih₁ ih₂ =>
    intro hnd v
    rw [ih₁ hnd v, ih₂ ((h₁.map Prod.fst).nodup_iff.1 hnd) v]

theorem weightedReduce_eq (graph : Graph)
    (hw : graph.vertex_weights_.length = graph.GetVertexCount) (depth : Nat) (l : List Nat) :
    (∀ v ∈ l, v < graph.GetVertexCount) → ∀ sum, sum < UINT64_SIZE →
      weightedReduce graph depth l sum = .ok ((sum + levelSum graph depth l) % UINT64_SIZE) := by
  induction l with
  | nil =>
    intro _ sum hsum
    simp [weightedReduce, levelSum_nil, Nat.mod_eq_of_lt hsum]
  | cons v rest ih =>
    intro hl sum _
    have hv : v < graph.GetVertexCount := hl v (List.mem_cons_self _ _)
    simp only [weightedReduce, graph.weight_of_lt (hw ▸ hv), Outcome.ofOption_some,
      Outcome.bind_ok]
    rw [ih (fun u hu => hl u (List.mem_cons_of_mem _ hu)) _ (addU64_lt _ _), addU64_add,
      levelSum_cons]

/-- One level of `ComputeSumPar` under any schedule: the same state as after one level of
`ComputeSumSeq`. -/
theorem ComputeSumPar.par_body_eq (graph : Graph)
    (schedule : Nat → List (Nat × Nat) → List (Nat × Nat)) (hsched : IsRearrangement schedule)
    (hw : graph.vertex_weights_.length = graph.GetVertexCount) (st : LoopState)
    (hne : st.vertices_to_process ≠ [])
    (hl : ∀ v ∈ st.vertices_to_process, v < graph.GetVertexCount)
    (hlen : st.vertices_to_process.length ≤ st.states.length) (hnext : st.next_vertices = [])
    (hsum : st.sum < UINT64_SIZE) :
    ComputeSumPar.body graph schedule st =
      .ok { sum := (st.sum + levelSum graph (st.depth + 1) st.vertices_to_process) % UINT64_SIZE,
            depth := st.depth + 1,
            vertices_to_process := expand graph st.vertices_to_process,
            next_vertices := [],
            states := prefixSums 0 (childCounts graph st.vertices_to_process) ++
              st.states.drop st.vertices_to_process.length } := by
  unfold ComputeSumPar.body
  simp only
  rw [ComputeSumSeq.placementPlan_eq graph _ _ hl hlen]
  simp only [Outcome.bind_ok]
  rw [ComputeSumSeq.nextSize_eq graph _ _ hne hl]
  simp only [Outcome.bind_ok, hnext, resize_nil]
  rw [ComputeSumPar.levelWrites_eq graph _ hl 0]
  simp only [Outcome.bind_ok]
  have hperm := hsched (st.depth + 1) (copyWrites (expand graph st.vertices_to_process) 0)
  have hnd : ((schedule (st.depth + 1)
      (copyWrites (expand graph st.vertices_to_process) 0)).map Prod.fst).Nodup := by
    rw [(hperm.map Prod.fst).nodup_iff, copyWrites_indices]
    exact List.nodup_range' _ _
  rw [store_perm hperm hnd, store_copyWrites]
  have hcopy := copy_eq (expand graph st.vertices_to_process) []
    (List.replicate (expand graph st.vertices_to_process).length 0) [] (by simp)
  simp only [List.length_nil, List.nil_append, List.append_nil] at hcopy
  rw [hcopy, Outcome.bind_ok, weightedReduce_eq graph hw _ _ hl _ hsum]
  rfl

theorem ComputeSumPar.par_body_stateAt {graph : Graph} (wf : WellFormedTree graph)
    (schedule : Nat → List (Nat × Nat) → List (Nat × Nat)) (hsched : IsRearrangement schedule)
    (k : Nat) (hne : frontier graph k ≠ []) :
    ComputeSumPar.body graph schedule (ComputeSumSeq.stateAt graph k) =
      .ok (ComputeSumSeq.stateAt graph (k + 1)) := by
  rw [ComputeSumPar.par_body_eq graph schedule hsched wf.weights_size _ hne (wf.frontier_lt k)
    (by
      show (frontier graph k).length ≤ (ComputeSumSeq.statesAt graph k).length
      rw [ComputeSumSeq.statesAt_length wf]
      exact wf.frontier_length_le k)
    rfl (Nat.mod_lt _ (by decide))]
  unfold ComputeSumSeq.stateAt
  simp only
  congr 2
  show _ = (levelsTotal graph k + levelSum graph (k + 1) (frontier graph k)) % UINT64_SIZE
  rw [Nat.add_mod, Nat.mod_mod, ← Nat.add_mod]

theorem ComputeSumPar.par_eq_of_height {graph : Graph} (wf : WellFormedTree graph)
    (schedule : Nat → List (Nat × Nat) → List (Nat × Nat)) (hsched : IsRearrangement schedule)
    {h : Nat} (hempty : frontier graph h = []) (hne : ∀ j, j < h → frontier graph j ≠ [])
    (fuel : Nat) :
    ComputeSumPar schedule fuel graph =
      if h ≤ fuel then .ok (levelsTotal graph h % UINT64_SIZE) else .outOfFuel := by
  unfold ComputeSumPar ComputeSumPar.loop
  have hchain := whileLoop_chain frontierNonEmpty (ComputeSumPar.body graph schedule) h
    (ComputeSumSeq.stateAt graph)
    (fun j hj => frontierNonEmpty_eq_true (hne j hj))
    (fun j hj => ComputeSumPar.par_body_stateAt wf schedule hsched j (hne j hj))
    (frontierNonEmpty_eq_false hempty) fuel
  rw [show ComputeSumSeq.initial graph = ComputeSumSeq.stateAt graph 0 from rfl, hchain]
  split <;> rfl

theorem isRearrangement_inOrder {α : Type} : IsRearrangement (inOrder : Nat → List α → List α) :=
  fun _ l => List.Perm.refl l

theorem isRearrangement_inReverse {α : Type} :
    IsRearrangement (inReverse : Nat → List α → List α) :=
  fun _ l => List.reverse_perm l

/-! ## The atomic-counter strategy `ComputeSumSafeVectorAtomic` -/

theorem ComputeSumSafeVectorAtomic.frontierAt_perm (graph : Graph)
    (schedule : Nat → List Nat → List Nat) (hsched : IsRearrangement schedule) (k : Nat) :
    (ComputeSumSafeVectorAtomic.frontierAt graph schedule k).Perm (frontier graph k) := by
  induction k with
  | zero => exact List.Perm.refl _
  | succ k ih => exact (hsched _ _).trans (expand_perm graph ih)

theorem ComputeSumSafeVectorAtomic.levelChildren_eq (graph : Graph) (l : List Nat)
    (hl : ∀ v ∈ l, v < graph.GetVertexCount) :
    ComputeSumSafeVectorAtomic.levelChildren graph l = .ok (expand graph l) := by
  induction l with
  | nil => rfl
  | cons v rest ih =>
    have hv : v < graph.GetVertexCount := hl v (List.mem_cons_self _ _)
    simp only [ComputeSumSafeVectorAtomic.levelChildren, graph.children_of_lt hv,
      Outcome.ofOption_some, Outcome.bind_ok, ih fun u hu => hl u (List.mem_cons_of_mem _ hu)]
    rfl

/-- Claiming slots for a list of children fills the slots after `place` in the order of the
list and advances `place` by the number of children. -/
theorem ComputeSumSafeVectorAtomic.claimSlots_eq (children : List Nat) :
    ∀ (pre mid post : List Nat), mid.length = children.length →
      ComputeSumSafeVectorAtomic.claimSlots children pre.length (pre ++ mid ++ post) =
        .ok (pre.length + children.length, pre ++ children ++ post) := by
  induction children with
  | nil =>
    intro pre mid post hmid
    rw [List.length_eq_zero.1 hmid]
    rfl
  | cons x rest ih =>
    intro pre mid post hmid
    cases mid with
    | nil => simp at hmid
    | cons m mid =>
      have hlt : pre.length < (pre ++ (m :: mid) ++ post).length := by
        simp only [List.length_append, List.length_cons]
        omega
      have hset : (pre ++ (m :: mid) ++ post).set pre.length x = (pre ++ [x]) ++ mid ++ post := by
        rw [List.append_assoc, List.cons_append, set_length_append]
        simp
      have hlen : pre.length + 1 = (pre ++ [x]).length := by simp
      simp only [ComputeSumSafeVectorAtomic.claimSlots, hlt, if_true, hset]
      rw [hlen, ih (pre ++ [x]) mid post (by simpa using hmid)]
      simp
      omega

/-- A slot is claimed beyond the end of the buffer as soon as there are more children than
slots. -/
theorem ComputeSumSafeVectorAtomic.claimSlots_overflow (children : List Nat) :
    ∀ (place : Nat) (buffer : List Nat), place ≤ buffer.length →
      buffer.length < place + children.length →
      ComputeSumSafeVectorAtomic.claimSlots children place buffer = .outOfRange := by
  induction children with
  | nil =>
    intro place buffer hle h
    simp only [List.length_nil] at h
    omega
  | cons x rest ih =>
    intro place buffer hle h
    simp only [ComputeSumSafeVectorAtomic.claimSlots]
    split
    · exact ih _ _ (by simp only [List.length_set]; omega)
        (by simp only [List.length_set, List.length_cons] at h ⊢; omega)
    · rfl

theorem resize_append_length (l post : List Nat) : resize (l ++ post) l.length = l := by
  simp [resize]

theorem visited_length (graph : Graph) (k : Nat) :
    (visited graph k).length = ((List.range k).map fun i => (frontier graph i).length).sum := by
  induction k with
  | zero => rfl
  | succ k ih =>
    rw [List.range_succ, List.map_append, List.sum_append]
    simp [visited, ih]

/-- The children of one level and the vertices visited so far are distinct vertices. -/
theorem WellFormedTree.children_bound {graph : Graph} (wf : WellFormedTree graph) (k : Nat) :
    (expand graph (frontier graph k)).length + (visited graph (k + 1)).length ≤
      graph.GetVertexCount := by
  have h := wf.visited_length_le (k + 1 + 1)
  have h2 : visited graph (k + 1 + 1) = visited graph (k + 1) ++ frontier graph (k + 1) := rfl
  rw [h2, List.length_append] at h
  have h3 : frontier graph (k + 1) = expand graph (frontier graph k) := rfl
  rw [h3] at h
  omega

/-- One level of `ComputeSumSafeVectorAtomic` on a frontier of vertices whose children fit into
the buffer of `vertex_count` slots. -/
theorem ComputeSumSafeVectorAtomic.atomic_body_eq (graph : Graph)
    (schedule : Nat → List Nat → List Nat) (hsched : IsRearrangement schedule)
    (hw : graph.vertex_weights_.length = graph.GetVertexCount) (st : LoopState)
    (hl : ∀ v ∈ st.vertices_to_process, v < graph.GetVertexCount)
    (hfit : (expand graph st.vertices_to_process).length ≤ graph.GetVertexCount)
    (hnext : st.next_vertices = []) (hsum : st.sum < UINT64_SIZE) :
    ComputeSumSafeVectorAtomic.body graph schedule st =
      .ok { st with
            sum := (st.sum + levelSum graph (st.depth + 1) st.vertices_to_process) % UINT64_SIZE,
            depth := st.depth + 1,
            vertices_to_process := schedule (st.depth + 1) (expand graph st.vertices_to_process),
            next_vertices := [] } := by
  have hlenS : (schedule (st.depth + 1) (expand graph st.vertices_to_process)).length =
      (expand graph st.vertices_to_process).length := (hsched _ _).length_eq
  have hbuf : resize [] graph.GetVertexCount =
      [] ++ List.replicate (expand graph st.vertices_to_process).length 0 ++
        List.replicate (graph.GetVertexCount - (expand graph st.vertices_to_process).length) 0 := by
    rw [resize_nil, List.nil_append, ← List.replicate_add]
    congr 1
    omega
  have hclaim := ComputeSumSafeVectorAtomic.claimSlots_eq
    (schedule (st.depth + 1) (expand graph st.vertices_to_process)) []
    (List.replicate (expand graph st.vertices_to_process).length 0)
    (List.replicate (graph.GetVertexCount - (expand graph st.vertices_to_process).length) 0)
    (by rw [List.length_replicate, hlenS])
  unfold ComputeSumSafeVectorAtomic.body
  simp only
  rw [ComputeSumSafeVectorAtomic.levelChildren_eq graph _ hl]
  simp only [Outcome.bind_ok, hnext]
  rw [hbuf]
  simp only [List.length_nil] at hclaim
  rw [hclaim]
  simp only [Outcome.bind_ok]
  rw [weightedReduce_eq graph hw _ _ hl _ hsum]
  simp only [Outcome.bind_ok, List.nil_append, Nat.zero_add, resize_append_length]

theorem ComputeSumSafeVectorAtomic.frontierAt_lt {graph : Graph} (wf : WellFormedTree graph)
    (schedule : Nat → List Nat → List Nat) (hsched : IsRearrangement schedule) (k : Nat) :
    ∀ v ∈ ComputeSumSafeVectorAtomic.frontierAt graph schedule k, v < graph.GetVertexCount :=
  fun v hv => wf.frontier_lt k v
    ((ComputeSumSafeVectorAtomic.frontierAt_perm graph schedule hsched k).subset hv)

theorem ComputeSumSafeVectorAtomic.expand_frontierAt_length (graph : Graph)
    (schedule : Nat → List Nat → List Nat) (hsched : IsRearrangement schedule) (k : Nat) :
    (expand graph (ComputeSumSafeVectorAtomic.frontierAt graph schedule k)).length =
      (expand graph (frontier graph k)).length :=
  (expand_perm graph
    (ComputeSumSafeVectorAtomic.frontierAt_perm graph schedule hsched k)).length_eq

/-- One level of `ComputeSumSafeVectorAtomic` on a well-formed tree. -/
theorem ComputeSumSafeVectorAtomic.atomic_body_stateAt {graph : Graph}
    (wf : WellFormedTree graph) (schedule : Nat → List Nat → List Nat)
    (hsched : IsRearrangement schedule) (k : Nat) :
    ComputeSumSafeVectorAtomic.body graph schedule
        (ComputeSumSafeVectorAtomic.stateAt graph schedule k) =
      .ok (ComputeSumSafeVectorAtomic.stateAt graph schedule (k + 1)) := by
  have hfit : (expand graph (ComputeSumSafeVectorAtomic.frontierAt graph schedule k)).length ≤
      graph.GetVertexCount := by
    rw [ComputeSumSafeVectorAtomic.expand_frontierAt_length graph schedule hsched k]
    have := wf.children_bound k
    omega
  rw [ComputeSumSafeVectorAtomic.atomic_body_eq graph schedule hsched wf.weights_size _
    (ComputeSumSafeVectorAtomic.frontierAt_lt wf schedule hsched k) hfit rfl
    (Nat.mod_lt _ (by decide))]
  unfold ComputeSumSafeVectorAtomic.stateAt
  simp only
  congr 2
  show _ = (levelsTotal graph k + levelSum graph (k + 1) (frontier graph k)) % UINT64_SIZE
  rw [levelSum_perm graph (k + 1)
    (ComputeSumSafeVectorAtomic.frontierAt_perm graph schedule hsched k), Nat.add_mod,
    Nat.mod_mod, ← Nat.add_mod]

theorem ComputeSumSafeVectorAtomic.atomic_trace_eq {graph : Graph} (wf : WellFormedTree graph)
    (schedule : Nat → List Nat → List Nat) (hsched : IsRearrangement schedule) {h : Nat}
    (hempty : frontier graph h = []) (hne : ∀ j, j < h → frontier graph j ≠ []) (fuel : Nat) :
    whileTrace frontierNonEmpty (ComputeSumSafeVectorAtomic.body graph schedule) fuel
        ComputeSumSimple.initial =
      if h ≤ fuel then
        .ok ((List.range h).map (ComputeSumSafeVectorAtomic.stateAt graph schedule),
          ComputeSumSafeVectorAtomic.stateAt graph schedule h)
      else .outOfFuel :=
  whileTrace_chain frontierNonEmpty (ComputeSumSafeVectorAtomic.body graph schedule) h
    (ComputeSumSafeVectorAtomic.stateAt graph schedule)
    (fun j hj => frontierNonEmpty_eq_true (by
      intro hnil
      have hp := ComputeSumSafeVectorAtomic.frontierAt_perm graph schedule hsched j
      have hnil' : ComputeSumSafeVectorAtomic.frontierAt graph schedule j = [] := hnil
      rw [hnil'] at hp
      exact hne j hj hp.symm.eq_nil))
    (fun j _ => ComputeSumSafeVectorAtomic.atomic_body_stateAt wf schedule hsched j)
    (frontierNonEmpty_eq_false (by
      have hp := ComputeSumSafeVectorAtomic.frontierAt_perm graph schedule hsched h
      rw [hempty] at hp
      exact hp.eq_nil)) fuel

theorem ComputeSumSafeVectorAtomic.atomic_eq_of_height {graph : Graph}
    (wf : WellFormedTree graph) (schedule : Nat → List Nat → List Nat)
    (hsched : IsRearrangement schedule) {h : Nat} (hempty : frontier graph h = [])
    (hne : ∀ j, j < h → frontier graph j ≠ []) (fuel : Nat) :
    ComputeSumSafeVectorAtomic schedule fuel graph =
      if h ≤ fuel then .ok (levelsTotal graph h % UINT64_SIZE) else .outOfFuel := by
  unfold ComputeSumSafeVectorAtomic ComputeSumSafeVectorAtomic.loop
  rw [whileLoop_eq_whileTrace,
    ComputeSumSafeVectorAtomic.atomic_trace_eq wf schedule hsched hempty hne fuel]
  split <;> rfl

/-! ## The mutex-guarded strategy and permuted children lists -/

/-- One level of `ComputeSumMutex` on a frontier of vertices. -/
theorem ComputeSumMutex.mutex_body_eq (graph : Graph)
    (schedule : Nat → List Nat → List Nat)
    (hw : graph.vertex_weights_.length = graph.GetVertexCount) (st : LoopState)
    (hl : ∀ v ∈ st.vertices_to_process, v < graph.GetVertexCount)
    (hnext : st.next_vertices = []) (hsum : st.sum < UINT64_SIZE) :
    ComputeSumMutex.body graph schedule st =
      .ok { st with
            sum := (st.sum + levelSum graph (st.depth + 1) st.vertices_to_process) % UINT64_SIZE,
            depth := st.depth + 1,
            vertices_to_process := schedule (st.depth + 1) (expand graph st.vertices_to_process),
            next_vertices := [] } := by
  unfold ComputeSumMutex.body
  simp only
  rw [ComputeSumSafeVectorAtomic.levelChildren_eq graph _ hl]
  simp only [Outcome.bind_ok, hnext, pushBackAll_eq, List.nil_append]
  rw [weightedReduce_eq graph hw _ _ hl _ hsum]
  rfl

theorem ComputeSumMutex.mutex_body_stateAt {graph : Graph} (wf : WellFormedTree graph)
    (schedule : Nat → List Nat → List Nat) (hsched : IsRearrangement schedule) (k : Nat) :
    ComputeSumMutex.body graph schedule (ComputeSumSafeVectorAtomic.stateAt graph schedule k) =
      .ok (ComputeSumSafeVectorAtomic.stateAt graph schedule (k + 1)) := by
  rw [ComputeSumMutex.mutex_body_eq graph schedule wf.weights_size _
    (ComputeSumSafeVectorAtomic.frontierAt_lt wf schedule hsched k) rfl
    (Nat.mod_lt _ (by decide))]
  unfold ComputeSumSafeVectorAtomic.stateAt
  simp only
  congr 2
  show _ = (levelsTotal graph k + levelSum graph (k + 1) (frontier graph k)) % UINT64_SIZE
  rw [levelSum_perm graph (k + 1)
    (ComputeSumSafeVectorAtomic.frontierAt_perm graph schedule hsched k), Nat.add_mod,
    Nat.mod_mod, ← Nat.add_mod]

theorem ComputeSumSafeVectorAtomic.frontierAt_eq_nil_iff (graph : Graph)
    (schedule : Nat → List Nat → List Nat) (hsched : IsRearrangement schedule) (k : Nat) :
    ComputeSumSafeVectorAtomic.frontierAt graph schedule k = [] ↔ frontier graph k = [] := by
  have hp := ComputeSumSafeVectorAtomic.frontierAt_perm graph schedule hsched k
  constructor
  · intro h
    rw [h] at hp
    exact hp.symm.eq_nil
  · intro h
    rw [h] at hp
    exact hp.eq_nil

theorem ComputeSumMutex.mutex_trace_eq {graph : Graph} (wf : WellFormedTree graph)
    (schedule : Nat → List Nat → List Nat) (hsched : IsRearrangement schedule) {h : Nat}
    (hempty : frontier graph h = []) (hne : ∀ j, j < h → frontier graph j ≠ []) (fuel : Nat) :
    whileTrace frontierNonEmpty (ComputeSumMutex.body graph schedule) fuel
        ComputeSumSimple.initial =
      if h ≤ fuel then
        .ok ((List.range h).map (ComputeSumSafeVectorAtomic.stateAt graph schedule),
          ComputeSumSafeVectorAtomic.stateAt graph schedule h)
      else .outOfFuel :=
  whileTrace_chain frontierNonEmpty (ComputeSumMutex.body graph schedule) h
    (ComputeSumSafeVectorAtomic.stateAt graph schedule)
    (fun j hj => frontierNonEmpty_eq_true fun hnil =>
      hne j hj ((ComputeSumSafeVectorAtomic.frontierAt_eq_nil_iff graph schedule hsched j).1 hnil))
    (fun j _ => ComputeSumMutex.mutex_body_stateAt wf schedule hsched j)
    (frontierNonEmpty_eq_false
      ((ComputeSumSafeVectorAtomic.frontierAt_eq_nil_iff graph schedule hsched h).2 hempty)) fuel

theorem ComputeSumMutex.mutex_eq_of_height {graph : Graph} (wf : WellFormedTree graph)
    (schedule : Nat → List Nat → List Nat) (hsched : IsRearrangement schedule) {h : Nat}
    (hempty : frontier graph h = []) (hne : ∀ j, j < h → frontier graph j ≠ []) (fuel : Nat) :
    ComputeSumMutex schedule fuel graph =
      if h ≤ fuel then .ok (levelsTotal graph h % UINT64_SIZE) else .outOfFuel := by
  unfold ComputeSumMutex ComputeSumMutex.loop
  rw [whileLoop_eq_whileTrace, ComputeSumMutex.mutex_trace_eq wf schedule hsched hempty hne fuel]
  split <;> rfl

theorem forall₂_perm_getD {l l' : List (List Nat)} (h : List.Forall₂ List.Perm l l') :
    ∀ v : Nat, ((l[v]?).getD []).Perm ((l'[v]?).getD []) := by
  induction h with
  | nil => intro v; simp
  | cons hp _ ih =>
    intro v
    cases v with
    | zero => simpa using hp
    | succ v => simpa using ih v

theorem forall₂_perm_flatten {l l' : List (List Nat)} (h : List.Forall₂ List.Perm l l') :
    l.flatten.Perm l'.flatten := by
  induction h with
  | nil => exact List.Perm.refl _
  | cons hp _ ih =>
    rw [List.flatten_cons, List.flatten_cons]
    exact hp.append ih

theorem ChildrenPermuted.children_perm {graph graph' : Graph}
    (h : ChildrenPermuted graph graph') (v : Nat) :
    (graph.children v).Perm (graph'.children v) :=
  forall₂_perm_getD h.2 v

theorem ChildrenPermuted.vertexCount_eq {graph graph' : Graph}
    (h : ChildrenPermuted graph graph') : graph'.GetVertexCount = graph.GetVertexCount :=
  h.2.length_eq.symm

theorem ChildrenPermuted.weight_eq {graph graph' : Graph}
    (h : ChildrenPermuted graph graph') (v : Nat) : graph'.weight v = graph.weight v := by
  unfold Graph.weight Graph.weightAt
  rw [h.1]

theorem ChildrenPermuted.expand_perm₂ {graph graph' : Graph}
    (h : ChildrenPermuted graph graph') {l l' : List Nat} (hl : l.Perm l') :
    (expand graph l).Perm (expand graph' l') :=
  (expand_perm graph hl).trans (List.Perm.flatMap_left l' fun v _ => h.children_perm v)

theorem ChildrenPermuted.frontier_perm {graph graph' : Graph}
    (h : ChildrenPermuted graph graph') (k : Nat) :
    (frontier graph k).Perm (frontier graph' k) := by
  induction k with
  | zero => exact List.Perm.refl _
  | succ k ih => exact h.expand_perm₂ ih

theorem ChildrenPermuted.levelSum_eq {graph graph' : Graph}
    (h : ChildrenPermuted graph graph') (depth : Nat) {l l' : List Nat} (hl : l.Perm l') :
    levelSum graph' depth l' = levelSum graph depth l := by
  rw [← levelSum_perm graph' depth hl]
  unfold levelSum
  congr 1
  apply List.map_congr_left
  intro v _
  rw [h.weight_eq v]

theorem ChildrenPermuted.levelsTotal_permuted {graph graph' : Graph}
    (h : ChildrenPermuted graph graph') (k : Nat) :
    levelsTotal graph' k = levelsTotal graph k := by
  induction k with
  | zero => rfl
  | succ k ih =>
    show levelsTotal graph' k + levelSum graph' (k + 1) (frontier graph' k) =
      levelsTotal graph k + levelSum graph (k + 1) (frontier graph k)
    rw [ih, h.levelSum_eq (k + 1) (h.frontier_perm k)]

theorem ChildrenPermuted.reachable {graph graph' : Graph} (h : ChildrenPermuted graph graph')
    {v : Nat} (hv : Reachable graph v) : Reachable graph' v := by
  induction hv with
  | root => exact Reachable.root
  | child _ hc ih => exact Reachable.child ih ((h.children_perm _).subset hc)

/-- Rearranging the children lists of a well-formed tree gives a well-formed tree. -/
theorem ChildrenPermuted.wellFormed {graph graph' : Graph} (h : ChildrenPermuted graph graph')
    (wf : WellFormedTree graph) : WellFormedTree graph' where
  weights_size := by rw [h.1, h.vertexCount_eq]; exact wf.weights_size
  has_root := by rw [h.vertexCount_eq]; exact wf.has_root
  ids_in_range := by
    intro v hv
    rw [h.vertexCount_eq]
    exact wf.ids_in_range v ((forall₂_perm_flatten h.2).symm.subset hv)
  root_no_parent := fun hmem =>
    wf.root_no_parent ((forall₂_perm_flatten h.2).symm.subset hmem)
  one_parent := by
    intro v h1 hlt
    rw [h.vertexCount_eq] at hlt
    rw [← (forall₂_perm_flatten h.2).count_eq]
    exact wf.one_parent v h1 hlt
  all_reachable := by
    intro v hlt
    rw [h.vertexCount_eq] at hlt
    exact h.reachable (wf.all_reachable v hlt)

/-- Rearranging the children lists does not change what `ComputeSumSimple` returns. -/
theorem ChildrenPermuted.simple_eq {graph graph' : Graph} (h : ChildrenPermuted graph graph')
    (wf : WellFormedTree graph) (fuel : Nat) :
    ComputeSumSimple fuel graph' = ComputeSumSimple fuel graph := by
  obtain ⟨height, _, _, hempty, hne⟩ := wf.exists_height
  have hempty' : frontier graph' height = [] := by
    have hp := h.frontier_perm height
    rw [hempty] at hp
    exact hp.symm.eq_nil
  have hne' : ∀ j, j < height → frontier graph' j ≠ [] := by
    intro j hj hnil
    have hp := h.frontier_perm j
    rw [hnil] at hp
    exact hne j hj hp.eq_nil
  rw [ComputeSumSimple.simple_eq_of_height (h.wellFormed wf) hempty' hne' fuel,
    ComputeSumSimple.simple_eq_of_height wf hempty hne fuel, h.levelsTotal_permuted]

theorem exampleTreeSwapped_permuted : ChildrenPermuted exampleTree exampleTreeSwapped :=
  ⟨rfl, List.Forall₂.cons (List.Perm.swap 2 1 []) (List.Forall₂.cons (List.Perm.refl _)
    (List.Forall₂.cons (List.Perm.refl _) (List.Forall₂.cons (List.Perm.refl _)
      List.Forall₂.nil)))⟩

/-! ## The pooled variants -/

theorem ComputeSumPoolSimple.storeChildren_eq (children : List Nat) :
    ∀ (pre mid post : List Nat), mid.length = children.length →
      ComputeSumPoolSimple.storeChildren children pre.length (pre ++ mid ++ post) =
        .ok (pre.length + children.length, pre ++ children ++ post) := by
  induction children with
  | nil =>
    intro pre mid post hmid
    rw [List.length_eq_zero.1 hmid]
    rfl
  | cons x rest ih =>
    intro pre mid post hmid
    cases mid with
    | nil => simp at hmid
    | cons m mid =>
      have hlt : pre.length < (pre ++ (m :: mid) ++ post).length := by
        simp only [List.length_append, List.length_cons]
        omega
      have hset : (pre ++ (m :: mid) ++ post).set pre.length x = (pre ++ [x]) ++ mid ++ post := by
        rw [List.append_assoc, List.cons_append, set_length_append]
        simp
      have hlen : pre.length + 1 = (pre ++ [x]).length := by simp
      simp only [ComputeSumPoolSimple.storeChildren, hlt, if_true, hset]
      rw [hlen, ih (pre ++ [x]) mid post (by simpa using hmid)]
      simp
      omega

theorem getElem?_length_append (A : List Nat) (v : Nat) (rest : List Nat) :
    (A ++ v :: rest)[A.length]? = some v := by
  rw [List.getElem?_append_right (Nat.le_refl _), Nat.sub_self, List.getElem?_cons_zero]

/-- The loop over the window `R` of the pool: the pool holds `A`, the window `R`, the children
`D` stored so far, room `M` for the children of `R`, and a rest `P`. -/
theorem ComputeSumPoolSimple.forRange_eq (graph : Graph)
    (hw : graph.vertex_weights_.length = graph.GetVertexCount) (depth : Nat) (R : List Nat) :
    (∀ v ∈ R, v < graph.GetVertexCount) →
      ∀ (A D M P : List Nat) (sum : Nat), sum < UINT64_SIZE →
        M.length = (expand graph R).length →
        ComputeSumPoolSimple.forRange graph depth R.length A.length sum
            (A.length + R.length + D.length) (A ++ R ++ D ++ M ++ P) =
          .ok ((sum + levelSum graph depth R) % UINT64_SIZE,
            A.length + R.length + D.length + (expand graph R).length,
            A ++ R ++ D ++ expand graph R ++ P) := by
  induction R with
  | nil =>
    intro _ A D M P sum hsum hM
    have hnil : M = [] := List.length_eq_zero.1 (by simpa [expand] using hM)
    simp [hnil, ComputeSumPoolSimple.forRange, levelSum_nil, expand, Nat.mod_eq_of_lt hsum]
  | cons v R' ih =>
    intro hl A D M P sum _ hM
    have hv : v < graph.GetVertexCount := hl v (List.mem_cons_self _ _)
    have hexp : expand graph (v :: R') = graph.children v ++ expand graph R' := rfl
    rw [hexp, List.length_append] at hM
    have hget : (A ++ (v :: R') ++ D ++ M ++ P)[A.length]? = some v := by
      rw [List.append_assoc, List.append_assoc, List.append_assoc, List.cons_append]
      exact getElem?_length_append A v _
    have hpool : A ++ (v :: R') ++ D ++ M ++ P =
        (A ++ (v :: R') ++ D) ++ M.take (graph.children v).length ++
          (M.drop (graph.children v).length ++ P) := by
      rw [List.append_assoc _ (List.take _ M), ← List.append_assoc (List.take _ M),
        List.take_append_drop, ← List.append_assoc]
    have hnt : A.length + (v :: R').length + D.length = (A ++ (v :: R') ++ D).length := by
      simp only [List.length_append]
    have hstore := ComputeSumPoolSimple.storeChildren_eq (graph.children v)
      (A ++ (v :: R') ++ D) (M.take (graph.children v).length)
      (M.drop (graph.children v).length ++ P) (by rw [List.length_take]; omega)
    have hrec := ih (fun u hu => hl u (List.mem_cons_of_mem _ hu)) (A ++ [v])
      (D ++ graph.children v) (M.drop (graph.children v).length) P
      (addU64 sum (weightedTerm (graph.weight v) depth)) (addU64_lt _ _)
      (by rw [List.length_drop]; omega)
    have e1 : A.length + 1 = (A ++ [v]).length := by simp
    have e2 : (A ++ (v :: R') ++ D).length + (graph.children v).length =
        (A ++ [v]).length + R'.length + (D ++ graph.children v).length := by
      simp only [List.length_append, List.length_cons, List.length_singleton, List.length_nil]
      omega
    have e3 : (A ++ (v :: R') ++ D) ++ graph.children v ++
        (M.drop (graph.children v).length ++ P) =
        (A ++ [v]) ++ R' ++ (D ++ graph.children v) ++ M.drop (graph.children v).length ++ P := by
      simp [List.append_assoc]
    rw [List.length_cons] at hnt ⊢
    simp only [ComputeSumPoolSimple.forRange, hget, Outcome.ofOption_some, Outcome.bind_ok,
      graph.weight_of_lt (hw ▸ hv), graph.children_of_lt hv]
    rw [hpool, hnt, hstore]
    simp only [Outcome.bind_ok]
    rw [e1, e2, e3, hrec, addU64_add, levelSum_cons, hexp]
    simp only [List.length_append, List.length_cons, List.length_singleton, List.length_nil,
      List.append_assoc, List.singleton_append, List.cons_append, List.nil_append]
    congr 3
    omega

theorem visited_succ_length (graph : Graph) (k : Nat) :
    (visited graph (k + 1)).length = (visited graph k).length + (frontier graph k).length := by
  show (visited graph k ++ frontier graph k).length = _
  rw [List.length_append]

/-- Before the last level the pool window does not start at the end of the pool. -/
theorem WellFormedTree.visited_length_lt {graph : Graph} (wf : WellFormedTree graph) {k : Nat}
    (hne : frontier graph k ≠ []) : (visited graph k).length < graph.GetVertexCount := by
  have h1 := wf.visited_length_le (k + 1)
  have h2 := visited_succ_length graph k
  have h3 : 0 < (frontier graph k).length := List.length_pos.2 hne
  omega

theorem WellFormedTree.visited_length_height {graph : Graph} (wf : WellFormedTree graph)
    {h : Nat} (h1 : 1 ≤ h) (hempty : frontier graph h = []) :
    (visited graph h).length = graph.GetVertexCount := by
  rw [(wf.visited_perm h1 hempty).length_eq, List.length_range]

/-- The pool of level `k`, split into the vertices before the window, the window, the room for
the next level and the rest. -/
theorem WellFormedTree.pool_split {graph : Graph} (wf : WellFormedTree graph) (k : Nat) :
    visited graph (k + 1) ++
        List.replicate (graph.GetVertexCount - (visited graph (k + 1)).length) 0 =
      visited graph k ++ frontier graph k ++ [] ++
        List.replicate (expand graph (frontier graph k)).length 0 ++
        List.replicate (graph.GetVertexCount - (visited graph (k + 1 + 1)).length) 0 := by
  have h1 := wf.visited_length_le (k + 1 + 1)
  have h2 := visited_succ_length graph (k + 1)
  have h3 : frontier graph (k + 1) = expand graph (frontier graph k) := rfl
  rw [h3] at h2
  rw [List.append_nil, List.append_assoc _ (List.replicate _ 0), ← List.replicate_add]
  congr 2
  omega

/-- One level of `ComputeSumPoolSimple` on a well-formed tree. -/
theorem ComputeSumPoolSimple.pool_body_stateAt {graph : Graph} (wf : WellFormedTree graph)
    (k : Nat) :
    ComputeSumPoolSimple.body graph (ComputeSumPoolSimple.stateAt graph k) =
      .ok (ComputeSumPoolSimple.stateAt graph (k + 1)) := by
  have hrange := ComputeSumPoolSimple.forRange_eq graph wf.weights_size (k + 1)
    (frontier graph k) (wf.frontier_lt k) (visited graph k) []
    (List.replicate (expand graph (frontier graph k)).length 0)
    (List.replicate (graph.GetVertexCount - (visited graph (k + 1 + 1)).length) 0)
    (levelsTotal graph k % UINT64_SIZE) (Nat.mod_lt _ (by decide)) (by simp)
  have hlen := visited_succ_length graph k
  have hlen2 := visited_succ_length graph (k + 1)
  have hf : frontier graph (k + 1) = expand graph (frontier graph k) := rfl
  have hcount : (visited graph (k + 1)).length - (visited graph k).length =
      (frontier graph k).length := by omega
  have hnext : (visited graph (k + 1)).length =
      (visited graph k).length + (frontier graph k).length + ([] : List Nat).length := by
    simp only [List.length_nil]
    omega
  unfold ComputeSumPoolSimple.body ComputeSumPoolSimple.stateAt
  simp only
  rw [hcount, wf.pool_split k]
  conv_lhs => rw [hnext]
  rw [hrange]
  simp only [Outcome.bind_ok]
  congr 2
  · show _ = (levelsTotal graph k + levelSum graph (k + 1) (frontier graph k)) % UINT64_SIZE
    rw [Nat.add_mod, Nat.mod_mod, ← Nat.add_mod]
  · simp only [List.length_nil]
    rw [hf] at hlen2
    omega
  · simp only [List.length_nil]
    rw [hf] at hlen2
    omega
  · simp only [List.length_nil]
    rw [hf] at hlen2
    omega
  · have hv : visited graph (k + 1 + 1) =
        visited graph k ++ frontier graph k ++ expand graph (frontier graph k) := rfl
    rw [hv]
    simp [List.append_assoc]

theorem ComputeSumPoolSimple.pool_initial_eq {graph : Graph} (wf : WellFormedTree graph) :
    ComputeSumPoolSimple.initial graph = ComputeSumPoolSimple.stateAt graph 0 := by
  obtain ⟨m, hm⟩ : ∃ m, graph.GetVertexCount = m + 1 :=
    ⟨graph.GetVertexCount - 1, by have := wf.has_root; omega⟩
  unfold ComputeSumPoolSimple.initial ComputeSumPoolSimple.stateAt
  rw [hm]
  simp [visited, frontier, levelsTotal, List.replicate_succ]

theorem poolGuard_stateAt_true {graph : Graph} (wf : WellFormedTree graph) {k : Nat}
    (hne : frontier graph k ≠ []) :
    poolGuard graph.GetVertexCount (ComputeSumPoolSimple.stateAt graph k) = true := by
  unfold poolGuard ComputeSumPoolSimple.stateAt
  simpa using wf.visited_length_lt hne

theorem poolGuard_stateAt_false {graph : Graph} (wf : WellFormedTree graph) {h : Nat}
    (h1 : 1 ≤ h) (hempty : frontier graph h = []) :
    poolGuard graph.GetVertexCount (ComputeSumPoolSimple.stateAt graph h) = false := by
  unfold poolGuard ComputeSumPoolSimple.stateAt
  simp [wf.visited_length_height h1 hempty]

/-- The run of `ComputeSumPoolSimple` on a well-formed tree of height `h`. -/
theorem ComputeSumPoolSimple.pool_eq_of_height {graph : Graph} (wf : WellFormedTree graph)
    {h : Nat} (h1 : 1 ≤ h) (hempty : frontier graph h = [])
    (hne : ∀ j, j < h → frontier graph j ≠ []) (fuel : Nat) :
    ComputeSumPoolSimple fuel graph =
      if h ≤ fuel then .ok (levelsTotal graph h % UINT64_SIZE) else .outOfFuel := by
  unfold ComputeSumPoolSimple ComputeSumPoolSimple.loop
  rw [ComputeSumPoolSimple.pool_initial_eq wf,
    whileLoop_chain (poolGuard graph.GetVertexCount) (ComputeSumPoolSimple.body graph) h
      (ComputeSumPoolSimple.stateAt graph)
      (fun j hj => poolGuard_stateAt_true wf (hne j hj))
      (fun j _ => ComputeSumPoolSimple.pool_body_stateAt wf j)
      (poolGuard_stateAt_false wf h1 hempty) fuel]
  split <;> rfl

/-- The reduction of `ComputeSumPoolSeq` over the window `R` of the pool, the window of
`states` holding the plan of `R`. -/
theorem ComputeSumPoolSeq.pool_transformReduce_eq (graph : Graph)
    (hw : graph.vertex_weights_.length = graph.GetVertexCount) (depth : Nat) (R : List Nat) :
    (∀ v ∈ R, v < graph.GetVertexCount) →
      ∀ (A D M P SA SP : List Nat) (sum : Nat), sum < UINT64_SIZE →
        M.length = (expand graph R).length → SA.length = A.length →
        ComputeSumPoolSeq.transformReduce graph depth R.length A.length
            (SA ++ prefixSums (A.length + R.length + D.length) (childCounts graph R) ++ SP) sum
            (A ++ R ++ D ++ M ++ P) =
          .ok ((sum + levelSum graph depth R) % UINT64_SIZE,
            A ++ R ++ D ++ expand graph R ++ P) := by
  induction R with
  | nil =>
    intro _ A D M P SA SP sum hsum hM _
    have hnil : M = [] := List.length_eq_zero.1 (by simpa [expand] using hM)
    simp [hnil, ComputeSumPoolSeq.transformReduce, levelSum_nil, expand, Nat.mod_eq_of_lt hsum]
  | cons v R' ih =>
    intro hl A D M P SA SP sum _ hM hSA
    have hv : v < graph.GetVertexCount := hl v (List.mem_cons_self _ _)
    have hexp : expand graph (v :: R') = graph.children v ++ expand graph R' := rfl
    rw [hexp, List.length_append] at hM
    have hget : (A ++ (v :: R') ++ D ++ M ++ P)[A.length]? = some v := by
      rw [List.append_assoc, List.append_assoc, List.append_assoc, List.cons_append]
      exact getElem?_length_append A v _
    have hstates : SA ++ prefixSums (A.length + (v :: R').length + D.length)
          (childCounts graph (v :: R')) ++ SP =
        SA ++ (A.length + (v :: R').length + D.length) ::
          (prefixSums ((A ++ [v]).length + R'.length + (D ++ graph.children v).length)
            (childCounts graph R') ++ SP) := by
      have e : A.length + (v :: R').length + D.length + (graph.children v).length =
          (A ++ [v]).length + R'.length + (D ++ graph.children v).length := by
        simp only [List.length_append, List.length_cons, List.length_singleton, List.length_nil]
        omega
      simp only [childCounts, List.map_cons, prefixSums, List.append_assoc, List.cons_append, e]
    have hoff : (SA ++ (A.length + (v :: R').length + D.length) ::
          (prefixSums ((A ++ [v]).length + R'.length + (D ++ graph.children v).length)
            (childCounts graph R') ++ SP))[A.length]? =
        some (A.length + (v :: R').length + D.length) := by
      rw [← hSA]
      exact getElem?_length_append SA _ _
    have hpool : A ++ (v :: R') ++ D ++ M ++ P =
        (A ++ (v :: R') ++ D) ++ M.take (graph.children v).length ++
          (M.drop (graph.children v).length ++ P) := by
      rw [List.append_assoc _ (List.take _ M), ← List.append_assoc (List.take _ M),
        List.take_append_drop, ← List.append_assoc]
    have hnt : A.length + (v :: R').length + D.length = (A ++ (v :: R') ++ D).length := by
      simp only [List.length_append]
    have hcopy := copy_eq (graph.children v) (A ++ (v :: R') ++ D)
      (M.take (graph.children v).length) (M.drop (graph.children v).length ++ P)
      (by rw [List.length_take]; omega)
    have hrec := ih (fun u hu => hl u (List.mem_cons_of_mem _ hu)) (A ++ [v])
      (D ++ graph.children v) (M.drop (graph.children v).length) P
      (SA ++ [A.length + (v :: R').length + D.length]) SP
      (addU64 sum (weightedTerm (graph.weight v) depth)) (addU64_lt _ _)
      (by rw [List.length_drop]; omega) (by simp [hSA])
    have e1 : A.length + 1 = (A ++ [v]).length := by simp
    have e3 : (A ++ (v :: R') ++ D) ++ graph.children v ++
        (M.drop (graph.children v).length ++ P) =
        (A ++ [v]) ++ R' ++ (D ++ graph.children v) ++ M.drop (graph.children v).length ++ P := by
      simp [List.append_assoc]
    have e4 : SA ++ (A.length + (v :: R').length + D.length) ::
          (prefixSums ((A ++ [v]).length + R'.length + (D ++ graph.children v).length)
            (childCounts graph R') ++ SP) =
        (SA ++ [A.length + (v :: R').length + D.length]) ++
          prefixSums ((A ++ [v]).length + R'.length + (D ++ graph.children v).length)
            (childCounts graph R') ++ SP := by
      simp [List.append_assoc]
    rw [hstates]
    rw [show (v :: R').length = R'.length + 1 from rfl] at hoff hnt hrec e4 ⊢
    simp only [ComputeSumPoolSeq.transformReduce, hget, hoff, Outcome.ofOption_some,
      Outcome.bind_ok, graph.weight_of_lt (hw ▸ hv), graph.children_of_lt hv]
    rw [hpool, hnt, hcopy]
    simp only [Outcome.bind_ok]
    rw [e1, e3, ← hnt, e4, hrec, addU64_add, levelSum_cons, hexp]
    simp only [List.append_assoc, List.singleton_append, List.cons_append, List.nil_append]

theorem window_eq (A R T : List Nat) :
    window (A ++ R ++ T) A.length (A.length + R.length) = .ok R := by
  unfold window
  have hcond : A.length ≤ A.length + R.length ∧
      A.length + R.length ≤ (A ++ R ++ T).length := by
    simp only [List.length_append]
    omega
  rw [if_pos hcond, List.append_assoc, List.drop_left, Nat.add_sub_cancel_left, List.take_left]

/-- One iteration of `ComputeSumPoolSeq` on a pool that holds `A`, the non-empty window `R` of
vertices, room `M` for the children of `R` and a rest `P`. -/
theorem ComputeSumPoolSeq.pool_body_eq (graph : Graph)
    (hw : graph.vertex_weights_.length = graph.GetVertexCount)
    (A R M P SA SM SP : List Nat) (sum depth : Nat)
    (hR : ∀ v ∈ R, v < graph.GetVertexCount) (hne : R ≠ [])
    (hM : M.length = (expand graph R).length) (hSA : SA.length = A.length)
    (hSM : SM.length = R.length) (hsum : sum < UINT64_SIZE) :
    ComputeSumPoolSeq.body graph
        { sum := sum, depth := depth, from_ := A.length, to_ := A.length + R.length,
          next_to := A.length + R.length, pool := A ++ R ++ M ++ P,
          states := SA ++ SM ++ SP } =
      .ok { sum := (sum + levelSum graph (depth + 1) R) % UINT64_SIZE, depth := depth + 1,
            from_ := A.length + R.length,
            to_ := A.length + R.length + (expand graph R).length,
            next_to := A.length + R.length + (expand graph R).length,
            pool := A ++ R ++ expand graph R ++ P,
            states := SA ++ prefixSums (A.length + R.length) (childCounts graph R) ++ SP } := by
  obtain ⟨front, back, rfl⟩ : ∃ front back, R = front ++ [back] :=
    ⟨R.dropLast, R.getLast hne, (List.dropLast_append_getLast hne).symm⟩
  have hback : back < graph.GetVertexCount := hR back (by simp)
  have hwin : window (A ++ (front ++ [back]) ++ M ++ P) A.length
      (A.length + (front ++ [back]).length) = .ok (front ++ [back]) := by
    rw [List.append_assoc (A ++ (front ++ [back]))]
    exact window_eq A (front ++ [back]) (M ++ P)
  have hscan := transform_exclusive_scan_eq graph (front ++ [back]) hR SA SM SP
    (A.length + (front ++ [back]).length) hSM
  rw [hSA] at hscan
  have hred := ComputeSumPoolSeq.pool_transformReduce_eq graph hw (depth + 1) (front ++ [back])
    hR A [] M P SA SP sum hsum hM hSA
  simp only [List.length_nil, Nat.add_zero, List.append_nil] at hred
  have hcounts : childCounts graph (front ++ [back]) =
      childCounts graph front ++ [(graph.children back).length] := by
    simp [childCounts]
  have hidx : A.length + (front ++ [back]).length - 1 = A.length + front.length := by
    simp only [List.length_append, List.length_singleton]
    omega
  have hlast : (SA ++ prefixSums (A.length + (front ++ [back]).length)
        (childCounts graph (front ++ [back])) ++ SP)[A.length + front.length]? =
      some (A.length + (front ++ [back]).length + (childCounts graph front).sum) := by
    rw [List.append_assoc, List.getElem?_append_right (by omega), hSA, Nat.add_sub_cancel_left,
      hcounts]
    have := prefixSums_getLast (childCounts graph front)
      (A.length + (front ++ [back]).length) (graph.children back).length SP
    rw [childCounts_length] at this
    exact this
  have hvertex : (A ++ (front ++ [back]) ++ expand graph (front ++ [back]) ++ P)[
      A.length + front.length]? = some back := by
    have e : A ++ (front ++ [back]) ++ expand graph (front ++ [back]) ++ P =
        (A ++ front) ++ back :: (expand graph (front ++ [back]) ++ P) := by
      simp [List.append_assoc]
    have e2 : A.length + front.length = (A ++ front).length := by simp
    rw [e, e2]
    exact getElem?_length_append _ _ _
  have htotal : (childCounts graph front).sum + (graph.children back).length =
      (expand graph (front ++ [back])).length := by
    rw [← childCounts_sum, hcounts]
    simp
  unfold ComputeSumPoolSeq.body
  simp only [hwin, Outcome.bind_ok, hscan, Nat.add_sub_cancel_left, hred, hidx, hlast,
    hvertex, Outcome.ofOption_some, childCount_of_lt graph hback]
  congr 2 <;> omega

theorem ComputeSumPoolSeq.pool_statesAt_length {graph : Graph} (wf : WellFormedTree graph)
    (k : Nat) : (ComputeSumPoolSeq.statesAt graph k).length = graph.GetVertexCount := by
  induction k with
  | zero => simp [ComputeSumPoolSeq.statesAt]
  | succ k ih =>
    have h1 := wf.visited_length_le (k + 1)
    have h2 := visited_succ_length graph k
    simp only [ComputeSumPoolSeq.statesAt, List.length_append, List.length_take,
      prefixSums_length, childCounts_length, List.length_drop, ih]
    omega

theorem take_take_drop_append (S : List Nat) (f r : Nat) :
    S.take f ++ (S.drop f).take r ++ S.drop (f + r) = S := by
  rw [List.append_assoc, ← List.drop_drop, List.take_append_drop, List.take_append_drop]

/-- One level of `ComputeSumPoolSeq` on a well-formed tree. -/
theorem ComputeSumPoolSeq.poolSeq_body_stateAt {graph : Graph} (wf : WellFormedTree graph)
    (k : Nat) (hne : frontier graph k ≠ []) :
    ComputeSumPoolSeq.body graph (ComputeSumPoolSeq.stateAt graph k) =
      .ok (ComputeSumPoolSeq.stateAt graph (k + 1)) := by
  have hlen := visited_succ_length graph k
  have hlen2 := visited_succ_length graph (k + 1)
  have hf : frontier graph (k + 1) = expand graph (frontier graph k) := rfl
  rw [hf] at hlen2
  have hle := wf.visited_length_le (k + 1)
  have hS := ComputeSumPoolSeq.pool_statesAt_length wf k
  have hsplit := wf.pool_split k
  rw [List.append_nil] at hsplit
  have hbody := ComputeSumPoolSeq.pool_body_eq graph wf.weights_size (visited graph k)
    (frontier graph k) (List.replicate (expand graph (frontier graph k)).length 0)
    (List.replicate (graph.GetVertexCount - (visited graph (k + 1 + 1)).length) 0)
    ((ComputeSumPoolSeq.statesAt graph k).take (visited graph k).length)
    (((ComputeSumPoolSeq.statesAt graph k).drop (visited graph k).length).take
      (frontier graph k).length)
    ((ComputeSumPoolSeq.statesAt graph k).drop
      ((visited graph k).length + (frontier graph k).length))
    (levelsTotal graph k % UINT64_SIZE) k (wf.frontier_lt k) hne (by simp)
    (by rw [List.length_take]; omega)
    (by rw [List.length_take, List.length_drop]; omega) (Nat.mod_lt _ (by decide))
  rw [take_take_drop_append, ← hsplit, ← hlen] at hbody
  have hstart : ComputeSumPoolSeq.stateAt graph k =
      { sum := levelsTotal graph k % UINT64_SIZE, depth := k,
        from_ := (visited graph k).length, to_ := (visited graph (k + 1)).length,
        next_to := (visited graph (k + 1)).length,
        pool := visited graph (k + 1) ++
          List.replicate (graph.GetVertexCount - (visited graph (k + 1)).length) 0,
        states := ComputeSumPoolSeq.statesAt graph k } := rfl
  rw [hstart, hbody]
  unfold ComputeSumPoolSeq.stateAt ComputeSumPoolSimple.stateAt
  simp only
  congr 2
  · show _ = (levelsTotal graph k + levelSum graph (k + 1) (frontier graph k)) % UINT64_SIZE
    rw [Nat.add_mod, Nat.mod_mod, ← Nat.add_mod]
  · omega
  · omega

theorem ComputeSumPoolSeq.poolSeq_initial_eq {graph : Graph} (wf : WellFormedTree graph) :
    ComputeSumPoolSeq.initial graph = ComputeSumPoolSeq.stateAt graph 0 := by
  have h := ComputeSumPoolSimple.pool_initial_eq wf
  unfold ComputeSumPoolSimple.initial at h
  unfold ComputeSumPoolSeq.initial ComputeSumPoolSeq.stateAt
  rw [← h]
  rfl

/-- The run of `ComputeSumPoolSeq` on a well-formed tree of height `h`. -/
theorem ComputeSumPoolSeq.poolSeq_eq_of_height {graph : Graph} (wf : WellFormedTree graph)
    {h : Nat} (h1 : 1 ≤ h) (hempty : frontier graph h = [])
    (hne : ∀ j, j < h → frontier graph j ≠ []) (fuel : Nat) :
    ComputeSumPoolSeq fuel graph =
      if h ≤ fuel then .ok (levelsTotal graph h % UINT64_SIZE) else .outOfFuel := by
  unfold ComputeSumPoolSeq ComputeSumPoolSeq.loop
  rw [ComputeSumPoolSeq.poolSeq_initial_eq wf,
    whileLoop_chain (poolGuard graph.GetVertexCount) (ComputeSumPoolSeq.body graph) h
      (ComputeSumPoolSeq.stateAt graph)
      (fun j hj => poolGuard_stateAt_true wf (hne j hj))
      (fun j hj => ComputeSumPoolSeq.poolSeq_body_stateAt wf j (hne j hj))
      (poolGuard_stateAt_false wf h1 hempty) fuel]
  split <;> rfl

/-! ## Magnitudes: weights up to `10^3`, at most `10^7` vertices -/

theorem depth_child_of_lt (graph : Graph) (depth : Nat → Nat)
    (hchild : ∀ parent, parent < graph.GetVertexCount →
      ∀ child ∈ graph.children parent, depth child = depth parent + 1) :
    ∀ parent child, child ∈ graph.children parent → depth child = depth parent + 1 := by
  intro parent child hc
  by_cases hp : parent < graph.GetVertexCount
  · exact hchild parent hp child hc
  · rw [graph.children_of_ge (Nat.le_of_not_lt hp)] at hc
    cases hc

theorem static_cast_uint64_of_nonneg {w : Int} (h0 : 0 ≤ w) (hlt : w < 2 ^ 64) :
    static_cast_uint64 w = w.toNat := by
  unfold static_cast_uint64
  rw [Int.emod_eq_of_lt h0 hlt]

theorem static_cast_uint64_le {w : Int} (h0 : 0 ≤ w) (hle : w ≤ 1000) :
    static_cast_uint64 w ≤ 1000 := by
  rw [static_cast_uint64_of_nonneg h0 (by omega)]
  omega

theorem weightedTerm_le {w : Int} (h0 : 0 ≤ w) (hle : w ≤ 1000) (depth : Nat) :
    weightedTerm w depth ≤ 1000 * depth := by
  unfold weightedTerm
  calc static_cast_uint64 w * (depth % UINT64_SIZE) % UINT64_SIZE
      ≤ static_cast_uint64 w * (depth % UINT64_SIZE) := Nat.mod_le _ _
    _ ≤ 1000 * depth := Nat.mul_le_mul (static_cast_uint64_le h0 hle) (Nat.mod_le _ _)

theorem levelSum_le (graph : Graph) (depth : Nat) (l : List Nat)
    (hl : ∀ v ∈ l, 0 ≤ graph.weight v ∧ graph.weight v ≤ 1000) :
    levelSum graph depth l ≤ 1000 * depth * l.length := by
  induction l with
  | nil => simp [levelSum_nil]
  | cons v rest ih =>
    have h1 := weightedTerm_le (hl v (List.mem_cons_self _ _)).1
      (hl v (List.mem_cons_self _ _)).2 depth
    have h2 := ih fun u hu => hl u (List.mem_cons_of_mem _ hu)
    rw [levelSum_cons, List.length_cons, Nat.mul_add, Nat.mul_one]
    omega

/-- The exact total of the first `k` levels is at most `10^3 * k` times the number of vertices
visited. -/
theorem WellFormedTree.levelsTotal_le {graph : Graph} (wf : WellFormedTree graph)
    (hweights : ∀ v, v < graph.GetVertexCount → 0 ≤ graph.weight v ∧ graph.weight v ≤ 1000)
    (k : Nat) : levelsTotal graph k ≤ 1000 * k * (visited graph k).length := by
  induction k with
  | zero => simp [levelsTotal]
  | succ k ih =>
    have h1 := levelSum_le graph (k + 1) (frontier graph k)
      fun v hv => hweights v (wf.frontier_lt k v hv)
    have h2 := visited_succ_length graph k
    have h3 : levelsTotal graph (k + 1) =
        levelsTotal graph k + levelSum graph (k + 1) (frontier graph k) := rfl
    have h4 : 1000 * k * (visited graph k).length ≤ 1000 * (k + 1) * (visited graph k).length :=
      Nat.mul_le_mul_right _ (by omega)
    rw [h3, h2, Nat.mul_add]
    omega

theorem magnitude_bound {k a : Nat} (hk : k ≤ 10 ^ 7) (ha : a ≤ 10 ^ 7) :
    1000 * k * a < UINT64_SIZE := by
  have h : 1000 * k * a ≤ 1000 * 10 ^ 7 * 10 ^ 7 :=
    Nat.mul_le_mul (Nat.mul_le_mul_left _ hk) ha
  have h2 : 1000 * 10 ^ 7 * 10 ^ 7 < UINT64_SIZE := by decide
  omega

/-- In a well-formed tree of height `h` every vertex has a depth between `1` and `h`. -/
theorem WellFormedTree.depth_le_height {graph : Graph} (wf : WellFormedTree graph)
    (depth : Nat → Nat) (hroot : depth 0 = 1)
    (hchild : ∀ parent child, child ∈ graph.children parent → depth child = depth parent + 1)
    {h : Nat} (h1 : 1 ≤ h) (hempty : frontier graph h = []) :
    ∀ v, v < graph.GetVertexCount → 1 ≤ depth v ∧ depth v ≤ h := by
  intro v hv
  have hmem : v ∈ visited graph h :=
    (wf.visited_perm h1 hempty).symm.subset (List.mem_range.2 hv)
  obtain ⟨j, hj, hvj⟩ := (mem_visited_iff graph v h).1 hmem
  rw [depth_of_mem_frontier graph depth hroot hchild j v hvj]
  omega

theorem sum_int_bounds (l : List Int) (c : Int) (h : ∀ x ∈ l, 0 ≤ x ∧ x ≤ c) :
    0 ≤ l.sum ∧ l.sum ≤ (l.length : Int) * c := by
  induction l with
  | nil => simp
  | cons a rest ih =>
    have ha := h a (List.mem_cons_self _ _)
    have hr := ih fun x hx => h x (List.mem_cons_of_mem _ hx)
    rw [List.sum_cons, List.length_cons]
    push_cast
    constructor
    · omega
    · have : ((rest.length : Int) + 1) * c = (rest.length : Int) * c + c := by ring
      omega

/-- With at most `10^7` vertices and weights in `[0, 10^3]` the exact weighted depth sum fits
into 64 bits. -/
theorem WellFormedTree.weightedDepthSum_bounds {graph : Graph} (wf : WellFormedTree graph)
    (hn : graph.GetVertexCount ≤ 10 ^ 7)
    (hweights : ∀ v, v < graph.GetVertexCount → 0 ≤ graph.weight v ∧ graph.weight v ≤ 1000)
    (depth : Nat → Nat) (hroot : depth 0 = 1)
    (hchild : ∀ parent child, child ∈ graph.children parent → depth child = depth parent + 1) :
    0 ≤ weightedDepthSum graph depth ∧ weightedDepthSum graph depth < 2 ^ 64 := by
  obtain ⟨h, h1, hle, hempty, _⟩ := wf.exists_height
  have hdepth := wf.depth_le_height depth hroot hchild h1 hempty
  have hterm : ∀ x ∈ (List.range graph.GetVertexCount).map
      (fun v => graph.weight v * (depth v : Int)), 0 ≤ x ∧ x ≤ 1000 * 10 ^ 7 := by
    intro x hx
    obtain ⟨v, hv, rfl⟩ := List.mem_map.1 hx
    rw [List.mem_range] at hv
    have hw := hweights v hv
    have hd := hdepth v hv
    have hd' : (depth v : Int) ≤ 10 ^ 7 := by
      have : depth v ≤ 10 ^ 7 := by omega
      exact_mod_cast this
    have hd0 : (0 : Int) ≤ (depth v : Int) := Int.natCast_nonneg _
    constructor
    · exact mul_nonneg hw.1 hd0
    · exact mul_le_mul hw.2 hd' hd0 (by norm_num)
  have hsum := sum_int_bounds _ _ hterm
  rw [List.length_map, List.length_range] at hsum
  unfold weightedDepthSum
  refine ⟨hsum.1, lt_of_le_of_lt hsum.2 ?_⟩
  have hn' : (graph.GetVertexCount : Int) ≤ 10 ^ 7 := by exact_mod_cast hn
  have : (graph.GetVertexCount : Int) * (1000 * 10 ^ 7) ≤ 10 ^ 7 * (1000 * 10 ^ 7) :=
    mul_le_mul_of_nonneg_right hn' (by norm_num)
  refine lt_of_le_of_lt this ?_
  norm_num

/-! ## Paths -/

theorem chain_vertexCount (n : Nat) (w : Int) : (chain n w).GetVertexCount = n := by
  simp [chain, Graph.GetVertexCount]

theorem chain_children (n : Nat) (w : Int) (v : Nat) :
    (chain n w).children v = if v + 1 < n then [v + 1] else [] := by
  unfold Graph.children Graph.GetAdjacentVertices chain
  by_cases hv : v < n
  · simp [List.getElem?_map, List.getElem?_range hv]
  · have h1 : ¬ v + 1 < n := by omega
    rw [List.getElem?_eq_none (by simpa using hv), if_neg h1]
    rfl

theorem chain_weight (n : Nat) (w : Int) {v : Nat} (hv : v < n) : (chain n w).weight v = w := by
  unfold Graph.weight Graph.weightAt chain
  simp [List.getElem?_replicate, hv]

theorem chain_flatten (n : Nat) (w : Int) :
    (chain n w).adjacency_lists_.flatten = List.range' 1 (n - 1) := by
  rw [← expand_range, chain_vertexCount]
  cases n with
  | zero => rfl
  | succ m =>
    rw [List.range_succ, expand_append, Nat.add_sub_cancel]
    have hlast : expand (chain (m + 1) w) [m] = [] := by
      simp [expand, chain_children]
    have hfront : expand (chain (m + 1) w) (List.range m) = (List.range m).map (1 + ·) := by
      unfold expand
      rw [← List.flatMap_pure_eq_map]
      apply List.flatMap_congr
      intro v hv
      rw [List.mem_range] at hv
      rw [chain_children, if_pos (by omega), Nat.add_comm]
      rfl
    rw [hlast, hfront, List.append_nil, List.range'_eq_map_range]

theorem chain_reachable (n : Nat) (w : Int) : ∀ v, v < n → Reachable (chain n w) v := by
  intro v
  induction v with
  | zero => intro _; exact Reachable.root
  | succ v ih =>
    intro hv
    refine Reachable.child (ih (by omega)) ?_
    rw [chain_children, if_pos hv]
    exact List.mem_singleton.2 rfl

/-- A path with at least one vertex is a well-formed tree. -/
theorem chain_wellFormed (n : Nat) (w : Int) (hn : 0 < n) : WellFormedTree (chain n w) where
  weights_size := by simp [chain, Graph.GetVertexCount]
  has_root := by rw [chain_vertexCount]; exact hn
  ids_in_range := by
    intro v hv
    rw [chain_flatten, List.mem_range'] at hv
    obtain ⟨i, hi, rfl⟩ := hv
    rw [chain_vertexCount]
    omega
  root_no_parent := by
    intro hv
    rw [chain_flatten, List.mem_range'] at hv
    obtain ⟨i, _, hi⟩ := hv
    omega
  one_parent := by
    intro v h1 hlt
    rw [chain_vertexCount] at hlt
    rw [chain_flatten]
    apply List.count_eq_one_of_mem (List.nodup_range' _ _)
    rw [List.mem_range']
    exact ⟨v - 1, by omega, by omega⟩
  all_reachable := by
    intro v hv
    rw [chain_vertexCount] at hv
    exact chain_reachable n w v hv

theorem chainDepth_child (n : Nat) (w : Int) :
    ∀ parent child, child ∈ (chain n w).children parent →
      chainDepth child = chainDepth parent + 1 := by
  intro parent child hc
  rw [chain_children] at hc
  split at hc
  · rw [List.mem_singleton.1 hc]
    rfl
  · cases hc

theorem sum_succ_range (n : Nat) :
    ((List.range n).map fun v => ((v + 1 : Nat) : Int)).sum = ((n * (n + 1) / 2 : Nat) : Int) := by
  induction n with
  | zero => rfl
  | succ n ih =>
    rw [List.range_succ, List.map_append, List.sum_append, ih]
    have h : (n + 1) * (n + 1 + 1) / 2 = n * (n + 1) / 2 + (n + 1) := by
      have e : (n + 1) * (n + 1 + 1) = n * (n + 1) + 2 * (n + 1) := by ring
      rw [e, Nat.add_mul_div_left _ _ (by decide : 0 < 2)]
    rw [h]
    simp

/-- The exact weighted depth sum of a path: the weight times `1 + 2 + … + n`. -/
theorem chain_weightedDepthSum (n : Nat) (w : Int) :
    weightedDepthSum (chain n w) chainDepth = w * ((n * (n + 1) / 2 : Nat) : Int) := by
  unfold weightedDepthSum
  rw [chain_vertexCount, ← sum_succ_range, ← List.sum_map_mul_left]
  congr 1
  apply List.map_congr_left
  intro v hv
  rw [chain_weight n w (List.mem_range.1 hv)]
  rfl

/-- What `ComputeSumSimple` returns on a path with `n` vertices of weight `w`. -/
theorem chain_total (n : Nat) (w : Int) (hn : 0 < n) (fuel : Nat) (hfuel : n ≤ fuel) :
    ComputeSumSimple fuel (chain n w) =
      .ok ((w * ((n * (n + 1) / 2 : Nat) : Int)) % (2 ^ 64 : Int)).toNat := by
  have wf := chain_wellFormed n w hn
  obtain ⟨h, h1, hle, hempty, hne⟩ := wf.exists_height
  rw [chain_vertexCount] at hle
  rw [ComputeSumSimple.simple_eq_of_height wf hempty hne fuel, if_pos (le_trans hle hfuel),
    wf.levelsTotal_eq chainDepth rfl (chainDepth_child n w) h1 hempty, chain_weightedDepthSum]

/-! ## Building the store -/

theorem Graph.AddEdge_eq (graph : Graph) (vertex_from vertex_to : Nat)
    (hfrom : vertex_from < graph.GetVertexCount) :
    graph.AddEdge vertex_from vertex_to =
      .ok { graph with
            adjacency_lists_ := graph.adjacency_lists_.set vertex_from
              (graph.children vertex_from ++ [vertex_to]) } := by
  unfold Graph.AddEdge
  have h := graph.children_of_lt hfrom
  unfold Graph.GetAdjacentVertices at h
  rw [h]

theorem Graph.AddEdge_of_ge (graph : Graph) (vertex_from vertex_to : Nat)
    (hfrom : graph.GetVertexCount ≤ vertex_from) :
    graph.AddEdge vertex_from vertex_to = .outOfRange := by
  unfold Graph.AddEdge
  unfold Graph.GetVertexCount at hfrom
  rw [List.getElem?_eq_none hfrom]

theorem exampleDistance_child : ∀ parent, parent < exampleTree.GetVertexCount →
    ∀ child ∈ exampleTree.children parent, exampleDistance child = exampleDistance parent + 1 := by
  intro parent hp
  have hp' : parent < 4 := hp
  interval_cases parent <;> decide

/-! ## `GenerateTree` -/

theorem GenerateTree.graphAt_vertexCount (weightDraw : Nat → Int) (parentDraw : Nat → Nat)
    (n k : Nat) : (GenerateTree.graphAt weightDraw parentDraw n k).GetVertexCount = n := by
  simp [GenerateTree.graphAt, Graph.GetVertexCount]

theorem GenerateTree.graphAt_children (weightDraw : Nat → Int) (parentDraw : Nat → Nat)
    (n k : Nat) {p : Nat} (hp : p < n) :
    (GenerateTree.graphAt weightDraw parentDraw n k).children p =
      (List.range k).filter fun v => decide (0 < v ∧ parentDraw v = p) := by
  simp [GenerateTree.graphAt, Graph.children, Graph.GetAdjacentVertices, List.getElem?_map,
    List.getElem?_range hp]

theorem GenerateTree.weights_step (weightDraw : Nat → Int) (n k : Nat) (hk : k < n) :
    ((List.range n).map fun v => if v < k then weightDraw v else 0).set k (weightDraw k) =
      (List.range n).map fun v => if v < k + 1 then weightDraw v else 0 := by
  apply List.ext_getElem?
  intro i
  rw [List.getElem?_set, List.getElem?_map, List.getElem?_map]
  by_cases hi : i < n
  · rw [List.getElem?_range hi]
    by_cases hik : k = i
    · subst hik
      simp [hk]
    · rw [if_neg hik]
      have : (i < k + 1) ↔ (i < k) := by omega
      simp [this]
  · rw [List.getElem?_eq_none (by simpa using hi)]
    have hik : k ≠ i := by omega
    simp [hik]

theorem GenerateTree.adjacency_step (parentDraw : Nat → Nat) (n k : Nat) (hk : 0 < k)
    (hp : parentDraw k < n) :
    ((List.range n).map fun p =>
        (List.range k).filter fun v => decide (0 < v ∧ parentDraw v = p)).set (parentDraw k)
        (((List.range k).filter fun v => decide (0 < v ∧ parentDraw v = parentDraw k)) ++ [k]) =
      (List.range n).map fun p =>
        (List.range (k + 1)).filter fun v => decide (0 < v ∧ parentDraw v = p) := by
  apply List.ext_getElem?
  intro i
  rw [List.getElem?_set, List.getElem?_map, List.getElem?_map]
  by_cases hi : i < n
  · rw [List.getElem?_range hi]
    by_cases hik : parentDraw k = i
    · subst hik
      simp [hp, List.range_succ, List.filter_append, hk]
    · rw [if_neg hik]
      simp [List.range_succ, List.filter_append, hik]
  · rw [List.getElem?_eq_none (by simpa using hi)]
    have hik : parentDraw k ≠ i := by omega
    simp [hik]

theorem GenerateTree.adjacency_zero (parentDraw : Nat → Nat) (n : Nat) :
    ((List.range n).map fun p =>
        (List.range (0 + 1)).filter fun v => decide (0 < v ∧ parentDraw v = p)) =
      (List.range n).map fun p =>
        (List.range 0).filter fun v => decide (0 < v ∧ parentDraw v = p) := by
  apply List.map_congr_left
  intro p _
  simp [List.range_succ]

/-- The loop of `GenerateTree` leads from the store after `k` iterations to the store after all
`n` iterations. -/
theorem GenerateTree.loop_graphAt (weightDraw : Nat → Int) (parentDraw : Nat → Nat) (n : Nat)
    (hparent : ∀ v, v < n → 0 < v → parentDraw v < v) :
    ∀ remaining k, k + remaining = n →
      GenerateTree.loop weightDraw parentDraw remaining k
          (GenerateTree.graphAt weightDraw parentDraw n k) =
        .ok (GenerateTree.graphAt weightDraw parentDraw n n) := by
  intro remaining
  induction remaining with
  | zero =>
    intro k hk
    rw [Nat.add_zero] at hk
    rw [hk]
    rfl
  | succ remaining ih =>
    intro k hk
    have hkn : k < n := by omega
    have hset : (GenerateTree.graphAt weightDraw parentDraw n k).setWeight k (weightDraw k) =
        .ok (GenerateTree.weightedAt weightDraw parentDraw n k) := by
      unfold Graph.setWeight GenerateTree.graphAt GenerateTree.weightedAt
      simp only [List.length_map, List.length_range, hkn, if_true]
      rw [GenerateTree.weights_step weightDraw n k hkn]
    simp only [GenerateTree.loop, hset, Outcome.bind_ok]
    by_cases h0 : 0 < k
    · have hp := hparent k hkn h0
      have hpn : parentDraw k < n := by omega
      have hcount : (GenerateTree.weightedAt weightDraw parentDraw n k).GetVertexCount = n := by
        simp [GenerateTree.weightedAt, Graph.GetVertexCount]
      have hchildren : (GenerateTree.weightedAt weightDraw parentDraw n k).children
          (parentDraw k) =
          (List.range k).filter fun v => decide (0 < v ∧ parentDraw v = parentDraw k) := by
        simp [GenerateTree.weightedAt, Graph.children, Graph.GetAdjacentVertices,
          List.getElem?_map, List.getElem?_range hpn]
      rw [if_pos h0, Graph.AddEdge_eq _ _ _ (by rw [hcount]; exact hpn), hchildren]
      simp only [Outcome.bind_ok]
      have hnext : ({ GenerateTree.weightedAt weightDraw parentDraw n k with
          adjacency_lists_ :=
            (GenerateTree.weightedAt weightDraw parentDraw n k).adjacency_lists_.set
              (parentDraw k)
              (((List.range k).filter fun v => decide (0 < v ∧ parentDraw v = parentDraw k)) ++
                [k]) } : Graph) = GenerateTree.graphAt weightDraw parentDraw n (k + 1) := by
        unfold GenerateTree.weightedAt GenerateTree.graphAt
        simp only
        rw [GenerateTree.adjacency_step parentDraw n k h0 hpn]
      rw [hnext]
      exact ih (k + 1) (by omega)
    · rw [if_neg h0]
      have hk0 : k = 0 := by omega
      subst hk0
      have hnext : GenerateTree.weightedAt weightDraw parentDraw n 0 =
          GenerateTree.graphAt weightDraw parentDraw n (0 + 1) := by
        unfold GenerateTree.weightedAt GenerateTree.graphAt
        rw [GenerateTree.adjacency_zero]
      rw [hnext]
      exact ih (0 + 1) (by omega)

theorem GenerateTree.generate_eq (weightDraw : Nat → Int) (parentDraw : Nat → Nat) (n : Nat)
    (hparent : ∀ v, v < n → 0 < v → parentDraw v < v) :
    GenerateTree weightDraw parentDraw n =
      .ok (GenerateTree.graphAt weightDraw parentDraw n n) := by
  have h := GenerateTree.loop_graphAt weightDraw parentDraw n hparent n 0 (by omega)
  have h0 : GenerateTree.graphAt weightDraw parentDraw n 0 = Graph.construct n := by
    unfold GenerateTree.graphAt Graph.construct
    congr 1
    · apply List.ext_getElem?
      intro i
      by_cases hi : i < n
      · simp [List.getElem?_map, List.getElem?_range hi, List.getElem?_replicate, hi]
      · rw [List.getElem?_eq_none (by simpa using hi), List.getElem?_eq_none (by simpa using hi)]
    · apply List.ext_getElem?
      intro i
      by_cases hi : i < n
      · simp [List.getElem?_map, List.getElem?_range hi, List.getElem?_replicate, hi]
      · rw [List.getElem?_eq_none (by simpa using hi), List.getElem?_eq_none (by simpa using hi)]
  unfold GenerateTree
  rw [← h0]
  exact h

theorem sum_indicator (l : List Nat) (a : Nat) :
    (l.map fun p => if a = p then 1 else 0).sum = l.count a := by
  induction l with
  | nil => rfl
  | cons b rest ih =>
    rw [List.map_cons, List.sum_cons, ih, List.count_cons]
    by_cases h : a = b
    · subst h
      simp
      omega
    · have h' : ¬ b = a := fun e => h e.symm
      simp [h, h']

theorem GenerateTree.mem_flatten_graphAt (weightDraw : Nat → Int) (parentDraw : Nat → Nat)
    (n v : Nat) :
    v ∈ (GenerateTree.graphAt weightDraw parentDraw n n).adjacency_lists_.flatten ↔
      v < n ∧ 0 < v ∧ parentDraw v < n := by
  unfold GenerateTree.graphAt
  simp only [List.mem_flatten, List.mem_map, List.mem_range]
  constructor
  · rintro ⟨l, ⟨p, hp, rfl⟩, hv⟩
    rw [List.mem_filter, List.mem_range] at hv
    have h := of_decide_eq_true hv.2
    exact ⟨hv.1, h.1, h.2 ▸ hp⟩
  · rintro ⟨hv, h0, hp⟩
    refine ⟨_, ⟨parentDraw v, hp, rfl⟩, ?_⟩
    rw [List.mem_filter, List.mem_range]
    exact ⟨hv, decide_eq_true ⟨h0, rfl⟩⟩

theorem GenerateTree.count_flatten_graphAt (weightDraw : Nat → Int) (parentDraw : Nat → Nat)
    (n v : Nat) (h1 : 1 ≤ v) (hv : v < n) (hp : parentDraw v < n) :
    (GenerateTree.graphAt weightDraw parentDraw n n).adjacency_lists_.flatten.count v = 1 := by
  unfold GenerateTree.graphAt
  simp only
  rw [List.count_flatten, List.map_map]
  have hcongr : (List.range n).map (List.count v ∘ fun p =>
        (List.range n).filter fun u => decide (0 < u ∧ parentDraw u = p)) =
      (List.range n).map fun p => if parentDraw v = p then 1 else 0 := by
    apply List.map_congr_left
    intro p _
    show List.count v ((List.range n).filter fun u => decide (0 < u ∧ parentDraw u = p)) = _
    by_cases hpv : parentDraw v = p
    · have hpred : (fun u => decide (0 < u ∧ parentDraw u = p)) v = true :=
        decide_eq_true ⟨h1, hpv⟩
      rw [if_pos hpv, @List.count_filter Nat _ _
        (fun u => decide (0 < u ∧ parentDraw u = p)) v (List.range n) hpred]
      exact List.count_eq_one_of_mem (List.nodup_range _) (List.mem_range.2 hv)
    · rw [if_neg hpv, List.count_eq_zero, List.mem_filter]
      rintro ⟨_, hd⟩
      exact hpv (of_decide_eq_true hd).2
  rw [hcongr, sum_indicator]
  exact List.count_eq_one_of_mem (List.nodup_range _) (List.mem_range.2 hp)

theorem GenerateTree.mem_children_graphAt (weightDraw : Nat → Int) (parentDraw : Nat → Nat)
    (n p v : Nat) :
    v ∈ (GenerateTree.graphAt weightDraw parentDraw n n).children p ↔
      p < n ∧ v < n ∧ 0 < v ∧ parentDraw v = p := by
  by_cases hp : p < n
  · rw [GenerateTree.graphAt_children weightDraw parentDraw n n hp, List.mem_filter,
      List.mem_range]
    constructor
    · rintro ⟨hv, hd⟩
      exact ⟨hp, hv, of_decide_eq_true hd⟩
    · rintro ⟨_, hv, hd⟩
      exact ⟨hv, decide_eq_true hd⟩
  · rw [Graph.children_of_ge _ (by
      rw [GenerateTree.graphAt_vertexCount]
      exact Nat.le_of_not_lt hp)]
    constructor
    · intro h
      cases h
    · rintro ⟨h, _⟩
      exact absurd h hp

theorem GenerateTree.reachable_graphAt (weightDraw : Nat → Int) (parentDraw : Nat → Nat)
    (n : Nat) (hparent : ∀ v, v < n → 0 < v → parentDraw v < v) :
    ∀ v, v < n → Reachable (GenerateTree.graphAt weightDraw parentDraw n n) v := by
  intro v
  induction v using Nat.strong_induction_on with
  | _ v ih =>
    intro hv
    rcases Nat.eq_zero_or_pos v with h0 | hpos
    · rw [h0]
      exact Reachable.root
    · have hp := hparent v hv hpos
      exact Reachable.child (ih (parentDraw v) hp (by omega))
        ((GenerateTree.mem_children_graphAt weightDraw parentDraw n (parentDraw v) v).2
          ⟨by omega, hv, hpos, rfl⟩)

/-- The store that `GenerateTree` builds is a well-formed tree. -/
theorem GenerateTree.wellFormed_graphAt (weightDraw : Nat → Int) (parentDraw : Nat → Nat)
    (n : Nat) (hn : 0 < n) (hparent : ∀ v, v < n → 0 < v → parentDraw v < v) :
    WellFormedTree (GenerateTree.graphAt weightDraw parentDraw n n) where
  weights_size := by simp [GenerateTree.graphAt, Graph.GetVertexCount]
  has_root := by rw [GenerateTree.graphAt_vertexCount]; exact hn
  ids_in_range := by
    intro v hv
    rw [GenerateTree.graphAt_vertexCount]
    exact ((GenerateTree.mem_flatten_graphAt weightDraw parentDraw n v).1 hv).1
  root_no_parent := by
    intro h
    exact absurd ((GenerateTree.mem_flatten_graphAt weightDraw parentDraw n 0).1 h).2.1
      (Nat.lt_irrefl 0)
  one_parent := by
    intro v h1 hv
    rw [GenerateTree.graphAt_vertexCount] at hv
    exact GenerateTree.count_flatten_graphAt weightDraw parentDraw n v h1 hv
      (by have := hparent v hv (by omega); omega)
  all_reachable := by
    intro v hv
    rw [GenerateTree.graphAt_vertexCount] at hv
    exact GenerateTree.reachable_graphAt weightDraw parentDraw n hparent v hv

theorem GenerateTree.weight_graphAt (weightDraw : Nat → Int) (parentDraw : Nat → Nat)
    (n : Nat) {v : Nat} (hv : v < n) :
    (GenerateTree.graphAt weightDraw parentDraw n n).weight v = weightDraw v := by
  simp [GenerateTree.graphAt, Graph.weight, Graph.weightAt, List.getElem?_map,
    List.getElem?_range hv, hv]

/-! ## Trees with vertices cut off from the root -/

/-- The root followed by all stored children holds no id twice and only vertex ids. -/
theorem PartialTree.root_cons_subperm {graph : Graph} (pt : PartialTree graph) :
    (0 :: expand graph (List.range graph.GetVertexCount)).Subperm
      (List.range graph.GetVertexCount) := by
  rw [expand_range]
  apply List.subperm_of_subset (List.nodup_cons.2 ⟨pt.root_no_parent, pt.at_most_one_parent⟩)
  intro v hv
  rcases List.mem_cons.1 hv with rfl | hv
  · exact List.mem_range.2 pt.has_root
  · exact List.mem_range.2 (pt.ids_in_range v hv)

theorem PartialTree.cut_visited_subperm {graph : Graph} (pt : PartialTree graph) (k : Nat) :
    (visited graph k).Subperm (List.range graph.GetVertexCount) := by
  induction k with
  | zero => exact List.nil_subperm
  | succ k ih =>
    rw [visited_succ]
    exact ((List.subperm_cons 0).2 (expand_subperm graph ih)).trans pt.root_cons_subperm

theorem PartialTree.cut_visited_length_le {graph : Graph} (pt : PartialTree graph)
    (k : Nat) : (visited graph k).length ≤ graph.GetVertexCount := by
  have h := (pt.cut_visited_subperm k).length_le
  rwa [List.length_range] at h

theorem PartialTree.cut_frontier_lt {graph : Graph} (pt : PartialTree graph) (k : Nat) :
    ∀ v ∈ frontier graph k, v < graph.GetVertexCount := by
  intro v hv
  have hmem : v ∈ visited graph (k + 1) := by
    show v ∈ visited graph k ++ frontier graph k
    exact List.mem_append_right _ hv
  exact List.mem_range.1 ((pt.cut_visited_subperm (k + 1)).subset hmem)

/-- The traversal from the root ends: the first empty frontier is reached after at least one
and at most `n` levels. -/
theorem PartialTree.cut_exists_height {graph : Graph} (pt : PartialTree graph) :
    ∃ h, 1 ≤ h ∧ h ≤ graph.GetVertexCount ∧ frontier graph h = [] ∧
      ∀ j, j < h → frontier graph j ≠ [] := by
  have hlast : frontier graph graph.GetVertexCount = [] := by
    by_contra hne
    have hall : ∀ j, j < graph.GetVertexCount + 1 → frontier graph j ≠ [] := by
      intro j hj hempty
      exact hne (frontier_empty_of_le graph (Nat.le_of_lt_succ hj) hempty)
    have h1 := visited_length_ge graph (graph.GetVertexCount + 1) hall
    have h2 := pt.cut_visited_length_le (graph.GetVertexCount + 1)
    omega
  have hex : ∃ j, frontier graph j = [] := ⟨_, hlast⟩
  refine ⟨Nat.find hex, ?_, Nat.find_min' hex hlast, Nat.find_spec hex,
    fun j hj => Nat.find_min hex hj⟩
  rcases Nat.eq_zero_or_pos (Nat.find hex) with h0 | hpos
  · have h := Nat.find_spec hex
    rw [h0] at h
    exact absurd h (by simp [frontier])
  · exact hpos

/-- Every vertex of a frontier is reachable from the root. -/
theorem reachable_of_mem_frontier (graph : Graph) (k : Nat) :
    ∀ v ∈ frontier graph k, Reachable graph v := by
  induction k with
  | zero =>
    intro v hv
    simp only [frontier, List.mem_singleton] at hv
    rw [hv]
    exact Reachable.root
  | succ k ih =>
    intro v hv
    obtain ⟨p, hp, hvp⟩ := List.mem_flatMap.1 hv
    exact Reachable.child (ih p hp) hvp

/-- With a vertex cut off from the root, the traversal never fills the pool. -/
theorem PartialTree.cut_visited_length_lt {graph : Graph} (pt : PartialTree graph)
    (hcut : ∃ v, v < graph.GetVertexCount ∧ ¬ Reachable graph v) (k : Nat) :
    (visited graph k).length < graph.GetVertexCount := by
  obtain ⟨v, hv, hnot⟩ := hcut
  have hnodup : (visited graph k).Nodup := by
    obtain ⟨l, hperm, hsub⟩ := pt.cut_visited_subperm k
    exact hperm.nodup_iff.1 (hsub.nodup (List.nodup_range _))
  have hnotin : v ∉ visited graph k := by
    intro hmem
    obtain ⟨i, _, hi⟩ := (mem_visited_iff graph v k).1 hmem
    exact hnot (reachable_of_mem_frontier graph i v hi)
  have hsub : (v :: visited graph k).Subperm (List.range graph.GetVertexCount) := by
    apply List.subperm_of_subset (List.nodup_cons.2 ⟨hnotin, hnodup⟩)
    intro u hu
    rcases List.mem_cons.1 hu with rfl | hu
    · exact List.mem_range.2 hv
    · exact (pt.cut_visited_subperm k).subset hu
  have h := hsub.length_le
  rw [List.length_range, List.length_cons] at h
  omega

/-- One level of `ComputeSumSimple` on a frontier of vertex ids. -/
theorem ComputeSumSimple.simple_body_stateAt_of (graph : Graph)
    (hw : graph.vertex_weights_.length = graph.GetVertexCount) (k : Nat)
    (hlt : ∀ v ∈ frontier graph k, v < graph.GetVertexCount) :
    ComputeSumSimple.body graph (ComputeSumSimple.stateAt graph k) =
      .ok (ComputeSumSimple.stateAt graph (k + 1)) := by
  unfold ComputeSumSimple.body ComputeSumSimple.stateAt
  simp only
  rw [ComputeSumSimple.forEach_eq graph hw _ _ hlt _ (Nat.mod_lt _ (by decide))]
  simp only [Outcome.bind_ok, List.nil_append]
  congr 2
  show _ = (levelsTotal graph k + levelSum graph (k + 1) (frontier graph k)) % UINT64_SIZE
  rw [Nat.add_mod, Nat.mod_mod, ← Nat.add_mod]

/-- One iteration of the loop of `ComputeSumPoolSimple` while the pool has room for the next
level. -/
theorem ComputeSumPoolSimple.pool_body_stateAt_of (graph : Graph)
    (hw : graph.vertex_weights_.length = graph.GetVertexCount) (k : Nat)
    (hlt : ∀ v ∈ frontier graph k, v < graph.GetVertexCount)
    (hroom : (visited graph (k + 1 + 1)).length ≤ graph.GetVertexCount) :
    ComputeSumPoolSimple.body graph (ComputeSumPoolSimple.stateAt graph k) =
      .ok (ComputeSumPoolSimple.stateAt graph (k + 1)) := by
  have hlen := visited_succ_length graph k
  have hlen2 := visited_succ_length graph (k + 1)
  have hf : frontier graph (k + 1) = expand graph (frontier graph k) := rfl
  have hsplit : visited graph (k + 1) ++
        List.replicate (graph.GetVertexCount - (visited graph (k + 1)).length) 0 =
      visited graph k ++ frontier graph k ++ [] ++
        List.replicate (expand graph (frontier graph k)).length 0 ++
        List.replicate (graph.GetVertexCount - (visited graph (k + 1 + 1)).length) 0 := by
    have h2 := hlen2
    rw [hf] at h2
    rw [List.append_nil, List.append_assoc _ (List.replicate _ 0), ← List.replicate_add]
    congr 2
    omega
  have hrange := ComputeSumPoolSimple.forRange_eq graph hw (k + 1)
    (frontier graph k) hlt (visited graph k) []
    (List.replicate (expand graph (frontier graph k)).length 0)
    (List.replicate (graph.GetVertexCount - (visited graph (k + 1 + 1)).length) 0)
    (levelsTotal graph k % UINT64_SIZE) (Nat.mod_lt _ (by decide)) (by simp)
  have hcount : (visited graph (k + 1)).length - (visited graph k).length =
      (frontier graph k).length := by omega
  have hnext : (visited graph (k + 1)).length =
      (visited graph k).length + (frontier graph k).length + ([] : List Nat).length := by
    simp only [List.length_nil]
    omega
  unfold ComputeSumPoolSimple.body ComputeSumPoolSimple.stateAt
  simp only
  rw [hcount, hsplit]
  conv_lhs => rw [hnext]
  rw [hrange]
  simp only [Outcome.bind_ok]
  congr 2
  · show _ = (levelsTotal graph k + levelSum graph (k + 1) (frontier graph k)) % UINT64_SIZE
    rw [Nat.add_mod, Nat.mod_mod, ← Nat.add_mod]
  · simp only [List.length_nil]
    rw [hf] at hlen2
    omega
  · simp only [List.length_nil]
    rw [hf] at hlen2
    omega
  · simp only [List.length_nil]
    rw [hf] at hlen2
    omega
  · have hv : visited graph (k + 1 + 1) =
        visited graph k ++ frontier graph k ++ expand graph (frontier graph k) := rfl
    rw [hv]
    simp [List.append_assoc]

theorem ComputeSumPoolSimple.pool_initial_eq_of (graph : Graph)
    (h0 : 0 < graph.GetVertexCount) :
    ComputeSumPoolSimple.initial graph = ComputeSumPoolSimple.stateAt graph 0 := by
  obtain ⟨m, hm⟩ : ∃ m, graph.GetVertexCount = m + 1 :=
    ⟨graph.GetVertexCount - 1, by omega⟩
  unfold ComputeSumPoolSimple.initial ComputeSumPoolSimple.stateAt
  rw [hm]
  simp [visited, frontier, levelsTotal, List.replicate_succ]

/-- A loop whose guard holds in every state of its run never ends: it uses up any fuel. -/
theorem whileLoop_diverge {σ : Type} (cond : σ → Bool) (body : σ → Outcome σ) :
    ∀ (fuel : Nat) (S : Nat → σ), (∀ j, cond (S j) = true) →
      (∀ j, body (S j) = .ok (S (j + 1))) → whileLoop cond body fuel (S 0) = .outOfFuel := by
  intro fuel
  induction fuel with
  | zero =>
    intro S hcond _
    simp [whileLoop, hcond 0]
  | succ fuel ih =>
    intro S hcond hbody
    simp only [whileLoop, hcond 0, hbody 0, if_true, Outcome.bind_ok]
    exact ih (fun j => S (j + 1)) (fun j => hcond (j + 1)) (fun j => hbody (j + 1))

/-- Two isolated vertices form a tree with a part cut off. -/
theorem twoIsolated_isPartialTree : PartialTree twoIsolated :=
  { weights_size := rfl
    has_root := by decide
    ids_in_range := by decide
    root_no_parent := by decide
    at_most_one_parent := by decide }

theorem twoIsolated_children (parent : Nat) : twoIsolated.children parent = [] := by
  rcases parent with _ | _ | parent <;> rfl

theorem twoIsolated_cut : ¬ Reachable twoIsolated 1 := by
  intro h
  cases h with
  | child _ hc =>
    rw [twoIsolated_children] at hc
    cases hc

/-- After the first empty frontier nothing more is visited and nothing more is added. -/
theorem visited_levelsTotal_of_le (graph : Graph) {h : Nat} (hempty : frontier graph h = []) :
    ∀ k, h ≤ k → visited graph k = visited graph h ∧ levelsTotal graph k = levelsTotal graph h := by
  intro k hk
  induction hk with
  | refl => exact ⟨rfl, rfl⟩
  | step hle ih =>
    have hnil := frontier_empty_of_le graph hle hempty
    constructor
    · show visited graph _ ++ frontier graph _ = _
      rw [hnil, List.append_nil, ih.1]
    · show levelsTotal graph _ + levelSum graph _ (frontier graph _) = _
      rw [hnil, levelSum_nil, Nat.add_zero, ih.2]

theorem sharedChild_no_parent (parent : Nat) : 4 ∉ sharedChild.children parent := by
  rcases parent with _ | _ | _ | _ | _ | parent
  · decide
  · decide
  · decide
  · decide
  · decide
  · have hnil : sharedChild.children (parent + 1 + 1 + 1 + 1 + 1) = [] := rfl
    rw [hnil]
    exact List.not_mem_nil 4

theorem sharedChild_cut : ¬ Reachable sharedChild 4 := by
  intro h
  cases h with
  | child _ hc => exact sharedChild_no_parent _ hc

/-- A pooled loop whose guard holds in every state of its run ends only when `++depth` leaves
the range of `int`: with `depth = d` at the start, it is still running after `INT_MAX - d`
iterations and overflows in the next one. -/
theorem ComputeSumPoolSimple.intLoop_diverge (graph : Graph) :
    ∀ (fuel : Nat) (S : Nat → PoolState) (d : Nat), d ≤ 2147483647 →
      (∀ j, poolGuard graph.GetVertexCount (S j) = true) →
      (∀ j, ComputeSumPoolSimple.body graph (S j) = .ok (S (j + 1))) →
      (∀ j, (S j).depth = d + j) →
      ComputeSumPoolSimple.intLoop graph fuel (S 0) =
        if fuel + d ≤ 2147483647 then .outOfFuel else .intOverflow := by
  intro fuel
  induction fuel with
  | zero =>
    intro S d hd hcond _ _
    simp only [ComputeSumPoolSimple.intLoop, hcond 0, if_true, Nat.zero_add]
    rw [if_pos hd]
  | succ fuel ih =>
    intro S d hd hcond hbody hdepth
    have hd0 : (S 0).depth = d := by rw [hdepth 0, Nat.add_zero]
    simp only [ComputeSumPoolSimple.intLoop, hcond 0, if_true, hd0, INT_MAX]
    by_cases hlt : d < 2147483647
    · rw [if_pos hlt, hbody 0]
      simp only
      rw [ih (fun j => S (j + 1)) (d + 1) (by omega) (fun j => hcond (j + 1))
        (fun j => hbody (j + 1)) (fun j => by rw [hdepth (j + 1)]; omega)]
      by_cases hle : fuel + (d + 1) ≤ 2147483647
      · rw [if_pos hle, if_pos (by omega)]
      · rw [if_neg hle, if_neg (by omega)]
    · rw [if_neg hlt, if_neg (by omega)]

/-! ## The statements of the specification -/

/-- C1: on every well-formed tree there is a depth assignment with `depth(0) = 1` and
`depth(child) = depth(parent) + 1`, and for every such assignment `ComputeSumSimple` returns,
given fuel for `n` levels, the sum over all vertices `v` of `weight(v) * depth(v)` taken modulo
`2^64`. -/
theorem ComputeSumSimple_weighted_depth_sum (graph : Graph) (wf : WellFormedTree graph) :
    (∃ depth : Nat → Nat, depth 0 = 1 ∧
      ∀ parent, parent < graph.GetVertexCount →
        ∀ child ∈ graph.children parent, depth child = depth parent + 1) ∧
    ∀ depth : Nat → Nat, depth 0 = 1 →
      (∀ parent, parent < graph.GetVertexCount →
        ∀ child ∈ graph.children parent, depth child = depth parent + 1) →
      ∀ fuel, graph.GetVertexCount ≤ fuel →
        ComputeSumSimple fuel graph =
          .ok (weightedDepthSum graph depth % (2 ^ 64 : Int)).toNat := by
  refine ⟨⟨depthOf graph, wf.depthOf_spec⟩, ?_⟩
  intro depth hroot hchild fuel hfuel
  obtain ⟨h, h1, hn, hempty, hne⟩ := wf.exists_height
  have hchild' : ∀ parent child, child ∈ graph.children parent →
      depth child = depth parent + 1 := by
    intro parent child hc
    by_cases hp : parent < graph.GetVertexCount
    · exact hchild parent hp child hc
    · rw [graph.children_of_ge (Nat.le_of_not_lt hp)] at hc
      cases hc
  rw [ComputeSumSimple.simple_eq_of_height wf hempty hne fuel, if_pos (le_trans hn hfuel),
    wf.levelsTotal_eq depth hroot hchild' h1 hempty]

/-- Witness of C1 on `exampleTree`: the total is `1*1 + 2*2 + 3*2 + 4*3 = 23`. -/
theorem ComputeSumSimple_weighted_depth_sum_witness :
    ComputeSumSimple 4 exampleTree =
        .ok (weightedDepthSum exampleTree exampleDepth % (2 ^ 64 : Int)).toNat ∧
      (weightedDepthSum exampleTree exampleDepth % (2 ^ 64 : Int)).toNat = 23 :=
  ⟨(ComputeSumSimple_weighted_depth_sum exampleTree exampleTree_wellFormed).2 exampleDepth rfl
    exampleDepth_child 4 (by decide), by decide⟩

/-- C3: on every well-formed tree, at every level that `ComputeSumSeq` processes, the next
frontier built by the exclusive scan and the copies to the offsets is, element for element, the
concatenation in frontier order of the children lists of the frontier, which is also the
sequence that the loop of `ComputeSumSimple` builds by `push_back` on that frontier; and the
two functions process the same frontiers. -/
theorem ComputeSumSeq_next_frontier (graph : Graph) (wf : WellFormedTree graph) (fuel : Nat)
    (hfuel : graph.GetVertexCount ≤ fuel) :
    ∃ trace final,
      whileTrace frontierNonEmpty (ComputeSumSeq.body graph) fuel (ComputeSumSeq.initial graph) =
        .ok (trace, final) ∧
      ComputeSumSimple.frontiers fuel graph = .ok (trace.map LoopState.vertices_to_process) ∧
      ∀ st ∈ trace, ∃ st_seq pushed,
        ComputeSumSeq.body graph st = .ok st_seq ∧
        ComputeSumSimple.forEach graph (st.depth + 1) st.vertices_to_process st.sum [] =
          .ok pushed ∧
        st_seq.vertices_to_process = st.vertices_to_process.flatMap graph.children ∧
        st_seq.vertices_to_process = pushed.2 := by
  obtain ⟨h, _, hn, hempty, hne⟩ := wf.exists_height
  refine ⟨_, _, (ComputeSumSeq.seq_trace_eq wf hempty hne fuel).trans (if_pos (le_trans hn hfuel)),
    ?_, ?_⟩
  · unfold ComputeSumSimple.frontiers
    rw [ComputeSumSimple.simple_trace_eq wf hempty hne fuel, if_pos (le_trans hn hfuel)]
    simp only [Outcome.bind_ok, List.map_map]
    rfl
  · intro st hst
    obtain ⟨j, hj, rfl⟩ := List.mem_map.1 hst
    rw [List.mem_range] at hj
    refine ⟨_, _, ComputeSumSeq.seq_body_stateAt wf j (hne j hj),
      ComputeSumSimple.forEach_eq graph wf.weights_size _ _ (wf.frontier_lt j) _
        (Nat.mod_lt _ (by decide)) [], rfl, ?_⟩
    simp [ComputeSumSeq.stateAt, frontier]

/-- Witness of C3 on `exampleTree`. -/
theorem ComputeSumSeq_next_frontier_witness :
    ∃ trace final,
      whileTrace frontierNonEmpty (ComputeSumSeq.body exampleTree) 4
          (ComputeSumSeq.initial exampleTree) = .ok (trace, final) ∧
      ComputeSumSimple.frontiers 4 exampleTree =
        .ok (trace.map LoopState.vertices_to_process) ∧
      ∀ st ∈ trace, ∃ st_seq pushed,
        ComputeSumSeq.body exampleTree st = .ok st_seq ∧
        ComputeSumSimple.forEach exampleTree (st.depth + 1) st.vertices_to_process st.sum [] =
          .ok pushed ∧
        st_seq.vertices_to_process = st.vertices_to_process.flatMap exampleTree.children ∧
        st_seq.vertices_to_process = pushed.2 :=
  ComputeSumSeq_next_frontier exampleTree exampleTree_wellFormed 4 (by decide)

/-- C4: on every well-formed tree with `n` vertices the frontiers on which the level loop of
`ComputeSumSimple` runs start with `[0]`, are all non-empty, and their concatenation is a
permutation of `0..n-1`, so that every vertex occurs in exactly one frontier, exactly once. -/
theorem ComputeSumSimple_frontiers_cover (graph : Graph) (wf : WellFormedTree graph)
    (fuel : Nat) (hfuel : graph.GetVertexCount ≤ fuel) :
    ∃ frontiers,
      ComputeSumSimple.frontiers fuel graph = .ok frontiers ∧
      frontiers.head? = some [0] ∧
      (∀ F ∈ frontiers, F ≠ []) ∧
      frontiers.flatten.Perm (List.range graph.GetVertexCount) ∧
      ∀ v, v < graph.GetVertexCount → frontiers.flatten.count v = 1 := by
  obtain ⟨h, h1, hn, hempty, hne⟩ := wf.exists_height
  have hflat : ((List.range h).map (frontier graph)).flatten.Perm
      (List.range graph.GetVertexCount) := by
    rw [flatten_map_frontier]
    exact wf.visited_perm h1 hempty
  refine ⟨(List.range h).map (frontier graph), ?_, ?_, ?_, hflat, ?_⟩
  · unfold ComputeSumSimple.frontiers
    rw [ComputeSumSimple.simple_trace_eq wf hempty hne fuel, if_pos (le_trans hn hfuel)]
    simp only [Outcome.bind_ok, List.map_map]
    rfl
  · obtain ⟨m, rfl⟩ : ∃ m, h = m + 1 := ⟨h - 1, by omega⟩
    rw [List.range_succ_eq_map]
    rfl
  · intro F hF
    obtain ⟨j, hj, rfl⟩ := List.mem_map.1 hF
    exact hne j (List.mem_range.1 hj)
  · intro v hv
    rw [hflat.count_eq]
    exact List.count_eq_one_of_mem (List.nodup_range _) (List.mem_range.2 hv)

/-- Witness of C4 on `exampleTree`. -/
theorem ComputeSumSimple_frontiers_cover_witness :
    ∃ frontiers,
      ComputeSumSimple.frontiers 4 exampleTree = .ok frontiers ∧
      frontiers.head? = some [0] ∧
      (∀ F ∈ frontiers, F ≠ []) ∧
      frontiers.flatten.Perm (List.range exampleTree.GetVertexCount) ∧
      ∀ v, v < exampleTree.GetVertexCount → frontiers.flatten.count v = 1 :=
  ComputeSumSimple_frontiers_cover exampleTree exampleTree_wellFormed 4 (by decide)

/-- C5: on each hand-built tree of depth 3 with weights 1, 2, 3, 4 (vertices 1 and 2 children
of the root, vertex 3 a child of one of them) `ComputeSumSimple` and `ComputeSumSeq` return
`23 = 1*1 + 2*2 + 3*2 + 4*3`, as soon as the fuel allows three levels. -/
theorem depthThreeTrees_total (graph : Graph) (hgraph : graph ∈ depthThreeTrees) (fuel : Nat)
    (hfuel : 3 ≤ fuel) :
    ComputeSumSimple fuel graph = .ok 23 ∧ ComputeSumSeq fuel graph = .ok 23 ∧
      (23 : Nat) = 1 * 1 + 2 * 2 + 3 * 2 + 4 * 3 := by
  have key : ∀ g ∈ depthThreeTrees,
      ComputeSumSimple 3 g = .ok 23 ∧ ComputeSumSeq 3 g = .ok 23 := by
    decide
  obtain ⟨hsimple, hseq⟩ := key graph hgraph
  exact ⟨ComputeSumSimple_fuel_mono graph 3 fuel 23 hsimple hfuel,
    ComputeSumSeq_fuel_mono graph 3 fuel 23 hseq hfuel, by decide⟩

/-- Witness of C5: the tree in which vertex 3 is a child of vertex 2, with fuel for exactly three
levels. -/
theorem depthThreeTrees_total_witness :
    ComputeSumSimple 3
        { adjacency_lists_ := [[1, 2], [], [3], []], vertex_weights_ := [1, 2, 3, 4] } = .ok 23 ∧
      ComputeSumSeq 3
        { adjacency_lists_ := [[1, 2], [], [3], []], vertex_weights_ := [1, 2, 3, 4] } = .ok 23 ∧
      (23 : Nat) = 1 * 1 + 2 * 2 + 3 * 2 + 4 * 3 :=
  depthThreeTrees_total _ (by decide) 3 (by decide)

/-- C6: on the tree that has only its root, of any weight `w`, `ComputeSumSimple` returns
`w * 1` as a `uint64_t` (which is `w * 1` itself when `w` is not negative), and the body of its
`while` loop runs exactly once, on the frontier `[0]`, leaving an empty frontier. -/
theorem ComputeSumSimple_rootOnly (w : Int) (fuel : Nat) (hfuel : 1 ≤ fuel) :
    ComputeSumSimple fuel (rootOnly w) = .ok ((w * 1) % (2 ^ 64 : Int)).toNat ∧
      (0 ≤ w → w < 2 ^ 64 → ((((w * 1) % (2 ^ 64 : Int)).toNat : Nat) : Int) = w * 1) ∧
      ∃ final,
        whileTrace frontierNonEmpty (ComputeSumSimple.body (rootOnly w)) fuel
            ComputeSumSimple.initial = .ok ([ComputeSumSimple.initial], final) ∧
          final.vertices_to_process = [] ∧ final.depth = 1 := by
  have hbody : ComputeSumSimple.body (rootOnly w) ComputeSumSimple.initial =
      .ok { sum := ((w * 1) % (2 ^ 64 : Int)).toNat, depth := 1, vertices_to_process := [],
            next_vertices := [], states := [] } := by
    have hlt := static_cast_uint64_lt w
    have hsum : addU64 0 (weightedTerm w 1) = ((w * 1) % (2 ^ 64 : Int)).toNat := by
      unfold addU64 weightedTerm
      rw [mul_one]
      show (0 + static_cast_uint64 w * (1 % UINT64_SIZE) % UINT64_SIZE) % UINT64_SIZE =
        static_cast_uint64 w
      have h1 : 1 % UINT64_SIZE = 1 := by decide
      rw [h1, Nat.mul_one, Nat.zero_add, Nat.mod_mod, Nat.mod_eq_of_lt hlt]
    simp only [ComputeSumSimple.body, ComputeSumSimple.initial, ComputeSumSimple.forEach,
      rootOnly, Graph.weightAt, Graph.GetAdjacentVertices, List.getElem?_cons_zero,
      Outcome.ofOption_some, Outcome.bind_ok, pushBackAll]
    rw [hsum]
  have htrace := whileTrace_chain frontierNonEmpty (ComputeSumSimple.body (rootOnly w)) 1
    (fun j => if j = 0 then ComputeSumSimple.initial else
      { sum := ((w * 1) % (2 ^ 64 : Int)).toNat, depth := 1, vertices_to_process := [],
        next_vertices := [], states := [] })
    (by intro j hj; interval_cases j; rfl)
    (by intro j hj; interval_cases j; exact hbody)
    rfl fuel
  rw [if_pos hfuel] at htrace
  refine ⟨?_, ?_, _, htrace, rfl, rfl⟩
  · unfold ComputeSumSimple ComputeSumSimple.loop
    rw [whileLoop_eq_whileTrace]
    simp only [if_true] at htrace
    rw [htrace]
    rfl
  · intro h0 hlt
    rw [mul_one, Int.emod_eq_of_lt h0 hlt, Int.toNat_of_nonneg h0]

/-- Witness of C6: root weight 7 and fuel for one level. -/
theorem ComputeSumSimple_rootOnly_witness :
    ComputeSumSimple 1 (rootOnly 7) = .ok 7 ∧ ComputeSumSimple 0 (rootOnly 7) = .outOfFuel :=
  ⟨(ComputeSumSimple_rootOnly 7 1 (by decide)).1, by decide⟩

/-- C7: for every non-empty frontier of vertices of the graph that fits into `states`, the call
of `transform_exclusive_scan` in `ComputeSumSeq` succeeds and the Placement Plan it writes
satisfies `offset[0] = 0`, `offset[i+1] = offset[i] + (number of children of frontier vertex i)`
for every valid `i`, and the offsets are non-decreasing. -/
theorem placementPlan_offsets (graph : Graph) (frontier states : List Nat)
    (hne : frontier ≠ []) (hl : ∀ v ∈ frontier, v < graph.GetVertexCount)
    (hlen : frontier.length ≤ states.length) :
    ∃ plan,
      ComputeSumSeq.placementPlan graph frontier states = .ok plan ∧
      plan.length = states.length ∧
      plan.getD 0 0 = 0 ∧
      (∀ i, i + 1 < frontier.length →
        plan.getD (i + 1) 0 = plan.getD i 0 + (graph.children (frontier.getD i 0)).length ∧
        plan.getD (i + 1) 0 - plan.getD i 0 = (graph.children (frontier.getD i 0)).length) ∧
      ∀ i j, i ≤ j → j < frontier.length → plan.getD i 0 ≤ plan.getD j 0 := by
  have hpos : 0 < frontier.length := List.length_pos.2 hne
  refine ⟨_, ComputeSumSeq.placementPlan_eq graph frontier states hl hlen, ?_, ?_, ?_, ?_⟩
  · rw [List.length_append, prefixSums_length, childCounts_length, List.length_drop]
    omega
  · rw [plan_getD graph frontier _ 0 hpos]
    simp
  · intro i hi
    have hstep : (prefixSums 0 (childCounts graph frontier) ++
          states.drop frontier.length).getD (i + 1) 0 =
        (prefixSums 0 (childCounts graph frontier) ++ states.drop frontier.length).getD i 0 +
          (graph.children (frontier.getD i 0)).length := by
      rw [plan_getD graph frontier _ (i + 1) hi, plan_getD graph frontier _ i (by omega),
        sum_take_succ, childCounts_getD graph frontier i (by omega)]
    exact ⟨hstep, by omega⟩
  · intro i j hij hj
    rw [plan_getD graph frontier _ i (by omega), plan_getD graph frontier _ j hj]
    exact sum_take_mono _ hij

/-- Witness of C7: the frontier `[1, 2]` of `exampleTree` and a zeroed `states` of size 4. -/
theorem placementPlan_offsets_witness :
    ∃ plan,
      ComputeSumSeq.placementPlan exampleTree [1, 2] [0, 0, 0, 0] = .ok plan ∧
      plan.length = [0, 0, 0, 0].length ∧
      plan.getD 0 0 = 0 ∧
      (∀ i, i + 1 < [1, 2].length →
        plan.getD (i + 1) 0 =
            plan.getD i 0 + (exampleTree.children (([1, 2] : List Nat).getD i 0)).length ∧
        plan.getD (i + 1) 0 - plan.getD i 0 =
            (exampleTree.children (([1, 2] : List Nat).getD i 0)).length) ∧
      ∀ i j, i ≤ j → j < [1, 2].length → plan.getD i 0 ≤ plan.getD j 0 :=
  placementPlan_offsets exampleTree [1, 2] [0, 0, 0, 0] (by decide) (by decide) (by decide)

/-- C8: for every frontier of vertices of the graph that fits into `states` (the empty frontier
and frontiers of one vertex included) the destination ranges
`[offset[i], offset[i] + childcount(i))` of two distinct positions have no index in common (the
range of the earlier position ends where or before the range of the later one starts), and
each range lies inside `[0, size)`, where `size` is the size to which `next_vertices` is
resized. -/
theorem placementPlan_ranges_disjoint (graph : Graph) (frontier states : List Nat)
    (hl : ∀ v ∈ frontier, v < graph.GetVertexCount) (hlen : frontier.length ≤ states.length) :
    ∃ plan,
      ComputeSumSeq.placementPlan graph frontier states = .ok plan ∧
      (∀ i j, i < j → j < frontier.length →
        plan.getD i 0 + (graph.children (frontier.getD i 0)).length ≤ plan.getD j 0) ∧
      (∀ i j, i < frontier.length → j < frontier.length → i ≠ j → ∀ x,
        ¬ (plan.getD i 0 ≤ x ∧ x < plan.getD i 0 + (graph.children (frontier.getD i 0)).length ∧
           plan.getD j 0 ≤ x ∧
           x < plan.getD j 0 + (graph.children (frontier.getD j 0)).length)) ∧
      ∀ i, i < frontier.length → ∃ size,
        ComputeSumSeq.nextSize graph frontier plan = .ok size ∧
        (∀ next_vertices, (resize next_vertices size).length = size) ∧
        plan.getD i 0 + (graph.children (frontier.getD i 0)).length ≤ size := by
  have hend : ∀ i, i < frontier.length →
      (prefixSums 0 (childCounts graph frontier) ++ states.drop frontier.length).getD i 0 +
          (graph.children (frontier.getD i 0)).length =
        ((childCounts graph frontier).take (i + 1)).sum := by
    intro i hi
    rw [plan_getD graph frontier _ i hi, sum_take_succ, childCounts_getD graph frontier i hi]
  have hord : ∀ i j, i < j → j < frontier.length →
      (prefixSums 0 (childCounts graph frontier) ++ states.drop frontier.length).getD i 0 +
          (graph.children (frontier.getD i 0)).length ≤
        (prefixSums 0 (childCounts graph frontier) ++ states.drop frontier.length).getD j 0 := by
    intro i j hij hj
    rw [hend i (by omega), plan_getD graph frontier _ j hj]
    exact sum_take_mono _ hij
  refine ⟨_, ComputeSumSeq.placementPlan_eq graph frontier states hl hlen, hord, ?_, ?_⟩
  · intro i j hi hj hij x hx
    rcases Nat.lt_or_gt_of_ne hij with hlt | hgt
    · have := hord i j hlt hj
      omega
    · have := hord j i hgt hi
      omega
  · intro i hi
    have hne : frontier ≠ [] := List.length_pos.1 (by omega)
    refine ⟨_, ComputeSumSeq.nextSize_eq graph frontier _ hne hl, fun nv => resize_length nv _, ?_⟩
    rw [hend i hi, ← childCounts_sum]
    exact sum_take_le _ _

/-- Witness of C8: the frontier `[1, 2]` of `exampleTree` and a zeroed `states` of size 4. -/
theorem placementPlan_ranges_disjoint_witness :
    ∃ plan,
      ComputeSumSeq.placementPlan exampleTree [1, 2] [0, 0, 0, 0] = .ok plan ∧
      (∀ i j, i < j → j < [1, 2].length →
        plan.getD i 0 + (exampleTree.children (([1, 2] : List Nat).getD i 0)).length ≤
          plan.getD j 0) ∧
      (∀ i j, i < [1, 2].length → j < [1, 2].length → i ≠ j → ∀ x,
        ¬ (plan.getD i 0 ≤ x ∧
           x < plan.getD i 0 + (exampleTree.children (([1, 2] : List Nat).getD i 0)).length ∧
           plan.getD j 0 ≤ x ∧
           x < plan.getD j 0 + (exampleTree.children (([1, 2] : List Nat).getD j 0)).length)) ∧
      ∀ i, i < [1, 2].length → ∃ size,
        ComputeSumSeq.nextSize exampleTree [1, 2] plan = .ok size ∧
        (∀ next_vertices, (resize next_vertices size).length = size) ∧
        plan.getD i 0 + (exampleTree.children (([1, 2] : List Nat).getD i 0)).length ≤ size :=
  placementPlan_ranges_disjoint exampleTree [1, 2] [0, 0, 0, 0] (by decide) (by decide)

/-- C10: the level reduction does not depend on how the frontier is split or ordered.  For
every depth `d`, accumulator value `s` (a `uint64_t`) and frontiers `A`, `B` of vertices,
`reduce(s, A ++ B, d) = reduce(reduce(s, A, d), B, d) = s + levelSum(A, d) + levelSum(B, d)` in
64-bit unsigned arithmetic, `reduce(s, F', d) = reduce(s, F, d)` for every permutation `F'` of a
frontier `F`, and the `transform_reduce` of `ComputeSumSeq` yields the same value whenever it
returns. -/
theorem reduce_partition_and_order (graph : Graph)
    (hw : graph.vertex_weights_.length = graph.GetVertexCount) (depth sum : Nat)
    (hsum : sum < UINT64_SIZE) (A B : List Nat) (hA : ∀ v ∈ A, v < graph.GetVertexCount)
    (hB : ∀ v ∈ B, v < graph.GetVertexCount) :
    ComputeSumSimple.reduce graph depth sum (A ++ B) =
        (ComputeSumSimple.reduce graph depth sum A).bind
          (fun subtotal => ComputeSumSimple.reduce graph depth subtotal B) ∧
      ComputeSumSimple.reduce graph depth sum (A ++ B) =
        .ok ((sum + levelSum graph depth A + levelSum graph depth B) % UINT64_SIZE) ∧
      (∀ F, F.Perm (A ++ B) →
        ComputeSumSimple.reduce graph depth sum F =
          ComputeSumSimple.reduce graph depth sum (A ++ B)) ∧
      ∀ states buffer r,
        ComputeSumSeq.transformReduce graph depth (A ++ B) states sum buffer = .ok r →
        .ok r.1 = ComputeSumSimple.reduce graph depth sum (A ++ B) := by
  have hreduce : ∀ (s : Nat) (F : List Nat), s < UINT64_SIZE →
      (∀ v ∈ F, v < graph.GetVertexCount) →
      ComputeSumSimple.reduce graph depth s F =
        .ok ((s + levelSum graph depth F) % UINT64_SIZE) := by
    intro s F hs hF
    unfold ComputeSumSimple.reduce
    rw [ComputeSumSimple.forEach_eq graph hw depth F hF s hs []]
    rfl
  have hAB : ∀ v ∈ A ++ B, v < graph.GetVertexCount := by
    intro v hv
    rcases List.mem_append.1 hv with h | h
    · exact hA v h
    · exact hB v h
  have hclosed : ComputeSumSimple.reduce graph depth sum (A ++ B) =
      .ok ((sum + levelSum graph depth A + levelSum graph depth B) % UINT64_SIZE) := by
    rw [hreduce sum (A ++ B) hsum hAB, levelSum_append, Nat.add_assoc]
  refine ⟨?_, hclosed, ?_, ?_⟩
  · rw [hclosed, hreduce sum A hsum hA, Outcome.bind_ok,
      hreduce _ B (Nat.mod_lt _ (by decide)) hB, Nat.mod_add_mod]
  · intro F hF
    rw [hreduce sum F hsum (fun v hv => hAB v (hF.subset hv)), hreduce sum (A ++ B) hsum hAB,
      levelSum_perm graph depth hF]
  · intro states buffer r hr
    rw [hreduce sum (A ++ B) hsum hAB,
      ComputeSumSeq.transformReduce_sum graph depth (A ++ B) states sum buffer r hsum hr]

/-- Witness of C10 on `exampleTree`: the frontier `[1, 2]` split into `[1]` and `[2]`, at depth 2
with accumulator 1. -/
theorem reduce_partition_and_order_witness :
    ComputeSumSimple.reduce exampleTree 2 1 ([1] ++ [2]) = .ok 11 ∧
      ComputeSumSimple.reduce exampleTree 2 1 [2, 1] = .ok 11 :=
  have h := reduce_partition_and_order exampleTree (by decide) 2 1 (by decide) [1] [2]
    (by decide) (by decide)
  ⟨h.2.1.trans (by decide), (h.2.2.1 [2, 1] (by decide)).trans (h.2.1.trans (by decide))⟩

/-- C2: on every well-formed tree `ComputeSumSeq` returns exactly what `ComputeSumSimple`
returns, for every amount of fuel, and so does `ComputeSumPar` for every order in which the
parallel policy lets the writes of a level take effect; with fuel for `n` levels all of them
return a total. -/
theorem ComputeSumSeq_eq_ComputeSumSimple (graph : Graph) (wf : WellFormedTree graph)
    (fuel : Nat) :
    ComputeSumSeq fuel graph = ComputeSumSimple fuel graph ∧
      (∀ schedule, IsRearrangement schedule →
        ComputeSumPar schedule fuel graph = ComputeSumSimple fuel graph) ∧
      (graph.GetVertexCount ≤ fuel → ∃ total, ComputeSumSimple fuel graph = .ok total) := by
  obtain ⟨h, _, hn, hempty, hne⟩ := wf.exists_height
  refine ⟨?_, ?_, ?_⟩
  · rw [ComputeSumSeq.seq_eq_of_height wf hempty hne, ComputeSumSimple.simple_eq_of_height wf
      hempty hne]
  · intro schedule hsched
    rw [ComputeSumPar.par_eq_of_height wf schedule hsched hempty hne,
      ComputeSumSimple.simple_eq_of_height wf hempty hne]
  · intro hfuel
    exact ⟨_, (ComputeSumSimple.simple_eq_of_height wf hempty hne fuel).trans
      (if_pos (le_trans hn hfuel))⟩

/-- Witness of C2 on `exampleTree`, with `ComputeSumPar` running the writes of each level in
reverse order. -/
theorem ComputeSumSeq_eq_ComputeSumSimple_witness :
    ComputeSumSeq 4 exampleTree = ComputeSumSimple 4 exampleTree ∧
      ComputeSumPar inReverse 4 exampleTree = ComputeSumSimple 4 exampleTree ∧
      ComputeSumSimple 4 exampleTree = .ok 23 :=
  have h := ComputeSumSeq_eq_ComputeSumSimple exampleTree exampleTree_wellFormed 4
  ⟨h.1, h.2.1 inReverse isRearrangement_inReverse, by decide⟩

/-- C9: on every well-formed tree with `n` vertices, under every order in which the children of
a level claim their slots, at every level that `ComputeSumSafeVectorAtomic` processes the number
of children of the frontier's vertices is at most `n` minus the number of vertices visited up to
and including that level; all writes `next_vertices[place++] = child` of the level are in range
and the final value of `place`, the number of those children, does not exceed the buffer size
`n`. -/
theorem atomic_place_in_range (graph : Graph) (wf : WellFormedTree graph)
    (schedule : Nat → List Nat → List Nat) (hsched : IsRearrangement schedule) (fuel : Nat)
    (hfuel : graph.GetVertexCount ≤ fuel) :
    ∃ entered final,
      whileTrace frontierNonEmpty (ComputeSumSafeVectorAtomic.body graph schedule) fuel
          ComputeSumSimple.initial = .ok (entered, final) ∧
      (∀ j st, entered[j]? = some st →
        (expand graph st.vertices_to_process).length +
            ((entered.take (j + 1)).map fun s => s.vertices_to_process.length).sum ≤
          graph.GetVertexCount ∧
        (expand graph st.vertices_to_process).length ≤
          graph.GetVertexCount -
            ((entered.take (j + 1)).map fun s => s.vertices_to_process.length).sum) ∧
      ∀ st ∈ entered, ∃ children place buffer,
        ComputeSumSafeVectorAtomic.levelChildren graph st.vertices_to_process = .ok children ∧
        children.length = (expand graph st.vertices_to_process).length ∧
        ComputeSumSafeVectorAtomic.claimSlots (schedule (st.depth + 1) children) 0
            (resize st.next_vertices graph.GetVertexCount) = .ok (place, buffer) ∧
        place = children.length ∧ place ≤ graph.GetVertexCount ∧
        buffer.length = graph.GetVertexCount := by
  obtain ⟨h, _, hn, hempty, hne⟩ := wf.exists_height
  have hbound : ∀ j, (expand graph (ComputeSumSafeVectorAtomic.frontierAt graph schedule j)).length +
      (visited graph (j + 1)).length ≤ graph.GetVertexCount := by
    intro j
    rw [ComputeSumSafeVectorAtomic.expand_frontierAt_length graph schedule hsched j]
    exact wf.children_bound j
  refine ⟨_, _, (ComputeSumSafeVectorAtomic.atomic_trace_eq wf schedule hsched hempty hne
    fuel).trans (if_pos (le_trans hn hfuel)), ?_, ?_⟩
  · intro j st hst
    rw [List.getElem?_map] at hst
    have hj : j < h := by
      by_contra hge
      rw [List.getElem?_eq_none (by simpa using hge)] at hst
      cases hst
    rw [List.getElem?_range hj] at hst
    simp only [Option.map_some', Option.some.injEq] at hst
    subst hst
    have hvis : (((List.range h).map
          (ComputeSumSafeVectorAtomic.stateAt graph schedule)).take (j + 1)).map
          (fun s => s.vertices_to_process.length) =
        (List.range (j + 1)).map fun i => (frontier graph i).length := by
      rw [← List.map_take, List.take_range, Nat.min_eq_left (by omega), List.map_map]
      apply List.map_congr_left
      intro i _
      exact (ComputeSumSafeVectorAtomic.frontierAt_perm graph schedule hsched i).length_eq
    rw [hvis, ← visited_length]
    have := hbound j
    exact ⟨this, by
      show (expand graph (ComputeSumSafeVectorAtomic.frontierAt graph schedule j)).length ≤ _
      omega⟩
  · intro st hst
    obtain ⟨j, _, rfl⟩ := List.mem_map.1 hst
    have hfit := hbound j
    have hlenS : (schedule (j + 1)
        (expand graph (ComputeSumSafeVectorAtomic.frontierAt graph schedule j))).length =
        (expand graph (ComputeSumSafeVectorAtomic.frontierAt graph schedule j)).length :=
      (hsched _ _).length_eq
    have hbuf : resize [] graph.GetVertexCount =
        [] ++ List.replicate
            (expand graph (ComputeSumSafeVectorAtomic.frontierAt graph schedule j)).length 0 ++
          List.replicate (graph.GetVertexCount -
            (expand graph (ComputeSumSafeVectorAtomic.frontierAt graph schedule j)).length) 0 := by
      rw [resize_nil, List.nil_append, ← List.replicate_add]
      congr 1
      omega
    have hclaim := ComputeSumSafeVectorAtomic.claimSlots_eq
      (schedule (j + 1) (expand graph (ComputeSumSafeVectorAtomic.frontierAt graph schedule j)))
      []
      (List.replicate
        (expand graph (ComputeSumSafeVectorAtomic.frontierAt graph schedule j)).length 0)
      (List.replicate (graph.GetVertexCount -
        (expand graph (ComputeSumSafeVectorAtomic.frontierAt graph schedule j)).length) 0)
      (by rw [List.length_replicate, hlenS])
    rw [← hbuf] at hclaim
    refine ⟨_, _, _,
      ComputeSumSafeVectorAtomic.levelChildren_eq graph _
        (ComputeSumSafeVectorAtomic.frontierAt_lt wf schedule hsched j),
      rfl, hclaim, ?_, ?_, ?_⟩
    · simp only [List.length_nil, Nat.zero_add]
      exact hlenS
    · simp only [List.length_nil, Nat.zero_add]
      rw [hlenS]
      omega
    · simp only [List.nil_append, List.length_append, List.length_replicate, hlenS]
      omega

/-- Witness of C9 on `exampleTree`, the children of each level claiming their slots in reverse
order. -/
theorem atomic_place_in_range_witness :
    ∃ entered final,
      whileTrace frontierNonEmpty (ComputeSumSafeVectorAtomic.body exampleTree inReverse) 4
          ComputeSumSimple.initial = .ok (entered, final) ∧
      (∀ j st, entered[j]? = some st →
        (expand exampleTree st.vertices_to_process).length +
            ((entered.take (j + 1)).map fun s => s.vertices_to_process.length).sum ≤
          exampleTree.GetVertexCount ∧
        (expand exampleTree st.vertices_to_process).length ≤
          exampleTree.GetVertexCount -
            ((entered.take (j + 1)).map fun s => s.vertices_to_process.length).sum) ∧
      ∀ st ∈ entered, ∃ children place buffer,
        ComputeSumSafeVectorAtomic.levelChildren exampleTree st.vertices_to_process =
          .ok children ∧
        children.length = (expand exampleTree st.vertices_to_process).length ∧
        ComputeSumSafeVectorAtomic.claimSlots (inReverse (st.depth + 1) children) 0
            (resize st.next_vertices exampleTree.GetVertexCount) = .ok (place, buffer) ∧
        place = children.length ∧ place ≤ exampleTree.GetVertexCount ∧
        buffer.length = exampleTree.GetVertexCount :=
  atomic_place_in_range exampleTree exampleTree_wellFormed inReverse isRearrangement_inReverse 4
    (by decide)

/-- C11: the total does not depend on the order inside a frontier.  On every well-formed tree,
`ComputeSumMutex` and `ComputeSumSafeVectorAtomic`, whose next frontier is at every level an
arbitrary permutation of the concatenation of the children of the current frontier, return what
`ComputeSumSimple` returns, for every such choice of permutations and every amount of fuel; and
`ComputeSumSimple` returns the same on every tree obtained by permuting each children list.
With fuel for `n` levels that common result is a total. -/
theorem total_independent_of_frontier_order (graph : Graph) (wf : WellFormedTree graph)
    (fuel : Nat) :
    (∀ schedule, IsRearrangement schedule →
      ComputeSumMutex schedule fuel graph = ComputeSumSimple fuel graph ∧
      ComputeSumSafeVectorAtomic schedule fuel graph = ComputeSumSimple fuel graph) ∧
    (∀ graph', ChildrenPermuted graph graph' →
      ComputeSumSimple fuel graph' = ComputeSumSimple fuel graph) ∧
    (graph.GetVertexCount ≤ fuel → ∃ total, ComputeSumSimple fuel graph = .ok total) := by
  obtain ⟨h, _, hn, hempty, hne⟩ := wf.exists_height
  refine ⟨?_, fun graph' hperm => hperm.simple_eq wf fuel, ?_⟩
  · intro schedule hsched
    rw [ComputeSumMutex.mutex_eq_of_height wf schedule hsched hempty hne,
      ComputeSumSafeVectorAtomic.atomic_eq_of_height wf schedule hsched hempty hne,
      ComputeSumSimple.simple_eq_of_height wf hempty hne]
    exact ⟨rfl, rfl⟩
  · intro hfuel
    exact ⟨_, (ComputeSumSimple.simple_eq_of_height wf hempty hne fuel).trans
      (if_pos (le_trans hn hfuel))⟩

/-- Witness of C11 on `exampleTree`: every level pushed in reverse order, and the children of the
root stored in the other order. -/
theorem total_independent_of_frontier_order_witness :
    ComputeSumMutex inReverse 4 exampleTree = ComputeSumSimple 4 exampleTree ∧
      ComputeSumSafeVectorAtomic inReverse 4 exampleTree = ComputeSumSimple 4 exampleTree ∧
      ComputeSumSimple 4 exampleTreeSwapped = ComputeSumSimple 4 exampleTree ∧
      ComputeSumSimple 4 exampleTree = .ok 23 :=
  have h := total_independent_of_frontier_order exampleTree exampleTree_wellFormed 4
  ⟨(h.1 inReverse isRearrangement_inReverse).1, (h.1 inReverse isRearrangement_inReverse).2,
    h.2.1 exampleTreeSwapped exampleTreeSwapped_permuted, by decide⟩

/-- C12: on every well-formed tree (which has at least its root) the pooled variants
`ComputeSumPoolSimple` and `ComputeSumPoolSeq` return exactly what `ComputeSumSimple` returns,
for every amount of fuel; with fuel for `n` levels that is a total, so the loops terminate and
no access to the pool or to `states` is out of range. -/
theorem pooled_variants_agree (graph : Graph) (wf : WellFormedTree graph) (fuel : Nat) :
    ComputeSumPoolSimple fuel graph = ComputeSumSimple fuel graph ∧
      ComputeSumPoolSeq fuel graph = ComputeSumSimple fuel graph ∧
      (graph.GetVertexCount ≤ fuel → ∃ total,
        ComputeSumSimple fuel graph = .ok total ∧ ComputeSumPoolSimple fuel graph = .ok total ∧
        ComputeSumPoolSeq fuel graph = .ok total) := by
  obtain ⟨h, h1, hn, hempty, hne⟩ := wf.exists_height
  have hsimple := ComputeSumSimple.simple_eq_of_height wf hempty hne fuel
  have hpool := ComputeSumPoolSimple.pool_eq_of_height wf h1 hempty hne fuel
  have hseq := ComputeSumPoolSeq.poolSeq_eq_of_height wf h1 hempty hne fuel
  refine ⟨hpool.trans hsimple.symm, hseq.trans hsimple.symm, ?_⟩
  intro hfuel
  rw [if_pos (le_trans hn hfuel)] at hsimple hpool hseq
  exact ⟨_, hsimple, hpool, hseq⟩

/-- Witness of C12 on `exampleTree`. -/
theorem pooled_variants_agree_witness :
    ComputeSumPoolSimple 4 exampleTree = ComputeSumSimple 4 exampleTree ∧
      ComputeSumPoolSeq 4 exampleTree = ComputeSumSimple 4 exampleTree ∧
      ComputeSumPoolSimple 4 exampleTree = .ok 23 :=
  have h := pooled_variants_agree exampleTree exampleTree_wellFormed 4
  ⟨h.1, h.2.1, by decide⟩

/-- C13: on every well-formed tree with at most `10^7` vertices and all weights in `[0, 10^3]`
the exact sum of `weight(v) * depth(v)` is below `2^64`, `ComputeSumSimple` returns exactly that
sum, `depth` stays below `2^31`, and at every step of every level neither the product
`static_cast<uint64_t>(weight) * depth` nor the addition to `sum` wraps around. -/
theorem no_wraparound_within_bounds (graph : Graph) (wf : WellFormedTree graph)
    (hn : graph.GetVertexCount ≤ 10 ^ 7)
    (hweights : ∀ v, v < graph.GetVertexCount → 0 ≤ graph.weight v ∧ graph.weight v ≤ 1000)
    (depth : Nat → Nat) (hroot : depth 0 = 1)
    (hchild : ∀ parent, parent < graph.GetVertexCount →
      ∀ child ∈ graph.children parent, depth child = depth parent + 1)
    (fuel : Nat) (hfuel : graph.GetVertexCount ≤ fuel) :
    0 ≤ weightedDepthSum graph depth ∧ weightedDepthSum graph depth < 2 ^ 64 ∧
      ComputeSumSimple fuel graph = .ok (weightedDepthSum graph depth).toNat ∧
      ∃ entered final,
        whileTrace frontierNonEmpty (ComputeSumSimple.body graph) fuel
            ComputeSumSimple.initial = .ok (entered, final) ∧
        final.depth < 2 ^ 31 ∧
        ∀ st ∈ entered, st.depth + 1 < 2 ^ 31 ∧
          ∀ P v Q, st.vertices_to_process = P ++ v :: Q → ∃ r,
            ComputeSumSimple.forEach graph (st.depth + 1) P st.sum [] = .ok r ∧
            static_cast_uint64 (graph.weight v) * (st.depth + 1) < 2 ^ 64 ∧
            r.1 + static_cast_uint64 (graph.weight v) * (st.depth + 1) < 2 ^ 64 := by
  obtain ⟨h, h1, hle, hempty, hne⟩ := wf.exists_height
  have hchild' := depth_child_of_lt graph depth hchild
  have hbounds := wf.weightedDepthSum_bounds hn hweights depth hroot hchild'
  have hU : UINT64_SIZE = 2 ^ 64 := rfl
  refine ⟨hbounds.1, hbounds.2, ?_, _, _,
    (ComputeSumSimple.simple_trace_eq wf hempty hne fuel).trans (if_pos (le_trans hle hfuel)),
    ?_, ?_⟩
  · rw [ComputeSumSimple.simple_eq_of_height wf hempty hne fuel, if_pos (le_trans hle hfuel),
      wf.levelsTotal_eq depth hroot hchild' h1 hempty,
      Int.emod_eq_of_lt hbounds.1 hbounds.2]
  · show h < 2 ^ 31
    have : (10 : Nat) ^ 7 < 2 ^ 31 := by decide
    omega
  · intro st hst
    obtain ⟨j, hj, rfl⟩ := List.mem_map.1 hst
    rw [List.mem_range] at hj
    have hsmall : (10 : Nat) ^ 7 < 2 ^ 31 := by decide
    refine ⟨by show j + 1 < 2 ^ 31; omega, ?_⟩
    intro P v Q hsplit
    have hsplit' : frontier graph j = P ++ v :: Q := hsplit
    have hvalid := wf.frontier_lt j
    rw [hsplit'] at hvalid
    have hP : ∀ u ∈ P, u < graph.GetVertexCount :=
      fun u hu => hvalid u (List.mem_append_left _ hu)
    have hv : v < graph.GetVertexCount :=
      hvalid v (List.mem_append_right _ (List.mem_cons_self _ _))
    have hforEach := ComputeSumSimple.forEach_eq graph wf.weights_size (j + 1) P hP
      (levelsTotal graph j % UINT64_SIZE) (Nat.mod_lt _ (by decide)) []
    have hA := wf.levelsTotal_le hweights j
    have hB := levelSum_le graph (j + 1) P fun u hu => hweights u (hP u hu)
    have hC : static_cast_uint64 (graph.weight v) * (j + 1) ≤ 1000 * (j + 1) :=
      Nat.mul_le_mul_right _ (static_cast_uint64_le (hweights v hv).1 (hweights v hv).2)
    have hlenV := visited_succ_length graph j
    have hlenF : (frontier graph j).length = P.length + (Q.length + 1) := by
      rw [hsplit', List.length_append, List.length_cons]
    have hA' : 1000 * j * (visited graph j).length ≤
        1000 * (j + 1) * (visited graph j).length :=
      Nat.mul_le_mul_right _ (by omega)
    have hstep : 1000 * (j + 1) * (visited graph j).length + 1000 * (j + 1) * P.length +
        1000 * (j + 1) ≤ 1000 * (j + 1) * (visited graph (j + 1)).length := by
      have e : 1000 * (j + 1) * (visited graph j).length + 1000 * (j + 1) * P.length +
          1000 * (j + 1) = 1000 * (j + 1) * ((visited graph j).length + P.length + 1) := by
        ring
      rw [e]
      exact Nat.mul_le_mul_left _ (by omega)
    have hmag := magnitude_bound (k := j + 1) (a := (visited graph (j + 1)).length) (by omega)
      (le_trans (wf.visited_length_le (j + 1)) hn)
    have hmod1 := Nat.mod_le (levelsTotal graph j) UINT64_SIZE
    have hmod2 := Nat.mod_le (levelsTotal graph j % UINT64_SIZE + levelSum graph (j + 1) P)
      UINT64_SIZE
    refine ⟨_, hforEach, ?_, ?_⟩
    · show static_cast_uint64 (graph.weight v) * (j + 1) < 2 ^ 64
      rw [← hU]
      omega
    · show (levelsTotal graph j % UINT64_SIZE + levelSum graph (j + 1) P) % UINT64_SIZE +
        static_cast_uint64 (graph.weight v) * (j + 1) < 2 ^ 64
      rw [← hU]
      omega

/-- Witness of C13 on `exampleTree`. -/
theorem no_wraparound_within_bounds_witness :
    0 ≤ weightedDepthSum exampleTree exampleDepth ∧
      weightedDepthSum exampleTree exampleDepth < 2 ^ 64 ∧
      ComputeSumSimple 4 exampleTree = .ok (weightedDepthSum exampleTree exampleDepth).toNat ∧
      (weightedDepthSum exampleTree exampleDepth).toNat = 23 :=
  have h := no_wraparound_within_bounds exampleTree exampleTree_wellFormed (by decide)
    (by
      intro v hv
      have hv' : v < 4 := hv
      interval_cases v <;> decide)
    exampleDepth rfl exampleDepth_child 4 (by decide)
  ⟨h.1, h.2.1, h.2.2.1, by decide⟩

/-- C14, counterexample: the path on `131072` vertices of weight `2147483647` is a well-formed
tree whose exact weighted depth sum `18446884802607906816` exceeds the range of `uint64_t`, and
`ComputeSumSimple` returns `140728898355200`, the sum reduced modulo `2^64`, instead of
failing. -/
theorem overflow_not_reported_counterexample :
    WellFormedTree (chain 131072 2147483647) ∧
      weightedDepthSum (chain 131072 2147483647) chainDepth = 18446884802607906816 ∧
      (2 : Int) ^ 64 ≤ weightedDepthSum (chain 131072 2147483647) chainDepth ∧
      ComputeSumSimple 131072 (chain 131072 2147483647) = .ok 140728898355200 ∧
      (140728898355200 : Int) = 18446884802607906816 % 2 ^ 64 := by
  have hsum : weightedDepthSum (chain 131072 2147483647) chainDepth = 18446884802607906816 := by
    rw [chain_weightedDepthSum]
    decide
  refine ⟨chain_wellFormed _ _ (by decide), hsum, ?_, ?_, by decide⟩
  · rw [hsum]
    decide
  · rw [chain_total 131072 2147483647 (by decide) 131072 (Nat.le_refl _)]
    decide

/-- C14, as the code behaves: on every well-formed tree whose exact weighted depth sum exceeds
the range of the 64-bit accumulator, `ComputeSumSimple` and the other strategies return, given
fuel for `n` levels, the exact sum reduced modulo `2^64`, a value different from the exact sum;
no overflow is detected. -/
theorem overflow_wraps_silently (graph : Graph) (wf : WellFormedTree graph)
    (depth : Nat → Nat) (hroot : depth 0 = 1)
    (hchild : ∀ parent, parent < graph.GetVertexCount →
      ∀ child ∈ graph.children parent, depth child = depth parent + 1)
    (hover : (2 : Int) ^ 64 ≤ weightedDepthSum graph depth)
    (fuel : Nat) (hfuel : graph.GetVertexCount ≤ fuel) :
    ComputeSumSimple fuel graph =
        .ok (weightedDepthSum graph depth % (2 ^ 64 : Int)).toNat ∧
      ComputeSumSeq fuel graph = ComputeSumSimple fuel graph ∧
      ComputeSumPoolSimple fuel graph = ComputeSumSimple fuel graph ∧
      ComputeSumPoolSeq fuel graph = ComputeSumSimple fuel graph ∧
      (∀ schedule, IsRearrangement schedule →
        ComputeSumPar schedule fuel graph = ComputeSumSimple fuel graph) ∧
      (∀ schedule, IsRearrangement schedule →
        ComputeSumMutex schedule fuel graph = ComputeSumSimple fuel graph ∧
        ComputeSumSafeVectorAtomic schedule fuel graph = ComputeSumSimple fuel graph) ∧
      (((weightedDepthSum graph depth % (2 ^ 64 : Int)).toNat : Nat) : Int) ≠
        weightedDepthSum graph depth := by
  obtain ⟨h, h1, hle, hempty, hne⟩ := wf.exists_height
  have hsimple := ComputeSumSimple.simple_eq_of_height wf hempty hne fuel
  refine ⟨?_, ?_, ?_, ?_, ?_, ?_, ?_⟩
  · rw [hsimple, if_pos (le_trans hle hfuel),
      wf.levelsTotal_eq depth hroot (depth_child_of_lt graph depth hchild) h1 hempty]
  · rw [hsimple, ComputeSumSeq.seq_eq_of_height wf hempty hne]
  · rw [hsimple, ComputeSumPoolSimple.pool_eq_of_height wf h1 hempty hne]
  · rw [hsimple, ComputeSumPoolSeq.poolSeq_eq_of_height wf h1 hempty hne]
  · intro schedule hsched
    rw [hsimple, ComputeSumPar.par_eq_of_height wf schedule hsched hempty hne]
  · intro schedule hsched
    rw [hsimple, ComputeSumMutex.mutex_eq_of_height wf schedule hsched hempty hne,
      ComputeSumSafeVectorAtomic.atomic_eq_of_height wf schedule hsched hempty hne]
    exact ⟨rfl, rfl⟩
  · rw [Int.toNat_of_nonneg (Int.emod_nonneg _ (by norm_num))]
    have hlt : weightedDepthSum graph depth % (2 ^ 64 : Int) < 2 ^ 64 :=
      Int.emod_lt_of_pos _ (by norm_num)
    omega

/-- Witness of the amended C14 on the path with `131072` vertices of weight `2147483647`. -/
theorem overflow_wraps_silently_witness :
    ComputeSumSimple 131072 (chain 131072 2147483647) =
        .ok (weightedDepthSum (chain 131072 2147483647) chainDepth % (2 ^ 64 : Int)).toNat ∧
      ComputeSumSeq 131072 (chain 131072 2147483647) =
        ComputeSumSimple 131072 (chain 131072 2147483647) :=
  have h := overflow_wraps_silently (chain 131072 2147483647)
    (chain_wellFormed _ _ (by decide)) chainDepth rfl
    (fun parent _ child hc => chainDepth_child _ _ parent child hc)
    (by rw [chain_weightedDepthSum]; decide) 131072
    (by rw [chain_vertexCount])
  ⟨h.1, h.2.1⟩

/-- C15, counterexample: on a store with one vertex `AddEdge(0, 5)` is not rejected; the id `5`,
which is outside `[0, 1)`, is stored in the adjacency list of vertex `0` and is met only during
the traversal, where `ComputeSumSimple` makes an out-of-range access. -/
theorem AddEdge_not_rejected_counterexample :
    (Graph.construct 1).GetVertexCount = 1 ∧
      (Graph.construct 1).AddEdge 0 5 =
        .ok { adjacency_lists_ := [[5]], vertex_weights_ := [0] } ∧
      ComputeSumSimple 2 { adjacency_lists_ := [[5]], vertex_weights_ := [0] } = .outOfRange := by
  decide

/-- C15, as the code behaves: `AddEdge` performs no validation.  With `vertex_from` inside
`[0, vertex_count)` it appends `vertex_to`, whatever its value, to the adjacency list of
`vertex_from` and changes nothing else, so an id outside `[0, vertex_count)` is stored; with
`vertex_from` outside that range the access `adjacency_lists_[vertex_from]` is out of range. -/
theorem AddEdge_unchecked (graph : Graph) (vertex_from vertex_to : Nat) :
    (vertex_from < graph.GetVertexCount → ∃ graph',
      graph.AddEdge vertex_from vertex_to = .ok graph' ∧
      graph'.GetVertexCount = graph.GetVertexCount ∧
      graph'.vertex_weights_ = graph.vertex_weights_ ∧
      graph'.children vertex_from = graph.children vertex_from ++ [vertex_to] ∧
      (∀ u, u ≠ vertex_from → graph'.children u = graph.children u) ∧
      vertex_to ∈ graph'.adjacency_lists_.flatten) ∧
    (graph.GetVertexCount ≤ vertex_from →
      graph.AddEdge vertex_from vertex_to = .outOfRange) := by
  refine ⟨fun hfrom => ?_, graph.AddEdge_of_ge vertex_from vertex_to⟩
  have hlt : vertex_from < graph.adjacency_lists_.length := hfrom
  have hchildren : ({ graph with
      adjacency_lists_ := graph.adjacency_lists_.set vertex_from
        (graph.children vertex_from ++ [vertex_to]) } : Graph).children vertex_from =
      graph.children vertex_from ++ [vertex_to] := by
    simp [Graph.children, Graph.GetAdjacentVertices, List.getElem?_set, hlt]
  refine ⟨_, graph.AddEdge_eq vertex_from vertex_to hfrom, ?_, rfl, hchildren, ?_, ?_⟩
  · simp [Graph.GetVertexCount]
  · intro u hu
    simp [Graph.children, Graph.GetAdjacentVertices, List.getElem?_set, Ne.symm hu]
  · rw [List.mem_flatten]
    refine ⟨graph.children vertex_from ++ [vertex_to], ?_, by simp⟩
    rw [List.mem_iff_getElem?]
    exact ⟨vertex_from, by simp [List.getElem?_set, hlt]⟩

/-- Witness of the amended C15: the store with one vertex and the calls `AddEdge(0, 5)` and
`AddEdge(5, 0)`. -/
theorem AddEdge_unchecked_witness :
    (∃ graph', (Graph.construct 1).AddEdge 0 5 = .ok graph' ∧
      graph'.GetVertexCount = (Graph.construct 1).GetVertexCount ∧
      graph'.vertex_weights_ = (Graph.construct 1).vertex_weights_ ∧
      graph'.children 0 = (Graph.construct 1).children 0 ++ [5] ∧
      (∀ u, u ≠ 0 → graph'.children u = (Graph.construct 1).children u) ∧
      5 ∈ graph'.adjacency_lists_.flatten) ∧
    (Graph.construct 1).AddEdge 5 0 = .outOfRange :=
  ⟨(AddEdge_unchecked (Graph.construct 1) 0 5).1 (by decide),
    (AddEdge_unchecked (Graph.construct 1) 5 0).2 (by decide)⟩

/-- C16, counterexample: on `exampleTree`, with the distances `0, 1, 1, 2` of its vertices from
the root, the sum of weight times distance is `13`, while `ComputeSumSimple` returns `23`. -/
theorem distance_sum_counterexample :
    exampleDistance 0 = 0 ∧
      (∀ parent, parent < exampleTree.GetVertexCount →
        ∀ child ∈ exampleTree.children parent,
          exampleDistance child = exampleDistance parent + 1) ∧
      weightedDistanceSum exampleTree exampleDistance = 13 ∧
      ComputeSumSimple 4 exampleTree = .ok 23 :=
  ⟨rfl, exampleDistance_child, by decide, by decide⟩

/-- C16, as the code behaves: on every well-formed tree `ComputeSumSimple` returns, given fuel
for `n` levels, the sum over every vertex of its weight multiplied by its distance from the root
plus one (the number of vertices on the path from vertex 0 to it), taken modulo `2^64`; the
distance is any assignment with `distance(0) = 0` and
`distance(child) = distance(parent) + 1`. -/
theorem ComputeSumSimple_distance_plus_one (graph : Graph) (wf : WellFormedTree graph)
    (distance : Nat → Nat) (hroot : distance 0 = 0)
    (hchild : ∀ parent, parent < graph.GetVertexCount →
      ∀ child ∈ graph.children parent, distance child = distance parent + 1)
    (fuel : Nat) (hfuel : graph.GetVertexCount ≤ fuel) :
    ComputeSumSimple fuel graph =
      .ok (weightedDistanceSum graph (fun v => distance v + 1) % (2 ^ 64 : Int)).toNat := by
  obtain ⟨h, h1, hle, hempty, hne⟩ := wf.exists_height
  have hchild' : ∀ parent child, child ∈ graph.children parent →
      (fun v => distance v + 1) child = (fun v => distance v + 1) parent + 1 := by
    intro parent child hc
    show distance child + 1 = distance parent + 1 + 1
    rw [depth_child_of_lt graph distance hchild parent child hc]
  have hroot' : (fun v => distance v + 1) 0 = 1 := by
    show distance 0 + 1 = 1
    rw [hroot]
  rw [ComputeSumSimple.simple_eq_of_height wf hempty hne fuel, if_pos (le_trans hle hfuel),
    wf.levelsTotal_eq (fun v => distance v + 1) hroot' hchild' h1 hempty]
  rfl

/-- Witness of the amended C16 on `exampleTree`: `1*(0+1) + 2*(1+1) + 3*(1+1) + 4*(2+1) = 23`. -/
theorem ComputeSumSimple_distance_plus_one_witness :
    ComputeSumSimple 4 exampleTree =
        .ok (weightedDistanceSum exampleTree (fun v => exampleDistance v + 1) %
          (2 ^ 64 : Int)).toNat ∧
      (weightedDistanceSum exampleTree (fun v => exampleDistance v + 1) %
          (2 ^ 64 : Int)).toNat = 23 :=
  ⟨ComputeSumSimple_distance_plus_one exampleTree exampleTree_wellFormed exampleDistance rfl
    exampleDistance_child 4 (by decide), by decide⟩

/-- C17: for every `vertex_count ≥ 1` and every sequence of draws in the ranges of the two
distributions (weights in `[0, max_weight]`, which makes `max_weight ≥ 0`, and the parent of
`v ≥ 1` in `[0, v - 1]`), `GenerateTree` returns a well-formed tree with `vertex_count`
vertices: every vertex `v ≥ 1` occurs exactly once over all adjacency lists, in the list of
exactly one vertex, its drawn parent, which is smaller than `v`; vertex `0` occurs in none;
every edge leads from a smaller to a larger id, so the children relation is acyclic; every
vertex is reachable from `0`; and the weights are the drawn ones. -/
theorem GenerateTree_wellFormed (weightDraw : Nat → Int) (parentDraw : Nat → Nat)
    (vertex_count : Nat) (max_weight : Int) (hcount : 1 ≤ vertex_count)
    (hdraws : DrawsInRange weightDraw parentDraw vertex_count max_weight) :
    ∃ graph,
      GenerateTree weightDraw parentDraw vertex_count = .ok graph ∧
      graph.GetVertexCount = vertex_count ∧
      WellFormedTree graph ∧
      (∀ v, 1 ≤ v → v < vertex_count →
        graph.adjacency_lists_.flatten.count v = 1 ∧
        parentDraw v < v ∧
        ∀ p, v ∈ graph.children p ↔ p = parentDraw v) ∧
      0 ∉ graph.adjacency_lists_.flatten ∧
      (∀ parent child, child ∈ graph.children parent → parent < child) ∧
      (∀ v, v < vertex_count → Reachable graph v) ∧
      (∀ v, v < vertex_count →
        graph.weight v = weightDraw v ∧ 0 ≤ graph.weight v ∧ graph.weight v ≤ max_weight) := by
  have hparent : ∀ v, v < vertex_count → 0 < v → parentDraw v < v :=
    fun v hv => (hdraws v hv).2
  have wf := GenerateTree.wellFormed_graphAt weightDraw parentDraw vertex_count hcount hparent
  have hn := GenerateTree.graphAt_vertexCount weightDraw parentDraw vertex_count vertex_count
  refine ⟨_, GenerateTree.generate_eq weightDraw parentDraw vertex_count hparent, hn, wf,
    ?_, wf.root_no_parent, ?_, ?_, ?_⟩
  · intro v h1 hv
    have hp := hparent v hv h1
    refine ⟨wf.one_parent v h1 (by rw [hn]; exact hv), hp, fun p => ?_⟩
    rw [GenerateTree.mem_children_graphAt]
    constructor
    · rintro ⟨_, _, _, h⟩
      exact h.symm
    · intro h
      exact ⟨by omega, hv, h1, h.symm⟩
  · intro parent child hc
    rw [GenerateTree.mem_children_graphAt] at hc
    have := hparent child hc.2.1 hc.2.2.1
    omega
  · intro v hv
    exact wf.all_reachable v (by rw [hn]; exact hv)
  · intro v hv
    rw [GenerateTree.weight_graphAt weightDraw parentDraw vertex_count hv]
    exact ⟨rfl, (hdraws v hv).1⟩

/-- Witness of C17: six vertices, vertex `v` with weight `v` and parent `v / 2`. -/
theorem GenerateTree_wellFormed_witness :
    ∃ graph,
      GenerateTree (fun v => (v : Int)) (fun v => v / 2) 6 = .ok graph ∧
      graph.GetVertexCount = 6 ∧ WellFormedTree graph ∧
      graph = { adjacency_lists_ := [[1], [2, 3], [4, 5], [], [], []],
                vertex_weights_ := [0, 1, 2, 3, 4, 5] } := by
  obtain ⟨graph, hgen, hn, wf, _⟩ := GenerateTree_wellFormed (fun v => (v : Int))
    (fun v => v / 2) 6 5 (by decide) (by
      intro v hv
      have hv' : v < 6 := hv
      refine ⟨⟨Int.natCast_nonneg v, ?_⟩, fun h0 => ?_⟩
      · show (v : Int) ≤ 5
        omega
      · show v / 2 < v
        omega)
  refine ⟨graph, hgen, hn, wf, ?_⟩
  have hval : GenerateTree (fun v => (v : Int)) (fun v => v / 2) 6 =
      .ok { adjacency_lists_ := [[1], [2, 3], [4, 5], [], [], []],
            vertex_weights_ := [0, 1, 2, 3, 4, 5] } := by decide
  rw [hval] at hgen
  exact (Outcome.ok.inj hgen).symm

/-- C18: on every well-formed tree, for every order in which the increments `place++` of the
parallel workers take effect, at every level that `ComputeSumSafeVectorAtomic` processes each
child of the frontier receives a slot of its own (the `i`-th increment hands out slot `i`, and
the first `place` slots of the buffer hold the children in the order of their increments),
`place` ends as the number of children, the next frontier is the buffer truncated to `place`
and holds exactly the multiset of the children of the current frontier; and the function
returns what `ComputeSumSimple` returns. -/
theorem atomic_counter_distinct_slots (graph : Graph) (wf : WellFormedTree graph)
    (schedule : Nat → List Nat → List Nat) (hsched : IsRearrangement schedule) (fuel : Nat) :
    ComputeSumSafeVectorAtomic schedule fuel graph = ComputeSumSimple fuel graph ∧
      (graph.GetVertexCount ≤ fuel →
        (∃ total, ComputeSumSafeVectorAtomic schedule fuel graph = .ok total) ∧
        ∃ entered final,
          whileTrace frontierNonEmpty (ComputeSumSafeVectorAtomic.body graph schedule) fuel
              ComputeSumSimple.initial = .ok (entered, final) ∧
          ∀ st ∈ entered, ∃ children place buffer next,
            ComputeSumSafeVectorAtomic.levelChildren graph st.vertices_to_process =
              .ok children ∧
            children = expand graph st.vertices_to_process ∧
            ComputeSumSafeVectorAtomic.claimSlots (schedule (st.depth + 1) children) 0
                (resize st.next_vertices graph.GetVertexCount) = .ok (place, buffer) ∧
            place = children.length ∧
            buffer.take place = schedule (st.depth + 1) children ∧
            ComputeSumSafeVectorAtomic.body graph schedule st = .ok next ∧
            next.vertices_to_process = resize buffer place ∧
            next.vertices_to_process.Perm (expand graph st.vertices_to_process)) := by
  obtain ⟨h, _, hn, hempty, hne⟩ := wf.exists_height
  refine ⟨?_, fun hfuel => ⟨⟨_, (ComputeSumSafeVectorAtomic.atomic_eq_of_height wf schedule
    hsched hempty hne fuel).trans (if_pos (le_trans hn hfuel))⟩, _, _,
    (ComputeSumSafeVectorAtomic.atomic_trace_eq wf schedule hsched hempty hne fuel).trans
      (if_pos (le_trans hn hfuel)), ?_⟩⟩
  · rw [ComputeSumSafeVectorAtomic.atomic_eq_of_height wf schedule hsched hempty hne,
      ComputeSumSimple.simple_eq_of_height wf hempty hne]
  · intro st hst
    obtain ⟨j, _, rfl⟩ := List.mem_map.1 hst
    have hfit : (expand graph (ComputeSumSafeVectorAtomic.frontierAt graph schedule j)).length ≤
        graph.GetVertexCount := by
      rw [ComputeSumSafeVectorAtomic.expand_frontierAt_length graph schedule hsched j]
      have := wf.children_bound j
      omega
    have hlenS : (schedule (j + 1)
        (expand graph (ComputeSumSafeVectorAtomic.frontierAt graph schedule j))).length =
        (expand graph (ComputeSumSafeVectorAtomic.frontierAt graph schedule j)).length :=
      (hsched _ _).length_eq
    have hbuf : resize [] graph.GetVertexCount =
        [] ++ List.replicate
            (expand graph (ComputeSumSafeVectorAtomic.frontierAt graph schedule j)).length 0 ++
          List.replicate (graph.GetVertexCount -
            (expand graph (ComputeSumSafeVectorAtomic.frontierAt graph schedule j)).length) 0 := by
      rw [resize_nil, List.nil_append, ← List.replicate_add]
      congr 1
      omega
    have hclaim := ComputeSumSafeVectorAtomic.claimSlots_eq
      (schedule (j + 1) (expand graph (ComputeSumSafeVectorAtomic.frontierAt graph schedule j)))
      []
      (List.replicate
        (expand graph (ComputeSumSafeVectorAtomic.frontierAt graph schedule j)).length 0)
      (List.replicate (graph.GetVertexCount -
        (expand graph (ComputeSumSafeVectorAtomic.frontierAt graph schedule j)).length) 0)
      (by rw [List.length_replicate, hlenS])
    rw [← hbuf] at hclaim
    simp only [List.length_nil, Nat.zero_add, List.nil_append] at hclaim
    have hbody := ComputeSumSafeVectorAtomic.atomic_body_stateAt wf schedule hsched j
    refine ⟨_, _, _, _,
      ComputeSumSafeVectorAtomic.levelChildren_eq graph _
        (ComputeSumSafeVectorAtomic.frontierAt_lt wf schedule hsched j),
      rfl, hclaim, hlenS, ?_, hbody, ?_, ?_⟩
    · rw [← hlenS, List.take_left]
      rfl
    · show ComputeSumSafeVectorAtomic.frontierAt graph schedule (j + 1) = _
      rw [resize_append_length]
      rfl
    · exact hsched _ _

/-- Witness of C18 on `exampleTree`, the increments of each level taking effect in reverse
order. -/
theorem atomic_counter_distinct_slots_witness :
    ComputeSumSafeVectorAtomic inReverse 4 exampleTree = ComputeSumSimple 4 exampleTree ∧
      ComputeSumSafeVectorAtomic inReverse 4 exampleTree = .ok 23 :=
  ⟨(atomic_counter_distinct_slots exampleTree exampleTree_wellFormed inReverse
    isRearrangement_inReverse 4).1, by decide⟩

/-- C21: on every well-formed tree with `n ≥ 1` vertices the level loop of `ComputeSumSimple`
terminates after exactly `height` executions of its body, where `1 ≤ height ≤ n` and `height`
is the largest depth of a vertex for every depth assignment with `depth(0) = 1` and
`depth(child) = depth(parent) + 1`; every level is entered with a non-empty frontier, and the
next frontier is empty after the level `height` and after no earlier level. -/
theorem ComputeSumSimple_levels_eq_height (graph : Graph) (wf : WellFormedTree graph) :
    ∃ height, 1 ≤ height ∧ height ≤ graph.GetVertexCount ∧
      (∀ depth : Nat → Nat, depth 0 = 1 →
        (∀ parent, parent < graph.GetVertexCount →
          ∀ child ∈ graph.children parent, depth child = depth parent + 1) →
        (∀ v, v < graph.GetVertexCount → depth v ≤ height) ∧
          ∃ v, v < graph.GetVertexCount ∧ depth v = height) ∧
      (∀ fuel, fuel < height →
        whileTrace frontierNonEmpty (ComputeSumSimple.body graph) fuel
          ComputeSumSimple.initial = .outOfFuel) ∧
      ∀ fuel, height ≤ fuel → ∃ entered final,
        whileTrace frontierNonEmpty (ComputeSumSimple.body graph) fuel
          ComputeSumSimple.initial = .ok (entered, final) ∧
        entered.length = height ∧ final.depth = height ∧ final.vertices_to_process = [] ∧
        ∀ j st, entered[j]? = some st → ∃ next,
          st.vertices_to_process ≠ [] ∧ st.depth = j ∧
          ComputeSumSimple.body graph st = .ok next ∧ next.depth = j + 1 ∧
          (next.vertices_to_process = [] ↔ j + 1 = height) := by
  obtain ⟨h, h1, hn, hempty, hne⟩ := wf.exists_height
  refine ⟨h, h1, hn, ?_, ?_, ?_⟩
  · intro depth hroot hchild
    have hchild' : ∀ parent child, child ∈ graph.children parent →
        depth child = depth parent + 1 := by
      intro parent child hc
      by_cases hp : parent < graph.GetVertexCount
      · exact hchild parent hp child hc
      · rw [graph.children_of_ge (Nat.le_of_not_lt hp)] at hc
        cases hc
    refine ⟨fun v hv => (wf.depth_le_height depth hroot hchild' h1 hempty v hv).2, ?_⟩
    obtain ⟨m, rfl⟩ : ∃ m, h = m + 1 := ⟨h - 1, by omega⟩
    obtain ⟨v, hv⟩ := List.exists_mem_of_ne_nil _ (hne m (Nat.lt_succ_self m))
    exact ⟨v, wf.frontier_lt m v hv, depth_of_mem_frontier graph depth hroot hchild' m v hv⟩
  · intro fuel hfuel
    rw [ComputeSumSimple.simple_trace_eq wf hempty hne fuel, if_neg (by omega)]
  · intro fuel hfuel
    refine ⟨_, _, (ComputeSumSimple.simple_trace_eq wf hempty hne fuel).trans (if_pos hfuel),
      by simp, rfl, hempty, ?_⟩
    intro j st hst
    rw [List.getElem?_map] at hst
    have hj : j < h := by
      by_contra hge
      rw [List.getElem?_eq_none (by simpa using hge)] at hst
      cases hst
    rw [List.getElem?_range hj] at hst
    obtain rfl : ComputeSumSimple.stateAt graph j = st := by simpa using hst
    refine ⟨_, hne j hj, rfl, ComputeSumSimple.simple_body_stateAt wf j, rfl, ?_⟩
    show frontier graph (j + 1) = [] ↔ j + 1 = h
    constructor
    · intro hnil
      by_contra hlt
      exact hne (j + 1) (by omega) hnil
    · intro heq
      rw [heq]
      exact hempty

/-- Witness of C21 on `exampleTree`, whose height is 3. -/
theorem ComputeSumSimple_levels_eq_height_witness :
    (∃ height, 1 ≤ height ∧ height ≤ exampleTree.GetVertexCount ∧
      (∀ depth : Nat → Nat, depth 0 = 1 →
        (∀ parent, parent < exampleTree.GetVertexCount →
          ∀ child ∈ exampleTree.children parent, depth child = depth parent + 1) →
        (∀ v, v < exampleTree.GetVertexCount → depth v ≤ height) ∧
          ∃ v, v < exampleTree.GetVertexCount ∧ depth v = height) ∧
      (∀ fuel, fuel < height →
        whileTrace frontierNonEmpty (ComputeSumSimple.body exampleTree) fuel
          ComputeSumSimple.initial = .outOfFuel) ∧
      ∀ fuel, height ≤ fuel → ∃ entered final,
        whileTrace frontierNonEmpty (ComputeSumSimple.body exampleTree) fuel
          ComputeSumSimple.initial = .ok (entered, final) ∧
        entered.length = height ∧ final.depth = height ∧ final.vertices_to_process = [] ∧
        ∀ j st, entered[j]? = some st → ∃ next,
          st.vertices_to_process ≠ [] ∧ st.depth = j ∧
          ComputeSumSimple.body exampleTree st = .ok next ∧ next.depth = j + 1 ∧
          (next.vertices_to_process = [] ↔ j + 1 = height)) ∧
      (whileTrace frontierNonEmpty (ComputeSumSimple.body exampleTree) 3
        ComputeSumSimple.initial).bind (fun r => .ok (r.1.length, r.2.depth)) = .ok (3, 3) :=
  ⟨ComputeSumSimple_levels_eq_height exampleTree exampleTree_wellFormed, by decide⟩

/-- C26, as stated, fails on `sharedChild`: vertex 4 is not reachable from the root, so the
reachable set is smaller than the vertex count 5, yet vertex 3 is stored twice, the pooled
traversal fills all five slots of the pool and `ComputeSumPoolSimple` leaves its loop through
its guard after three iterations, returning 11. -/
theorem pool_ends_despite_cut_off_counterexample :
    2 ≤ sharedChild.GetVertexCount ∧
      (∃ v, v < sharedChild.GetVertexCount ∧ ¬ Reachable sharedChild v) ∧
      ComputeSumPoolSimple 3 sharedChild = .ok 11 ∧
      ComputeSumPoolSimple.intRun 3 sharedChild = .ok 11 ∧
      ¬ ∀ fuel, ComputeSumPoolSimple fuel sharedChild = .outOfFuel :=
  ⟨by decide, ⟨4, by decide, sharedChild_cut⟩, by decide, by decide,
    fun h => absurd (h 3) (by decide)⟩

/-- C26, amended: on a graph that meets the conditions of a well-formed tree except that some
vertex is cut off from the root (no vertex is stored twice, the root is stored nowhere, the
vertex count is then at least 2), the pooled loop of `ComputeSumPoolSimple` passes its guard
`from < vertex_count` in every state of its run and `depth` counts the iterations; from some
iteration on `from = to = next_to` is one value below the vertex count while `sum` and the
pool stay as they are. The loop therefore never ends through its guard: with `depth` an `int`
it is still running after `INT_MAX = 2^31 - 1` iterations and `++depth` overflows in the next
one, whereas `ComputeSumSimple` returns on the same graph. -/
theorem ComputeSumPoolSimple_never_ends_when_cut_off (graph : Graph) (pt : PartialTree graph)
    (hcut : ∃ v, v < graph.GetVertexCount ∧ ¬ Reachable graph v) :
    2 ≤ graph.GetVertexCount ∧
      (∃ run : Nat → PoolState,
        run 0 = ComputeSumPoolSimple.initial graph ∧
        (∀ k, poolGuard graph.GetVertexCount (run k) = true ∧ (run k).depth = k ∧
          (k < 2147483647 → ComputeSumPoolSimple.body graph (run k) = .ok (run (k + 1)))) ∧
        ∃ levels size, levels ≤ graph.GetVertexCount ∧ size < graph.GetVertexCount ∧
          ∀ k, levels ≤ k →
            (run k).from_ = size ∧ (run k).to_ = size ∧ (run k).next_to = size ∧
            (run k).sum = (run levels).sum ∧ (run k).pool = (run levels).pool) ∧
      (∀ fuel, ComputeSumPoolSimple.intRun fuel graph =
        if fuel ≤ 2147483647 then .outOfFuel else .intOverflow) ∧
      ∃ total, ∀ fuel, graph.GetVertexCount ≤ fuel → ComputeSumSimple fuel graph = .ok total := by
  obtain ⟨h, _, hn, hempty, hne⟩ := pt.cut_exists_height
  have hguard : ∀ k, poolGuard graph.GetVertexCount (ComputeSumPoolSimple.stateAt graph k) =
      true := by
    intro k
    unfold poolGuard ComputeSumPoolSimple.stateAt
    simpa using pt.cut_visited_length_lt hcut k
  have hbody : ∀ k, ComputeSumPoolSimple.body graph (ComputeSumPoolSimple.stateAt graph k) =
      .ok (ComputeSumPoolSimple.stateAt graph (k + 1)) := fun k =>
    ComputeSumPoolSimple.pool_body_stateAt_of graph pt.weights_size k (pt.cut_frontier_lt k)
      (pt.cut_visited_length_le (k + 1 + 1))
  refine ⟨?_, ⟨ComputeSumPoolSimple.stateAt graph,
    (ComputeSumPoolSimple.pool_initial_eq_of graph pt.has_root).symm,
    fun k => ⟨hguard k, rfl, fun _ => hbody k⟩, h, (visited graph h).length, hn,
    pt.cut_visited_length_lt hcut h, ?_⟩, ?_, levelsTotal graph h % UINT64_SIZE, ?_⟩
  · obtain ⟨v, hv, hnot⟩ := hcut
    have hv0 : v ≠ 0 := by
      rintro rfl
      exact hnot Reachable.root
    omega
  · intro k hk
    have h1 := visited_levelsTotal_of_le graph hempty k hk
    have h2 := visited_levelsTotal_of_le graph hempty (k + 1) (Nat.le_succ_of_le hk)
    have h3 := visited_levelsTotal_of_le graph hempty (h + 1) (Nat.le_succ h)
    unfold ComputeSumPoolSimple.stateAt
    simp only [h1.1, h1.2, h2.1, h3.1, and_self]
  · intro fuel
    unfold ComputeSumPoolSimple.intRun
    rw [ComputeSumPoolSimple.pool_initial_eq_of graph pt.has_root,
      ComputeSumPoolSimple.intLoop_diverge graph fuel (ComputeSumPoolSimple.stateAt graph) 0
        (Nat.zero_le _) hguard hbody (fun j => (Nat.zero_add j).symm), Nat.add_zero]
    by_cases hle : fuel ≤ 2147483647
    · rw [if_pos hle, if_pos hle]
    · rw [if_neg hle, if_neg hle]
  · intro fuel hfuel
    unfold ComputeSumSimple ComputeSumSimple.loop
    rw [ComputeSumSimple.simple_initial_eq graph,
      whileLoop_chain frontierNonEmpty (ComputeSumSimple.body graph) h
        (ComputeSumSimple.stateAt graph)
        (fun j hj => frontierNonEmpty_eq_true (hne j hj))
        (fun j _ => ComputeSumSimple.simple_body_stateAt_of graph pt.weights_size j
          (pt.cut_frontier_lt j))
        (frontierNonEmpty_eq_false hempty) fuel, if_pos (le_trans hn hfuel)]
    rfl

/-- Witness of C26 on two vertices without an edge: the pooled loop is stuck at
`from = to = next_to = 1`, still running after `2^31 - 1` iterations and in signed overflow of
`depth` after one more, and `ComputeSumSimple` returns `0`. -/
theorem ComputeSumPoolSimple_never_ends_when_cut_off_witness :
    (∀ fuel, ComputeSumPoolSimple.intRun fuel twoIsolated =
        if fuel ≤ 2147483647 then .outOfFuel else .intOverflow) ∧
      ComputeSumPoolSimple.intRun 5 twoIsolated = .outOfFuel ∧
      ComputeSumPoolSimple.body twoIsolated
          { sum := 0, depth := 1, from_ := 1, to_ := 1, next_to := 1, pool := [0, 0],
            states := [] } =
        .ok { sum := 0, depth := 2, from_ := 1, to_ := 1, next_to := 1, pool := [0, 0],
              states := [] } ∧
      ComputeSumSimple 2 twoIsolated = .ok 0 :=
  ⟨(ComputeSumPoolSimple_never_ends_when_cut_off twoIsolated twoIsolated_isPartialTree
    ⟨1, by decide, twoIsolated_cut⟩).2.2.1, by decide, by decide, by decide⟩

end BfsTree

/-! # `SplitIntoWords` -/

namespace Sem1

/-- Appending a character to the last word. -/
theorem pushBackChar_concat (pre : List (List Char)) (cur : List Char) (c : Char) :
    pushBackChar (pre ++ [cur]) c = some (pre ++ [cur ++ [c]]) := by
  simp [pushBackChar, List.getLast?_concat, List.dropLast_concat]

/-- Joining a word in front of at least one more word puts one space between them. -/
theorem joinWords_cons (word : List Char) (words : List (List Char)) (h : 1 ≤ words.length) :
    joinWords (word :: words) = word ++ ' ' :: joinWords words := by
  cases words with
  | nil => simp at h
  | cons next rest => rfl

/-- Invariant of the loop of `SplitIntoWords`: started with the words `pre` followed by the
unfinished word `cur`, the loop leaves `pre` alone and appends to it the words of
`cur ++ text`. -/
theorem loop_concat (text : List Char) :
    ∀ (pre : List (List Char)) (cur : List Char),
      ∃ words, SplitIntoWords.loop text (pre ++ [cur]) = some (pre ++ words) ∧
        words.length = space_count text + 1 ∧
        (' ' ∉ cur → ∀ word ∈ words, ' ' ∉ word) ∧
        joinWords words = cur ++ text := by
  induction text with
  | nil =>
    intro pre cur
    refine ⟨[cur], rfl, rfl, ?_, by simp [joinWords]⟩
    intro h word hw
    rw [List.mem_singleton.1 hw]
    exact h
  | cons c rest ih =>
    intro pre cur
    by_cases hc : c = ' '
    · subst hc
      obtain ⟨words, hrun, hlen, hfree, hjoin⟩ := ih (pre ++ [cur]) []
      refine ⟨cur :: words, ?_, ?_, ?_, ?_⟩
      · show (SplitIntoWords.step (pre ++ [cur]) ' ').bind (SplitIntoWords.loop rest) = _
        rw [SplitIntoWords.step, if_pos rfl, Option.some_bind, hrun, List.append_assoc]
        rfl
      · rw [List.length_cons, hlen, space_count, space_count, List.count_cons_self]
      · intro h word hw
        rcases List.mem_cons.1 hw with rfl | hw
        · exact h
        · exact hfree (List.not_mem_nil _) word hw
      · rw [joinWords_cons _ _ (by omega), hjoin, List.nil_append]
    · obtain ⟨words, hrun, hlen, hfree, hjoin⟩ := ih pre (cur ++ [c])
      refine ⟨words, ?_, ?_, ?_, ?_⟩
      · show (SplitIntoWords.step (pre ++ [cur]) c).bind (SplitIntoWords.loop rest) = _
        rw [SplitIntoWords.step, if_neg hc, pushBackChar_concat, Option.some_bind, hrun]
      · rw [hlen, space_count, space_count, List.count_cons_of_ne (Ne.symm hc)]
      · intro h
        refine hfree ?_
        intro hmem
        rcases List.mem_append.1 hmem with hmem | hmem
        · exact h hmem
        · exact hc (List.mem_singleton.1 hmem).symm
      · rw [hjoin, List.append_assoc]
        rfl

/-- The run of `SplitIntoWords` on any text. -/
theorem split_spec (text : List Char) :
    ∃ words, SplitIntoWords text = some words ∧
      words.length = space_count text + 1 ∧
      (∀ word ∈ words, ' ' ∉ word) ∧ joinWords words = text := by
  obtain ⟨words, hrun, hlen, hfree, hjoin⟩ := loop_concat text [] []
  exact ⟨words, hrun, hlen, hfree (List.not_mem_nil _), hjoin⟩

/-! ## The statements of the specification about `SplitIntoWords` -/

/-- C19: for every text `SplitIntoWords` returns, and the number of words it returns is the
number of spaces of the text plus one; for the empty text it returns the one empty word. -/
theorem SplitIntoWords_size (text : List Char) :
    (∃ words, SplitIntoWords text = some words ∧ words.length = space_count text + 1) ∧
      SplitIntoWords [] = some [[]] ∧ space_count [] = 0 := by
  obtain ⟨words, hrun, hlen, _, _⟩ := split_spec text
  exact ⟨⟨words, hrun, hlen⟩, rfl, rfl⟩

/-- C20: for every text `SplitIntoWords` returns words none of which contains a space, and
the words joined in order with a single space between consecutive words are the text again;
`"aaa aa"` is split into `"aaa"` and `"aa"`. -/
theorem SplitIntoWords_join (text : List Char) :
    (∃ words, SplitIntoWords text = some words ∧
      (∀ word ∈ words, ' ' ∉ word) ∧ joinWords words = text) ∧
      SplitIntoWords "aaa aa".toList = some ["aaa".toList, "aa".toList] := by
  obtain ⟨words, hrun, _, hfree, hjoin⟩ := split_spec text
  exact ⟨⟨words, hrun, hfree, hjoin⟩, by decide⟩

end Sem1

/-! # The search functions of `binsearch.cpp` -/

namespace Binsearch

/-! ## Basic facts about runs -/

@[simp] theorem Run.run_bind_ok {α β : Type} (a : α) (k : α → Run β) :
    (Run.ok a).bind k = k a := rfl

@[simp] theorem Run.run_bind_outOfRange {α β : Type} (k : α → Run β) :
    (Run.outOfRange : Run α).bind k = .outOfRange := rfl

@[simp] theorem Run.run_bind_intOverflow {α β : Type} (k : α → Run β) :
    (Run.intOverflow : Run α).bind k = .intOverflow := rfl

theorem toInt_overflow {x : Int} (h : 2147483647 < x) : toInt x = .intOverflow := by
  unfold toInt INT_MIN INT_MAX
  rw [if_neg (by omega)]

theorem toInt_ok {x : Int} (h1 : -2147483648 ≤ x) (h2 : x ≤ 2147483647) : toInt x = .ok x := by
  unfold toInt INT_MIN INT_MAX
  rw [if_pos ⟨h1, h2⟩]

/-- Division of a non-negative `int` by a positive one is the floor of the quotient. -/
theorem divInt_ok {x y : Int} (hx : 0 ≤ x) (hx2 : x ≤ 2147483647) (hy : 0 < y) :
    divInt x y = .ok (x / y) := by
  unfold divInt
  rw [if_neg (by omega), Int.tdiv_eq_ediv hx (by omega)]
  have h1 : 0 ≤ x / y := Int.ediv_nonneg hx (by omega)
  have h2 : x / y ≤ x := Int.ediv_le_self y hx
  exact toInt_ok (by omega) (by omega)

theorem readAt_ok {α : Type} (v : List α) (i : Nat) (x : α) (h : v[i]? = some x) :
    readAt v (i : Int) = .ok x := by
  unfold readAt
  rw [if_pos (Int.ofNat_nonneg i), Int.toNat_ofNat, h]

theorem readAt_length {α : Type} (v : List α) : readAt v (v.length : Int) = .outOfRange := by
  unfold readAt
  rw [if_pos (Int.ofNat_nonneg _), Int.toNat_ofNat, List.getElem?_eq_none (Nat.le_refl _)]

theorem CheckNumber_eq_true (x : Int) : CheckNumber x = true ↔ x > 100000000 := by
  simp [CheckNumber]

/-! ## Sorted vectors -/

theorem failing_le_length (numbers : List Int) : failing numbers ≤ numbers.length :=
  List.countP_le_length _

/-- In a sorted vector the elements that pass `CheckNumber` are those at the indices from
`failing numbers` on. -/
theorem check_iff_of_sorted (numbers : List Int) (hs : IsSorted numbers) :
    ∀ (i : Nat) (x : Int), numbers[i]? = some x →
      (CheckNumber x = true ↔ failing numbers ≤ i) := by
  induction numbers with
  | nil => intro i x h; simp at h
  | cons a l ih =>
    intro i x h
    obtain ⟨hall, hl⟩ := List.sorted_cons.1 hs
    by_cases ha : a > 100000000
    · have hzero : failing (a :: l) = 0 := by
        unfold failing
        rw [List.countP_eq_zero]
        intro b hb
        have hab : a ≤ b := by
          rcases List.mem_cons.1 hb with rfl | hb
          · exact le_refl _
          · exact hall b hb
        simp only [CheckNumber, Bool.not_eq_true', decide_eq_false_iff_not, not_not]
        omega
      have hx : a ≤ x := by
        have hmem : x ∈ a :: l := List.getElem?_mem h
        rcases List.mem_cons.1 hmem with rfl | hb
        · exact le_refl _
        · exact hall x hb
      rw [hzero, CheckNumber_eq_true]
      constructor
      · intro _; exact Nat.zero_le _
      · intro _; omega
    · have hsucc : failing (a :: l) = failing l + 1 := by
        unfold failing
        rw [List.countP_cons_of_pos]
        simp only [CheckNumber, Bool.not_eq_true', decide_eq_false_iff_not]
        exact ha
      rw [hsucc]
      cases i with
      | zero =>
        simp only [List.getElem?_cons_zero, Option.some.injEq] at h
        subst h
        rw [CheckNumber_eq_true]
        constructor
        · intro h; exact absurd h ha
        · intro h; omega
      | succ i =>
        rw [List.getElem?_cons_succ] at h
        rw [ih hl i x h]
        omega

/-- Reading a sorted vector inside its bounds. -/
theorem read_of_sorted (numbers : List Int) (hs : IsSorted numbers) (i : Int) (h0 : 0 ≤ i)
    (hi : i < numbers.length) :
    ∃ x, readAt numbers i = .ok x ∧ (CheckNumber x = true ↔ (failing numbers : Int) ≤ i) := by
  obtain ⟨n, rfl⟩ := Int.eq_ofNat_of_zero_le h0
  have hn : n < numbers.length := by exact_mod_cast hi
  refine ⟨numbers[n], readAt_ok numbers n _ (List.getElem?_eq_getElem hn), ?_⟩
  rw [check_iff_of_sorted numbers hs n _ (List.getElem?_eq_getElem hn)]
  exact Int.ofNat_le.symm

/-- In a sorted vector `failing numbers` is the least index whose element passes. -/
theorem isLeastPassing_failing (numbers : List Int) (hs : IsSorted numbers) :
    IsLeastPassing numbers (failing numbers) := by
  refine ⟨Int.ofNat_nonneg _, by exact_mod_cast failing_le_length numbers, ?_, ?_⟩
  · intro i x hi hx hgt
    have h := (check_iff_of_sorted numbers hs i x hx).1 ((CheckNumber_eq_true x).2 hgt)
    have hi' : i < failing numbers := by exact_mod_cast hi
    omega
  · intro x hx
    rw [Int.toNat_ofNat] at hx
    exact (CheckNumber_eq_true x).1 ((check_iff_of_sorted numbers hs _ x hx).2 (Nat.le_refl _))

/-- There is one least passing index only. -/
theorem IsLeastPassing.unique {numbers : List Int} {a b : Int} (ha : IsLeastPassing numbers a)
    (hb : IsLeastPassing numbers b) : a = b := by
  obtain ⟨ha0, haL, haBelow, haAt⟩ := ha
  obtain ⟨hb0, hbL, hbBelow, hbAt⟩ := hb
  obtain ⟨m, rfl⟩ := Int.eq_ofNat_of_zero_le ha0
  obtain ⟨n, rfl⟩ := Int.eq_ofNat_of_zero_le hb0
  rw [Int.toNat_ofNat] at haAt hbAt
  have hm : m ≤ numbers.length := by exact_mod_cast haL
  have hn : n ≤ numbers.length := by exact_mod_cast hbL
  rcases Nat.lt_trichotomy m n with hlt | heq | hgt
  · have hml : m < numbers.length := by omega
    exact absurd (haAt _ (List.getElem?_eq_getElem hml))
      (hbBelow m _ (by exact_mod_cast hlt) (List.getElem?_eq_getElem hml))
  · rw [heq]
  · have hnl : n < numbers.length := by omega
    exact absurd (hbAt _ (List.getElem?_eq_getElem hnl))
      (haBelow n _ (by exact_mod_cast hgt) (List.getElem?_eq_getElem hnl))

/-! ## The loop shared by the search functions -/

/-- If every execution of the body keeps `left < ans ≤ right` and brings `left` and `right`
closer together, the loop returns `ans`, given fuel for `right - left - 1` executions; `size`
is such that `left + 1` fits an `int`. -/
theorem searchLoop_ok (body : Bounds → Run Bounds) (size ans : Int) (hsize : size ≤ 2147483646)
    (hstep : ∀ st : Bounds, -1 ≤ st.left → st.left < ans → ans ≤ st.right → st.right ≤ size →
      st.left + 1 < st.right → ∃ st', body st = .ok st' ∧ st.left ≤ st'.left ∧ st'.left < ans ∧
        ans ≤ st'.right ∧ st'.right ≤ st.right ∧ st'.right - st'.left < st.right - st.left) :
    ∀ (fuel : Nat) (st : Bounds), -1 ≤ st.left → st.left < ans → ans ≤ st.right →
      st.right ≤ size → st.right - st.left ≤ fuel + 1 → searchLoop body fuel st = .ok ans := by
  intro fuel
  induction fuel with
  | zero =>
    intro st h1 h2 h3 h4 h5
    simp only [searchLoop, toInt_ok (x := st.left + 1) (by omega) (by omega), Run.run_bind_ok]
    rw [if_neg (by omega)]
    congr 1
    omega
  | succ fuel ih =>
    intro st h1 h2 h3 h4 h5
    simp only [searchLoop, toInt_ok (x := st.left + 1) (by omega) (by omega), Run.run_bind_ok]
    by_cases hg : st.left + 1 < st.right
    · obtain ⟨st', hb, g1, g2, g3, g4, g5⟩ := hstep st h1 h2 h3 h4 hg
      rw [if_pos hg, hb, Run.run_bind_ok]
      exact ih st' (by omega) g2 g3 (by omega) (by push_cast at h5 ⊢; omega)
    · rw [if_neg hg]
      congr 1
      omega

/-- A search function whose body narrows as `searchLoop_ok` asks returns the least passing
index of a sorted vector whose size is below `INT_MAX`. -/
theorem search_ok (body : List Int → Bounds → Run Bounds) (numbers : List Int)
    (hsize : numbers.length ≤ 2147483646)
    (hstep : ∀ st : Bounds, -1 ≤ st.left → st.left < failing numbers →
      (failing numbers : Int) ≤ st.right → st.right ≤ numbers.length →
      st.left + 1 < st.right → ∃ st', body numbers st = .ok st' ∧ st.left ≤ st'.left ∧
        st'.left < failing numbers ∧ (failing numbers : Int) ≤ st'.right ∧
        st'.right ≤ st.right ∧ st'.right - st'.left < st.right - st.left)
    (fuel : Nat) (hfuel : numbers.length ≤ fuel) :
    (initial numbers).bind (searchLoop (body numbers) fuel) = .ok (failing numbers : Int) := by
  have hsize' : (numbers.length : Int) ≤ 2147483646 := by exact_mod_cast hsize
  have hfail : (failing numbers : Int) ≤ numbers.length := by
    exact_mod_cast failing_le_length numbers
  have hfuel' : (numbers.length : Int) ≤ fuel := by exact_mod_cast hfuel
  unfold initial
  rw [toInt_ok (by omega) (by omega), Run.run_bind_ok, Run.run_bind_ok]
  exact searchLoop_ok (body numbers) numbers.length (failing numbers) hsize' hstep fuel _
    (le_refl _) (by show (-1 : Int) < _; omega) hfail (le_refl _)
    (by show (numbers.length : Int) - -1 ≤ _; omega)

/-! ## One execution of each loop body -/

/-- One execution of the body of `FindSimple`. -/
theorem FindSimple.simple_step (numbers : List Int) (hs : IsSorted numbers)
    (hsize : numbers.length ≤ 1073741824) (st : Bounds) (h1 : -1 ≤ st.left)
    (h2 : st.left < failing numbers) (h3 : (failing numbers : Int) ≤ st.right)
    (h4 : st.right ≤ numbers.length) (hg : st.left + 1 < st.right) :
    ∃ st', FindSimple.body numbers st = .ok st' ∧ st.left ≤ st'.left ∧
      st'.left < failing numbers ∧ (failing numbers : Int) ≤ st'.right ∧
      st'.right ≤ st.right ∧ st'.right - st'.left < st.right - st.left := by
  have hsize' : (numbers.length : Int) ≤ 1073741824 := by exact_mod_cast hsize
  obtain ⟨x, hread, hiff⟩ := read_of_sorted numbers hs ((st.left + st.right) / 2)
    (by omega) (by omega)
  unfold FindSimple.body
  rw [toInt_ok (by omega) (by omega), Run.run_bind_ok,
    divInt_ok (by omega) (by omega) (by decide), Run.run_bind_ok, hread, Run.run_bind_ok]
  by_cases hc : CheckNumber x = true
  · rw [if_pos hc]
    have := hiff.1 hc
    refine ⟨_, rfl, ?_, ?_, ?_, ?_, ?_⟩ <;> dsimp only <;> omega
  · rw [if_neg hc]
    have : ¬ (failing numbers : Int) ≤ (st.left + st.right) / 2 := fun h => hc (hiff.2 h)
    refine ⟨_, rfl, ?_, ?_, ?_, ?_, ?_⟩ <;> dsimp only <;> omega

/-- The probes of the three-way searches lie strictly between `left` and `right`. -/
theorem Find3PartsSeq.probes_ok (st : Bounds) (h1 : -1 ≤ st.left) (h4 : st.right ≤ 2147483646)
    (hg : st.left + 1 < st.right) :
    Find3PartsSeq.probes st =
      .ok (st.left + max 1 ((st.right - st.left) / 3),
        st.right - max 1 ((st.right - st.left) / 3)) := by
  unfold Find3PartsSeq.probes
  rw [toInt_ok (by omega) (by omega), Run.run_bind_ok,
    divInt_ok (by omega) (by omega) (by decide), Run.run_bind_ok]
  simp only
  rw [toInt_ok (by omega) (by omega), Run.run_bind_ok, toInt_ok (by omega) (by omega), Run.run_bind_ok]

/-- One execution of the body of `Find3PartsSeq`. -/
theorem Find3PartsSeq.three_step (numbers : List Int) (hs : IsSorted numbers)
    (hsize : numbers.length ≤ 2147483646) (st : Bounds) (h1 : -1 ≤ st.left)
    (h2 : st.left < failing numbers) (h3 : (failing numbers : Int) ≤ st.right)
    (h4 : st.right ≤ numbers.length) (hg : st.left + 1 < st.right) :
    ∃ st', Find3PartsSeq.body numbers st = .ok st' ∧ st.left ≤ st'.left ∧
      st'.left < failing numbers ∧ (failing numbers : Int) ≤ st'.right ∧
      st'.right ≤ st.right ∧ st'.right - st'.left < st.right - st.left := by
  have hsize' : (numbers.length : Int) ≤ 2147483646 := by exact_mod_cast hsize
  obtain ⟨x1, hread1, hiff1⟩ := read_of_sorted numbers hs
    (st.left + max 1 ((st.right - st.left) / 3)) (by omega) (by omega)
  obtain ⟨x2, hread2, hiff2⟩ := read_of_sorted numbers hs
    (st.right - max 1 ((st.right - st.left) / 3)) (by omega) (by omega)
  unfold Find3PartsSeq.body
  rw [Find3PartsSeq.probes_ok st h1 (by omega) hg, Run.run_bind_ok]
  simp only
  rw [hread1, Run.run_bind_ok, hread2, Run.run_bind_ok]
  refine ⟨_, rfl, ?_⟩
  unfold Find3PartsSeq.narrow
  by_cases hc1 : CheckNumber x1 = true
  · rw [if_pos hc1]
    have := hiff1.1 hc1
    refine ⟨?_, ?_, ?_, ?_, ?_⟩ <;> dsimp only <;> omega
  · rw [if_neg hc1]
    have hn1 : ¬ (failing numbers : Int) ≤ st.left + max 1 ((st.right - st.left) / 3) :=
      fun h => hc1 (hiff1.2 h)
    by_cases hc2 : CheckNumber x2 = true
    · rw [if_neg (by simp [hc2])]
      have := hiff2.1 hc2
      refine ⟨?_, ?_, ?_, ?_, ?_⟩ <;> dsimp only <;> omega
    · rw [if_pos (by simp [hc2])]
      have hn2 : ¬ (failing numbers : Int) ≤ st.right - max 1 ((st.right - st.left) / 3) :=
        fun h => hc2 (hiff2.2 h)
      refine ⟨?_, ?_, ?_, ?_, ?_⟩ <;> dsimp only <;> omega

/-- Handing a probe to `async` does not change what the body computes. -/
theorem Find3PartsPar.body_eq_seq (numbers : List Int) (st : Bounds) :
    Find3PartsPar.body numbers st = Find3PartsSeq.body numbers st := rfl

/-! ## The arrays of `FindNBoundsPar` -/

theorem readAt_zero {α : Type} (a : α) (v : List α) : readAt (a :: v) 0 = .ok a := by
  simp [readAt]

theorem readAt_one {α : Type} (a b : α) (v : List α) : readAt (a :: b :: v) 1 = .ok b := by
  simp [readAt]

theorem readAt_two {α : Type} (a b c : α) (v : List α) :
    readAt (a :: b :: c :: v) 2 = .ok c := by
  simp [readAt]

theorem readAt_three {α : Type} (a b c d : α) (v : List α) :
    readAt (a :: b :: c :: d :: v) 3 = .ok d := by
  simp [readAt]

theorem writeAt_zero {α : Type} (a x : α) (v : List α) :
    writeAt (a :: v) 0 x = .ok (x :: v) := by
  simp [writeAt]

theorem writeAt_one {α : Type} (a b x : α) (v : List α) :
    writeAt (a :: b :: v) 1 x = .ok (a :: x :: v) := by
  simp [writeAt]

theorem writeAt_two {α : Type} (a b c x : α) (v : List α) :
    writeAt (a :: b :: c :: v) 2 x = .ok (a :: b :: x :: v) := by
  simp [writeAt]

theorem writeAt_three {α : Type} (a b c d x : α) (v : List α) :
    writeAt (a :: b :: c :: d :: v) 3 x = .ok (a :: b :: c :: x :: v) := by
  simp [writeAt]

/-- One execution of the body of `FindNBoundsPar<2>`. -/
theorem FindNBoundsPar.two_step (numbers : List Int) (hs : IsSorted numbers)
    (hsize : numbers.length ≤ 2147483646) (st : Bounds) (h1 : -1 ≤ st.left)
    (h2 : st.left < failing numbers) (h3 : (failing numbers : Int) ≤ st.right)
    (h4 : st.right ≤ numbers.length) (hg : st.left + 1 < st.right) :
    ∃ st', FindNBoundsPar.body 2 numbers st = .ok st' ∧ st.left ≤ st'.left ∧
      st'.left < failing numbers ∧ (failing numbers : Int) ≤ st'.right ∧
      st'.right ≤ st.right ∧ st'.right - st'.left < st.right - st.left := by
  have hsize' : (numbers.length : Int) ≤ 2147483646 := by exact_mod_cast hsize
  obtain ⟨x, hread, hiff⟩ := read_of_sorted numbers hs
    (st.right - max 1 ((st.right - st.left) / 2)) (by omega) (by omega)
  have e1 : toInt (st.right - st.left) = .ok (st.right - st.left) :=
    toInt_ok (by omega) (by omega)
  have e2 : divInt (st.right - st.left) 2 = .ok ((st.right - st.left) / 2) :=
    divInt_ok (by omega) (by omega) (by decide)
  have e3 : toInt 0 = .ok 0 := rfl
  have e4 : toInt st.left = .ok st.left := toInt_ok (by omega) (by omega)
  have e5 : toInt (st.right - max 1 ((st.right - st.left) / 2)) =
      .ok (st.right - max 1 ((st.right - st.left) / 2)) := toInt_ok (by omega) (by omega)
  have hrep : ∀ {α : Type} (a : α), List.replicate 3 a = [a, a, a] := fun _ => rfl
  simp only [FindNBoundsPar.body, e1, Run.run_bind_ok, Nat.cast_ofNat, e2, Nat.reduceSub,
    Nat.reduceAdd, hrep, FindNBoundsPar.fillBounds, mul_zero, add_zero, e3, e4, writeAt_zero,
    writeAt_two, e5, Int.reduceSub, writeAt_one, FindNBoundsPar.launch, readAt_one, hread,
    Int.reduceAdd, FindNBoundsPar.select, FindNBoundsPar.futureGet, async, Int.reduceEq,
    if_false, if_true, readAt_zero, readAt_two]
  by_cases hc : CheckNumber x = true
  · rw [if_pos hc]
    have := hiff.1 hc
    refine ⟨_, rfl, ?_, ?_, ?_, ?_, ?_⟩ <;> dsimp only <;> omega
  · rw [if_neg hc]
    have : ¬ (failing numbers : Int) ≤ st.right - max 1 ((st.right - st.left) / 2) :=
      fun h => hc (hiff.2 h)
    refine ⟨_, rfl, ?_, ?_, ?_, ?_, ?_⟩ <;> dsimp only <;> omega

/-- One execution of the body of `FindNBoundsPar<3>`. -/
theorem FindNBoundsPar.three_bounds_step (numbers : List Int) (hs : IsSorted numbers)
    (hsize : numbers.length ≤ 2147483646) (st : Bounds) (h1 : -1 ≤ st.left)
    (h2 : st.left < failing numbers) (h3 : (failing numbers : Int) ≤ st.right)
    (h4 : st.right ≤ numbers.length) (hg : st.left + 1 < st.right) :
    ∃ st', FindNBoundsPar.body 3 numbers st = .ok st' ∧ st.left ≤ st'.left ∧
      st'.left < failing numbers ∧ (failing numbers : Int) ≤ st'.right ∧
      st'.right ≤ st.right ∧ st'.right - st'.left < st.right - st.left := by
  have hsize' : (numbers.length : Int) ≤ 2147483646 := by exact_mod_cast hsize
  obtain ⟨x1, hread1, hiff1⟩ := read_of_sorted numbers hs
    (st.left + max 1 ((st.right - st.left) / 3)) (by omega) (by omega)
  obtain ⟨x2, hread2, hiff2⟩ := read_of_sorted numbers hs
    (st.right - max 1 ((st.right - st.left) / 3)) (by omega) (by omega)
  have e1 : toInt (st.right - st.left) = .ok (st.right - st.left) :=
    toInt_ok (by omega) (by omega)
  have e2 : divInt (st.right - st.left) 3 = .ok ((st.right - st.left) / 3) :=
    divInt_ok (by omega) (by omega) (by decide)
  have e3 : toInt 0 = .ok 0 := rfl
  have e4 : toInt st.left = .ok st.left := toInt_ok (by omega) (by omega)
  have e5 : toInt (st.right - max 1 ((st.right - st.left) / 3)) =
      .ok (st.right - max 1 ((st.right - st.left) / 3)) := toInt_ok (by omega) (by omega)
  have e6 : toInt (max 1 ((st.right - st.left) / 3)) = .ok (max 1 ((st.right - st.left) / 3)) :=
    toInt_ok (by omega) (by omega)
  have e7 : toInt (st.left + max 1 ((st.right - st.left) / 3)) =
      .ok (st.left + max 1 ((st.right - st.left) / 3)) := toInt_ok (by omega) (by omega)
  have hrep : ∀ {α : Type} (a : α), List.replicate 4 a = [a, a, a, a] := fun _ => rfl
  simp only [FindNBoundsPar.body, e1, Run.run_bind_ok, Nat.cast_ofNat, e2, Nat.reduceSub,
    Nat.reduceAdd, hrep, FindNBoundsPar.fillBounds, mul_zero, add_zero, mul_one, e3, e4, e6, e7,
    writeAt_zero, writeAt_one, writeAt_two, writeAt_three, e5, Int.reduceSub,
    FindNBoundsPar.launch, readAt_one, readAt_two, hread1, hread2, Int.reduceAdd,
    FindNBoundsPar.select, FindNBoundsPar.futureGet, async, Int.reduceEq, if_false, if_true,
    readAt_zero, readAt_three]
  by_cases hc1 : CheckNumber x1 = true
  · rw [if_pos hc1]
    have := hiff1.1 hc1
    refine ⟨_, rfl, ?_, ?_, ?_, ?_, ?_⟩ <;> dsimp only <;> omega
  · rw [if_neg hc1]
    have hn1 : ¬ (failing numbers : Int) ≤ st.left + max 1 ((st.right - st.left) / 3) :=
      fun h => hc1 (hiff1.2 h)
    by_cases hc2 : CheckNumber x2 = true
    · rw [if_pos hc2]
      have := hiff2.1 hc2
      refine ⟨_, rfl, ?_, ?_, ?_, ?_, ?_⟩ <;> dsimp only <;> omega
    · rw [if_neg hc2]
      have hn2 : ¬ (failing numbers : Int) ≤ st.right - max 1 ((st.right - st.left) / 3) :=
        fun h => hc2 (hiff2.2 h)
      refine ⟨_, rfl, ?_, ?_, ?_, ?_, ?_⟩ <;> dsimp only <;> omega

/-! ## `Find4PartsPar` at the end of the vector -/

/-- The probes of `Find4PartsPar` when `left` and `right` are two apart. -/
theorem Find4PartsPar.probes_width_two (st : Bounds) (hleft : -1 ≤ st.left)
    (hright : st.right ≤ 2147483647) (hwidth : st.right - st.left = 2) :
    Find4PartsPar.probes st = .ok (st.left + 1, st.right, st.left + 1) := by
  have hdiv : (2 : Int) / 4 = 0 := by decide
  have hmax : max (1 : Int) 0 = 1 := by decide
  have hmed2 : st.left + 1 + 1 = st.right := by omega
  have hmed3 : st.right - 1 = st.left + 1 := by omega
  unfold Find4PartsPar.probes
  rw [hwidth, toInt_ok (by decide) (by decide), Run.run_bind_ok,
    divInt_ok (by decide) (by decide) (by decide), Run.run_bind_ok, hdiv]
  simp only [hmax]
  rw [toInt_ok (by omega) (by omega), Run.run_bind_ok, toInt_ok (by omega) (by omega), Run.run_bind_ok,
    toInt_ok (by omega) (by omega), Run.run_bind_ok, hmed2, hmed3]

/-! ## The search functions within the range of `int` -/

/-- On a sorted vector of at most `2^30` elements, where `left + right` fits an `int`,
`FindSimple` returns the least passing index, given fuel for `size` executions of its body. -/
theorem FindSimple_least_index (numbers : List Int) (hsorted : IsSorted numbers)
    (hsize : numbers.length ≤ 1073741824) (fuel : Nat) (hfuel : numbers.length ≤ fuel) :
    FindSimple fuel numbers = .ok (failing numbers : Int) ∧
      IsLeastPassing numbers (failing numbers : Int) :=
  ⟨search_ok FindSimple.body numbers (by omega) (FindSimple.simple_step numbers hsorted hsize)
    fuel hfuel, isLeastPassing_failing numbers hsorted⟩

/-- On a sorted vector of fewer than `INT_MAX` elements, where `right - left` fits an `int`,
`Find3PartsSeq` and `Find3PartsPar` return the least passing index. -/
theorem Find3Parts_least_index (numbers : List Int) (hsorted : IsSorted numbers)
    (hsize : numbers.length ≤ 2147483646) (fuel : Nat) (hfuel : numbers.length ≤ fuel) :
    Find3PartsSeq fuel numbers = .ok (failing numbers : Int) ∧
      Find3PartsPar fuel numbers = .ok (failing numbers : Int) :=
  ⟨search_ok Find3PartsSeq.body numbers hsize (Find3PartsSeq.three_step numbers hsorted hsize)
    fuel hfuel,
    search_ok Find3PartsPar.body numbers hsize (Find3PartsSeq.three_step numbers hsorted hsize)
      fuel hfuel⟩

/-- On a sorted vector of fewer than `INT_MAX` elements `FindNBoundsPar<2>` and
`FindNBoundsPar<3>` return the least passing index. -/
theorem FindNBoundsPar_least_index (numbers : List Int) (hsorted : IsSorted numbers)
    (hsize : numbers.length ≤ 2147483646) (fuel : Nat) (hfuel : numbers.length ≤ fuel) :
    FindNBoundsPar 2 fuel numbers = .ok (failing numbers : Int) ∧
      FindNBoundsPar 3 fuel numbers = .ok (failing numbers : Int) :=
  ⟨search_ok (FindNBoundsPar.body 2) numbers hsize
    (FindNBoundsPar.two_step numbers hsorted hsize) fuel hfuel,
    search_ok (FindNBoundsPar.body 3) numbers hsize
      (FindNBoundsPar.three_bounds_step numbers hsorted hsize) fuel hfuel⟩

/-! ## `FindSimple` on more than `2^30` elements -/

/-- On a sorted vector of more than `2^30` elements none of which passes, the run of
`FindSimple` moves `left` up until `left + right` no longer fits an `int`: from every state
with `right = size` and `left + 2 ≤ right` the loop ends in signed overflow. -/
theorem FindSimple.overflow_run (numbers : List Int) (hs : IsSorted numbers)
    (hall : failing numbers = numbers.length) (hlow : 1073741825 ≤ numbers.length)
    (hhigh : numbers.length ≤ 2147483647) :
    ∀ (fuel : Nat) (st : Bounds), st.right = numbers.length → -1 ≤ st.left →
      st.left + 2 ≤ st.right → st.right - st.left ≤ fuel + 1 →
      searchLoop (FindSimple.body numbers) fuel st = .intOverflow := by
  have hlow' : (1073741825 : Int) ≤ numbers.length := by exact_mod_cast hlow
  have hhigh' : (numbers.length : Int) ≤ 2147483647 := by exact_mod_cast hhigh
  intro fuel
  induction fuel with
  | zero =>
    intro st _ _ h3 h4
    exfalso
    simp only [Nat.cast_zero] at h4
    omega
  | succ fuel ih =>
    intro st h1 h2 h3 h4
    simp only [searchLoop, toInt_ok (x := st.left + 1) (by omega) (by omega), Run.run_bind_ok]
    rw [if_pos (by omega)]
    by_cases hov : st.left + st.right ≤ 2147483647
    · obtain ⟨x, hread, hiff⟩ := read_of_sorted numbers hs ((st.left + st.right) / 2)
        (by omega) (by omega)
      have hfail : ¬ CheckNumber x = true := by
        intro hc
        have := hiff.1 hc
        rw [hall] at this
        omega
      have hbody : FindSimple.body numbers st =
          .ok { st with left := (st.left + st.right) / 2 } := by
        unfold FindSimple.body
        rw [toInt_ok (by omega) hov, Run.run_bind_ok,
          divInt_ok (by omega) hov (by decide), Run.run_bind_ok, hread, Run.run_bind_ok,
          if_neg hfail]
      rw [hbody, Run.run_bind_ok]
      apply ih
      · exact h1
      · show -1 ≤ (st.left + st.right) / 2
        omega
      · show (st.left + st.right) / 2 + 2 ≤ st.right
        omega
      · show st.right - (st.left + st.right) / 2 ≤ _
        push_cast at h4 ⊢
        omega
    · have hbody : FindSimple.body numbers st = .intOverflow := by
        unfold FindSimple.body
        rw [toInt_overflow (by omega), Run.run_bind_intOverflow]
      rw [hbody, Run.run_bind_intOverflow]

theorem longVector_length : longVector.length = 1073741825 :=
  List.length_replicate _ _

theorem longVector_sorted : IsSorted longVector := by
  unfold IsSorted longVector List.Sorted
  rw [List.pairwise_replicate]
  exact Or.inr (le_refl _)

theorem longVector_failing : failing longVector = 1073741825 := by
  unfold failing longVector
  rw [List.countP_replicate]
  rfl

theorem longVector_least : IsLeastPassing longVector 1073741825 := by
  have h := isLeastPassing_failing longVector longVector_sorted
  rw [longVector_failing] at h
  exact h

theorem longVector_FindSimple : FindSimple 1073741825 longVector = .intOverflow := by
  have hrun := FindSimple.overflow_run longVector longVector_sorted
    (by rw [longVector_failing, longVector_length])
    (by rw [longVector_length]) (by rw [longVector_length]; decide) 1073741825
    { left := -1, right := 1073741825 } (by rw [longVector_length]; rfl) (le_refl _)
    (by decide) (by decide)
  unfold FindSimple initial
  rw [longVector_length, toInt_ok (by decide) (by decide), Run.run_bind_ok, Run.run_bind_ok]
  exact hrun

/-! ## The statements of the specification about the search functions -/

/-- C22: on `longVector`, the sorted vector of `2^30 + 1` zeros, the least passing index is
the size `1073741825`, and `Find3PartsSeq` returns it; the run of `FindSimple` instead ends in
signed overflow; in the state `left = 2^30 - 1`, `right = 2^30 + 1` the body computes
`left + right = 2^31`, which does not fit an `int`. -/
theorem FindSimple_overflows_on_longVector :
    IsSorted longVector ∧ longVector.length = 1073741825 ∧
      IsLeastPassing longVector 1073741825 ∧
      FindSimple 1073741825 longVector = .intOverflow ∧
      FindSimple.body longVector { left := 1073741823, right := 1073741825 } = .intOverflow ∧
      Find3PartsSeq 1073741825 longVector = .ok 1073741825 := by
  refine ⟨longVector_sorted, longVector_length, longVector_least, longVector_FindSimple, ?_, ?_⟩
  · unfold FindSimple.body
    rw [toInt_overflow (by decide), Run.run_bind_intOverflow]
  · have h := (Find3Parts_least_index longVector longVector_sorted
      (by rw [longVector_length]; decide) 1073741825 (by rw [longVector_length])).1
    rw [longVector_failing] at h
    exact h

/-- C23: on `longVector`, the sorted vector of `2^30 + 1` zeros, `Find3PartsSeq` and
`Find3PartsPar` return the least passing index `1073741825` while `FindSimple` ends in signed
overflow of `left + right`, so the three-way searches do not return what `FindSimple`
returns. -/
theorem Find3Parts_differs_on_longVector :
    Find3PartsSeq 1073741825 longVector = .ok 1073741825 ∧
      Find3PartsPar 1073741825 longVector = .ok 1073741825 ∧
      FindSimple 1073741825 longVector = .intOverflow ∧
      Find3PartsSeq 1073741825 longVector ≠ FindSimple 1073741825 longVector := by
  have h := Find3Parts_least_index longVector longVector_sorted
    (by rw [longVector_length]; decide) 1073741825 (by rw [longVector_length])
  rw [longVector_failing] at h
  refine ⟨h.1, h.2, longVector_FindSimple, ?_⟩
  rw [h.1, longVector_FindSimple]
  intro hne
  cases hne

/-- C24: whenever `right - left == 2` and `right == numbers.size()`, the probes of
`Find4PartsPar` are `med1 = left + 1`, `med2 = right = numbers.size()` and `med3 = left + 1`,
the read `numbers[med2]` is outside the vector and so is the run of the loop body; on a vector
of one element, which is sorted, this is the first state of the loop. -/
theorem Find4PartsPar_reads_past_end (numbers : List Int) (st : Bounds)
    (hsize : numbers.length ≤ 2147483647) (hleft : -1 ≤ st.left)
    (hwidth : st.right - st.left = 2) (hright : st.right = numbers.length) :
    Find4PartsPar.probes st = .ok (st.left + 1, (numbers.length : Int), st.left + 1) ∧
      readAt numbers (numbers.length : Int) = .outOfRange ∧
      Find4PartsPar.body numbers st = .outOfRange ∧
      (numbers.length = 1 → IsSorted numbers ∧
        ∀ fuel, 1 ≤ fuel → Find4PartsPar fuel numbers = .outOfRange) := by
  have hsize' : (numbers.length : Int) ≤ 2147483647 := by exact_mod_cast hsize
  have hprobes := Find4PartsPar.probes_width_two st hleft (by omega) hwidth
  have hbody : Find4PartsPar.body numbers st = .outOfRange := by
    have hpos : 0 < numbers.length := by
      have : (0 : Int) < numbers.length := by omega
      exact_mod_cast this
    have hidx : st.left + 1 = ((numbers.length - 1 : Nat) : Int) := by
      rw [Nat.cast_sub hpos]
      push_cast
      omega
    unfold Find4PartsPar.body
    rw [hprobes, Run.run_bind_ok]
    simp only
    rw [hidx, readAt_ok numbers (numbers.length - 1) _
      (List.getElem?_eq_getElem (Nat.sub_lt hpos Nat.one_pos)), Run.run_bind_ok]
    rw [hright, readAt_length, Run.run_bind_outOfRange]
  refine ⟨by rw [hprobes, hright], readAt_length numbers, hbody, ?_⟩
  intro hone
  constructor
  · obtain ⟨x, hx⟩ := List.length_eq_one.1 hone
    rw [hx]
    unfold IsSorted
    exact List.sorted_singleton x
  · intro fuel hfuel
    obtain ⟨fuel, rfl⟩ : ∃ m, fuel = m + 1 := ⟨fuel - 1, by omega⟩
    have hst : st = { left := -1, right := 1 } := by
      have hr : st.right = 1 := by rw [hright, hone]; rfl
      cases st
      simp only [Bounds.mk.injEq]
      simp only at hr hwidth
      omega
    rw [hst] at hbody
    unfold Find4PartsPar initial
    rw [hone]
    simp only [Nat.cast_one, toInt_ok (x := 1) (by decide) (by decide), Run.run_bind_ok, searchLoop,
      Int.reduceNeg, Int.reduceAdd, toInt_ok (x := 0) (by decide) (by decide), Int.reduceLT,
      if_true, hbody, Run.run_bind_outOfRange, neg_add_cancel]

/-- Witness of C24 on the one-element vector `[5]`. -/
theorem Find4PartsPar_reads_past_end_witness :
    Find4PartsPar.probes { left := -1, right := 1 } = .ok (0, 1, 0) ∧
      readAt ([5] : List Int) 1 = .outOfRange ∧
      Find4PartsPar.body [5] { left := -1, right := 1 } = .outOfRange ∧
      Find4PartsPar 1 [5] = .outOfRange :=
  have h := Find4PartsPar_reads_past_end [5] { left := -1, right := 1 } (by decide) (by decide)
    (by decide) (by decide)
  ⟨h.1, h.2.1, h.2.2.1, (h.2.2.2 rfl).2 1 (Nat.le_refl 1)⟩

/-- C25: on `longVector`, the sorted vector of `2^30 + 1` zeros, `FindNBoundsPar<2>` and
`FindNBoundsPar<3>` return the least passing index `1073741825` while `FindSimple` ends in
signed overflow of `left + right`, so they do not return what `FindSimple` returns. -/
theorem FindNBoundsPar_differs_on_longVector :
    FindNBoundsPar 2 1073741825 longVector = .ok 1073741825 ∧
      FindNBoundsPar 3 1073741825 longVector = .ok 1073741825 ∧
      FindSimple 1073741825 longVector = .intOverflow ∧
      FindNBoundsPar 2 1073741825 longVector ≠ FindSimple 1073741825 longVector ∧
      FindNBoundsPar 3 1073741825 longVector ≠ FindSimple 1073741825 longVector := by
  have h := FindNBoundsPar_least_index longVector longVector_sorted
    (by rw [longVector_length]; decide) 1073741825 (by rw [longVector_length])
  rw [longVector_failing] at h
  refine ⟨h.1, h.2, longVector_FindSimple, ?_, ?_⟩
  · rw [h.1, longVector_FindSimple]
    intro hne
    cases hne
  · rw [h.2, longVector_FindSimple]
    intro hne
    cases hne

end Binsearch
